import Mathlib

/-!
Verification of the CPU scheduling simulator (`scheduler.py`) against its
natural-language specification.  The Python classes `Process` and `Scheduler`
are shallowly embedded: Python ints become `Int`, the mutable process list
becomes a `List Process` updated positionally (Python mutates objects held by
reference; we identify a process by its index in `Scheduler.processes`, so the
ready queues below are lists of indices), `//` becomes `Int.fdiv`, and each
`while completed < n` loop becomes a fuel-indexed iteration `iterWhile` whose
termination is proved separately.  Python's stable `list.sort` / `sorted` is
embedded as the stable insertion sort `pySort` (any two stable sorts under the
same strict-precedence relation agree elementwise, so this is exact), and
Python's `min` / `max` with a key, which return the first extremal element,
become `pyMinBy` / `pyMaxByLex`.
-/

namespace Sched

/-- Embeds the Python class `Process` (scheduler.py lines 3-16): static inputs
`pid`, `ppid`, `burst_time`, `arrival_time`, `original_priority`, and mutable
run-state `current_priority`, `remaining_time`, `start_time`,
`completion_time`, `waiting_time`, `turnaround_time`, `is_completed`. -/
structure Process where
  pid : String
  ppid : String
  burst_time : Int
  arrival_time : Int
  original_priority : Int
  current_priority : Int
  remaining_time : Int
  start_time : Int
  completion_time : Int
  waiting_time : Int
  turnaround_time : Int
  is_completed : Bool
deriving Repr, DecidableEq, Inhabited

/-- The `Process.__init__` constructor: `current_priority = priority`,
`remaining_time = burst_time`, `start_time = -1`, the other metrics zero. -/
def Process.make (pid ppid : String) (burst_time arrival_time priority : Int) : Process :=
  { pid := pid, ppid := ppid, burst_time := burst_time, arrival_time := arrival_time,
    original_priority := priority, current_priority := priority,
    remaining_time := burst_time, start_time := -1, completion_time := 0,
    waiting_time := 0, turnaround_time := 0, is_completed := false }

/-- One record of `Scheduler.starvation_log`: the dict
`{"Time", "PID", "Old Priority", "New Priority", "Waited"}`. -/
structure StarveEvent where
  time : Int
  pid : String
  old_priority : Int
  new_priority : Int
  waited : Int
deriving Repr, DecidableEq

/-- One entry of `Scheduler.execution_log`: the tuple `(pid, start_tick, end_tick)`. -/
abbrev Slice := String × Int × Int

/-- One record returned by `Scheduler.detect_starvation`: the dict
`{"PID", "Waiting Time", "Threshold", "Blocked By", "Reason"}`. -/
structure StarveRecord where
  pid : String
  waiting_time : Int
  threshold : Int
  blocked_by : Nat
  reason : String
deriving Repr, DecidableEq

/-- The externally visible state of a `Scheduler` after a run: the process
list (in insertion order) and the two logs. -/
structure Scheduler where
  processes : List Process
  execution_log : List Slice
  starvation_log : List StarveEvent
deriving Repr, DecidableEq

/-- The full in-loop simulation state.  `ready_queue` (SJF, Priority
non-preemptive, and the Round Robin `queue`) and `pending` (Round Robin's
sorted `proc_list[idx:]` suffix; `idx` itself is recovered as
`n - pending.length`) hold indices into `processes`. -/
structure SimSt where
  processes : List Process
  current_time : Int
  completed : Nat
  execution_log : List Slice
  starvation_log : List StarveEvent
  ready_queue : List Nat
  pending : List Nat
deriving Repr, DecidableEq

/-- Reads the process at index `i` (total, with a default for out-of-range
indices, which the invariants below exclude). -/
def getP (ps : List Process) (i : Nat) : Process := ps.getD i default

/-- Writes the process at index `i` (Python's in-place object mutation). -/
def setP (ps : List Process) (i : Nat) (p : Process) : List Process := ps.set i p

/-- Stable insertion step: `x` is placed before the first element that does
not strictly precede it (`lt y x` reads "y strictly precedes x"). -/
def insertSorted (lt : α → α → Bool) (x : α) : List α → List α
  | [] => [x]
  | y :: ys => if lt y x then y :: insertSorted lt x ys else x :: y :: ys

/-- Stable sort, embedding Python's stable `list.sort` / `sorted`: elements
are inserted back-to-front, so an element never moves past one it ties with
that originally preceded it. -/
def pySort (lt : α → α → Bool) : List α → List α
  | [] => []
  | x :: xs => insertSorted lt x (pySort lt xs)

/-- Python's `min(l, key=k)` on a nonempty list: the first element with
minimal key (a later element replaces the champion only when strictly
smaller). -/
def pyMinBy (k : Nat → Int) (c : Nat) (cs : List Nat) : Nat :=
  cs.foldl (fun m y => if k y < k m then y else m) c

/-- Strict lexicographic order on `Int × Int`, for Python's tuple `<`. -/
def lexLt (a b : Int × Int) : Bool := a.1 < b.1 || (a.1 = b.1 && a.2 < b.2)

/-- Python's `max(l, key=k)` with a pair-valued key on a nonempty list: the
first element with maximal key (a later element replaces the champion only
when strictly greater). -/
def pyMaxByLex (k : Nat → Int × Int) (c : Nat) (cs : List Nat) : Nat :=
  cs.foldl (fun m y => if lexLt (k m) (k y) then y else m) c

/-- Embeds `Scheduler.reset_processes` on one process (lines 44-51). -/
def resetProcess (p : Process) : Process :=
  { p with remaining_time := p.burst_time, start_time := -1, completion_time := 0,
           waiting_time := 0, turnaround_time := 0, is_completed := false,
           current_priority := p.original_priority }

/-- Embeds `Scheduler.reset_processes` (lines 40-51); the logs are cleared by
starting each run from an empty-log state. -/
def reset_processes (ps : List Process) : List Process := ps.map resetProcess

/-- Indices `0..n-1` stably sorted by ascending `arrival_time`, embedding
`sorted(self.processes, key=lambda x: x.arrival_time)` (lines 57 and 189). -/
def sortedOrder (ps : List Process) : List Nat :=
  pySort (fun i j => (getP ps i).arrival_time < (getP ps j).arrival_time)
    (List.range ps.length)

/-- Fuel-indexed while loop: runs `step` while `done` is false, up to `fuel`
iterations.  Each Python `while completed < n` loop is this combinator with
enough fuel; termination proofs show the fuel bound is never reached. -/
def iterWhile (done : σ → Bool) (step : σ → σ) : Nat → σ → σ
  | 0, st => st
  | fuel + 1, st => if done st then st else iterWhile done step fuel (step st)

/-- Guard of every main loop: the negation of `completed < n`. -/
def loopDone (n : Nat) (st : SimSt) : Bool := decide (n ≤ st.completed)

/-- Initial loop state after `reset_processes`: time 0, nothing completed,
both logs empty. -/
def initSt (ps : List Process) : SimSt :=
  { processes := reset_processes ps, current_time := 0, completed := 0,
    execution_log := [], starvation_log := [], ready_queue := [], pending := [] }

/-- Projects the final loop state back to the scheduler's visible fields. -/
def SimSt.toScheduler (st : SimSt) : Scheduler :=
  { processes := st.processes, execution_log := st.execution_log,
    starvation_log := st.starvation_log }

/-! ### FCFS (lines 53-69) -/

/-- One iteration of the FCFS `for` loop (lines 59-69): take the next process
in arrival order, jump the clock to its arrival if idle, record its single
contiguous slice, and finalize its metrics. -/
def fcfs_step (order : List Nat) (st : SimSt) : SimSt :=
  let i := order.getD st.completed 0
  let p := getP st.processes i
  let time := if st.current_time < p.arrival_time then p.arrival_time else st.current_time
  let completion := time + p.burst_time
  let p := { p with start_time := time, completion_time := completion,
                    turnaround_time := completion - p.arrival_time,
                    waiting_time := (completion - p.arrival_time) - p.burst_time,
                    is_completed := true }
  { st with processes := setP st.processes i p,
            current_time := completion,
            execution_log := st.execution_log ++ [(p.pid, time, completion)],
            completed := st.completed + 1 }

/-- Embeds `Scheduler.run_fcfs` with explicit fuel (one unit per process). -/
def run_fcfs_fuel (fuel : Nat) (ps : List Process) : Scheduler :=
  let st0 := initSt ps
  (iterWhile (loopDone ps.length) (fcfs_step (sortedOrder st0.processes)) fuel st0).toScheduler

/-- Embeds `Scheduler.run_fcfs` (lines 53-69). -/
def run_fcfs (ps : List Process) : Scheduler := run_fcfs_fuel ps.length ps

/-! ### SJF (lines 71-125) -/

/-- The SJF aging recomputation for one queued process (lines 94-109):
`wait_duration = current_time - arrival_time`, the effective burst time is
`max(0, burst_time - (wait_duration // aging_interval) * aging_step)`, and an
event is appended exactly when the stored `current_priority` changes. -/
def sjf_aging_update (aging_interval aging_step current_time : Int) (p : Process) :
    Process × Option StarveEvent :=
  let wait_duration := current_time - p.arrival_time
  let reduction := (Int.fdiv wait_duration aging_interval) * aging_step
  let old_prio := p.current_priority
  let new_prio := max 0 (p.burst_time - reduction)
  ({ p with current_priority := new_prio },
   if new_prio ≠ old_prio then
     some { time := current_time, pid := p.pid, old_priority := old_prio,
            new_priority := new_prio, waited := wait_duration }
   else none)

/-- Shared shape of the four aging passes (the Python loops at lines 94-109,
144-161, 211-228 and 335-348 are textually identical up to the update
formula): recompute each listed process's effective value with `upd`, write
it back in place, and append the emitted log events in order. -/
def aging_pass (upd : Int → Process → Process × Option StarveEvent)
    (l : List Nat) (st : SimSt) : SimSt :=
  l.foldl
    (fun st i =>
      let r := upd st.current_time (getP st.processes i)
      { st with processes := setP st.processes i r.1,
                starvation_log := st.starvation_log ++ r.2.toList }) st

/-- The SJF arrival scan (lines 81-86): append every arrived, incomplete
process not already queued; with aging on, seed its `current_priority` with
its burst time. -/
def sjf_admit (aging_enabled : Bool) (st : SimSt) : SimSt :=
  (List.range st.processes.length).foldl
    (fun st i =>
      let p := getP st.processes i
      if p.arrival_time ≤ st.current_time ∧ p.is_completed = false ∧ i ∉ st.ready_queue then
        { st with
          processes := if aging_enabled then
              setP st.processes i { p with current_priority := p.burst_time }
            else st.processes,
          ready_queue := st.ready_queue ++ [i] }
      else st) st

/-- The SJF aging pass over the ready queue (lines 93-109). -/
def sjf_age (aging_interval aging_step : Int) (st : SimSt) : SimSt :=
  aging_pass (sjf_aging_update aging_interval aging_step) st.ready_queue st

/-- Clock tick taken when no process is ready (lines 88-90, 138-140, 205-207,
269-271 and 300-302 all read `current_time += 1; continue`). -/
def idle_tick (st : SimSt) : SimSt := { st with current_time := st.current_time + 1 }

/-- Dispatch of the head of the ready queue, shared verbatim by SJF (lines
117-125) and Priority non-preemptive (lines 353-364): run it to completion in
one contiguous slice, set `start_time`, and finalize its metrics. -/
def np_dispatch (st : SimSt) : SimSt :=
  match st.ready_queue with
  | [] => st
  | i :: rest =>
    let p := getP st.processes i
    let t := st.current_time
    let completion := t + p.burst_time
    let p := { p with start_time := t, completion_time := completion,
                      turnaround_time := completion - p.arrival_time,
                      waiting_time := (completion - p.arrival_time) - p.burst_time,
                      is_completed := true }
    { st with processes := setP st.processes i p,
              ready_queue := rest,
              current_time := completion,
              execution_log := st.execution_log ++ [(p.pid, t, completion)],
              completed := st.completed + 1 }

/-- One-tick execution of process `j`, shared verbatim by SRTF (lines
169-180) and Priority preemptive (lines 276-285): log a one-tick slice,
decrement the remaining time, finalize when it reaches zero (`start_time` is
not written in either source routine). -/
def tick_exec (j : Nat) (st : SimSt) : SimSt :=
  let p := getP st.processes j
  let elog := st.execution_log ++ [(p.pid, st.current_time, st.current_time + 1)]
  let p := { p with remaining_time := p.remaining_time - 1 }
  let t := st.current_time + 1
  if p.remaining_time = 0 then
    let p := { p with completion_time := t, turnaround_time := t - p.arrival_time,
                      waiting_time := (t - p.arrival_time) - p.burst_time,
                      is_completed := true }
    { st with processes := setP st.processes j p, current_time := t,
              execution_log := elog, completed := st.completed + 1 }
  else
    { st with processes := setP st.processes j p, current_time := t,
              execution_log := elog }

/-- The SJF aging-and-sort block (lines 93-115): with aging, recompute every
queued effective burst time then stably sort ascending by it; without aging,
stably sort ascending by the static burst time. -/
def sjf_select (aging_enabled : Bool) (aging_interval aging_step : Int) (st : SimSt) : SimSt :=
  if aging_enabled then
    let st := sjf_age aging_interval aging_step st
    { st with ready_queue := (pySort
        (fun i j => (getP st.processes i).current_priority < (getP st.processes j).current_priority)
        st.ready_queue) }
  else
    { st with ready_queue := (pySort
        (fun i j => (getP st.processes i).burst_time < (getP st.processes j).burst_time)
        st.ready_queue) }

/-- One iteration of the SJF `while` loop (lines 79-125): admit arrivals; if
the queue is empty advance the clock one tick; otherwise age-and-sort, then
run the head to completion. -/
def sjf_step (aging_enabled : Bool) (aging_interval aging_step : Int) (st : SimSt) : SimSt :=
  let st := sjf_admit aging_enabled st
  if st.ready_queue.isEmpty then idle_tick st
  else np_dispatch (sjf_select aging_enabled aging_interval aging_step st)

/-- Largest arrival time (at least 0), used only for fuel bounds. -/
def maxArrival (ps : List Process) : Nat :=
  ((ps.map (fun p : Process => p.arrival_time)).foldl max (0 : Int)).toNat

/-- Total burst time as a natural number, used only for fuel bounds. -/
def burstSumNat (ps : List Process) : Nat :=
  (ps.map (fun p => p.burst_time.toNat)).sum

/-- Fuel bound for SJF and Priority non-preemptive: at most `maxArrival`
idle ticks plus one dispatch per process. -/
def np_fuel (ps : List Process) : Nat := ps.length + maxArrival ps + 1

/-- Embeds `Scheduler.run_sjf` with explicit fuel. -/
def run_sjf_fuel (fuel : Nat) (aging_enabled : Bool) (aging_interval aging_step : Int)
    (ps : List Process) : Scheduler :=
  (iterWhile (loopDone ps.length) (sjf_step aging_enabled aging_interval aging_step)
    fuel (initSt ps)).toScheduler

/-- Embeds `Scheduler.run_sjf` (lines 71-125). -/
def run_sjf (aging_enabled : Bool) (aging_interval aging_step : Int)
    (ps : List Process) : Scheduler :=
  run_sjf_fuel (np_fuel ps) aging_enabled aging_interval aging_step ps

/-! ### SRTF (lines 127-180) -/

/-- The SRTF aging recomputation for one candidate (lines 144-161):
`executed = burst_time - remaining_time`,
`wait_duration = (current_time - arrival_time) - executed`, the effective
remaining time is `max(0, remaining_time - (wait_duration // aging_interval)
* aging_step)`, and the baseline compared against is `current_priority` when
that differs from `original_priority` and `remaining_time` otherwise (the
source's sentinel at line 151). -/
def srtf_aging_update (aging_interval aging_step current_time : Int) (p : Process) :
    Process × Option StarveEvent :=
  let executed := p.burst_time - p.remaining_time
  let wait_duration := (current_time - p.arrival_time) - executed
  let reduction := (Int.fdiv wait_duration aging_interval) * aging_step
  let old_prio := if p.current_priority ≠ p.original_priority then p.current_priority
                  else p.remaining_time
  let new_prio := max 0 (p.remaining_time - reduction)
  ({ p with current_priority := new_prio },
   if new_prio ≠ old_prio then
     some { time := current_time, pid := p.pid, old_priority := old_prio,
            new_priority := new_prio, waited := wait_duration }
   else none)

/-- One iteration of the SRTF `while` loop (lines 134-180): among arrived,
incomplete processes (in list order), optionally age each one, pick the first
with minimal effective (or plain) remaining time, run it for one tick, and
finalize it when its remaining time reaches zero. -/
def srtf_step (aging_enabled : Bool) (aging_interval aging_step : Int) (st : SimSt) : SimSt :=
  let candidates := (List.range st.processes.length).filter
    (fun i => decide ((getP st.processes i).arrival_time ≤ st.current_time ∧
                      (getP st.processes i).is_completed = false))
  match candidates with
  | [] => idle_tick st
  | c :: cs =>
    let st :=
      if aging_enabled then
        aging_pass (srtf_aging_update aging_interval aging_step) (c :: cs) st
      else st
    let j :=
      if aging_enabled then pyMinBy (fun i => (getP st.processes i).current_priority) c cs
      else pyMinBy (fun i => (getP st.processes i).remaining_time) c cs
    tick_exec j st

/-- Fuel bound for the tick-driven loops (SRTF, Priority preemptive): at most
`maxArrival` idle ticks plus one tick per unit of burst. -/
def tick_fuel (ps : List Process) : Nat := burstSumNat ps + maxArrival ps + 1

/-- Embeds `Scheduler.run_srtf` with explicit fuel. -/
def run_srtf_fuel (fuel : Nat) (aging_enabled : Bool) (aging_interval aging_step : Int)
    (ps : List Process) : Scheduler :=
  (iterWhile (loopDone ps.length) (srtf_step aging_enabled aging_interval aging_step)
    fuel (initSt ps)).toScheduler

/-- Embeds `Scheduler.run_srtf` (lines 127-180). -/
def run_srtf (aging_enabled : Bool) (aging_interval aging_step : Int)
    (ps : List Process) : Scheduler :=
  run_srtf_fuel (tick_fuel ps) aging_enabled aging_interval aging_step ps

/-! ### Round Robin (lines 182-257) -/

/-- The Round Robin aging recomputation for one queued process (lines
211-228): `wait_duration = (current_time - arrival_time) - executed`, the
effective priority is `original_priority + (wait_duration // aging_interval)
* aging_step`, and an event is appended exactly when the stored
`current_priority` changes. -/
def rr_aging_update (aging_interval aging_step current_time : Int) (p : Process) :
    Process × Option StarveEvent :=
  let executed := p.burst_time - p.remaining_time
  let wait_duration := (current_time - p.arrival_time) - executed
  let boost := (Int.fdiv wait_duration aging_interval) * aging_step
  let old_prio := p.current_priority
  let new_prio := p.original_priority + boost
  ({ p with current_priority := new_prio },
   if new_prio ≠ old_prio then
     some { time := current_time, pid := p.pid, old_priority := old_prio,
            new_priority := new_prio, waited := wait_duration }
   else none)

/-- The Round Robin arrival scan (`while idx < n and
proc_list[idx].arrival_time <= current_time`, lines 194-196, 202-204 and
242-248): move the arrived prefix of `pending` to the tail of the queue. -/
def rr_admit (ps : List Process) (t : Int) (queue pending : List Nat) :
    List Nat × List Nat :=
  match pending with
  | [] => (queue, [])
  | i :: rest =>
    if (getP ps i).arrival_time ≤ t then rr_admit ps t (queue ++ [i]) rest
    else (queue, i :: rest)

/-- The Round Robin aging pass over the queue (lines 210-232): recompute each
queued process's effective priority, then stably sort the queue descending by
it (`reverse=True`). -/
def rr_age (aging_interval aging_step : Int) (st : SimSt) : SimSt :=
  let st := aging_pass (rr_aging_update aging_interval aging_step) st.ready_queue st
  { st with ready_queue := (pySort
      (fun i j => (getP st.processes i).current_priority > (getP st.processes j).current_priority)
      st.ready_queue) }

/-- One iteration of the Round Robin `while` loop (lines 198-257): with an
empty queue either fast-forward to the next arrival (bulk-admitting it and
everything at or before it) or, with no arrivals left, tick the clock;
otherwise optionally age and re-sort, pop the head, run it for
`min(time_quantum, remaining_time)`, admit arrivals that occurred during the
slice, then re-queue the process if unfinished or finalize it. -/
def rr_step (time_quantum : Int) (aging_enabled : Bool) (aging_interval aging_step : Int)
    (st : SimSt) : SimSt :=
  if st.ready_queue.isEmpty then
    match st.pending with
    | [] => idle_tick st
    | i :: rest =>
      let t := (getP st.processes i).arrival_time
      let qp := rr_admit st.processes t st.ready_queue (i :: rest)
      { st with current_time := t, ready_queue := qp.1, pending := qp.2 }
  else
    let st := if aging_enabled then rr_age aging_interval aging_step st else st
    match st.ready_queue with
    | [] => st
    | i :: rest =>
      let p := getP st.processes i
      let exec_time := min time_quantum p.remaining_time
      let t := st.current_time + exec_time
      let elog := st.execution_log ++ [(p.pid, st.current_time, t)]
      let p := { p with remaining_time := p.remaining_time - exec_time }
      let ps := setP st.processes i p
      let qp := rr_admit ps t rest st.pending
      if 0 < p.remaining_time then
        { st with processes := ps, current_time := t, execution_log := elog,
                  ready_queue := qp.1 ++ [i], pending := qp.2 }
      else
        let p := { p with completion_time := t,
                          turnaround_time := t - p.arrival_time,
                          waiting_time := (t - p.arrival_time) - p.burst_time,
                          is_completed := true }
        { st with processes := setP ps i p, current_time := t, execution_log := elog,
                  ready_queue := qp.1, pending := qp.2, completed := st.completed + 1 }

/-- Fuel bound for Round Robin: every iteration either admits a pending
process or executes at least one unit of burst. -/
def rr_fuel (ps : List Process) : Nat := burstSumNat ps + ps.length + 1

/-- The initial Round-Robin state: time 0, all processes pending in arrival
order, with the initial enqueue (lines 194-196) already applied. -/
def rrInit (ps : List Process) : SimSt :=
  let st0 := initSt ps
  let qp := rr_admit st0.processes 0 [] (sortedOrder st0.processes)
  { st0 with ready_queue := qp.1, pending := qp.2 }

/-- Embeds `Scheduler.run_round_robin` with explicit fuel.  The initial
enqueue (lines 194-196) admits everything arrived at time 0. -/
def run_round_robin_fuel (fuel : Nat) (time_quantum : Int) (aging_enabled : Bool)
    (aging_interval aging_step : Int) (ps : List Process) : Scheduler :=
  (iterWhile (loopDone ps.length)
    (rr_step time_quantum aging_enabled aging_interval aging_step) fuel
    (rrInit ps)).toScheduler

/-- Embeds `Scheduler.run_round_robin` (lines 182-257). -/
def run_round_robin (time_quantum : Int) (aging_enabled : Bool)
    (aging_interval aging_step : Int) (ps : List Process) : Scheduler :=
  run_round_robin_fuel (rr_fuel ps) time_quantum aging_enabled aging_interval aging_step ps

/-! ### Priority preemptive (lines 259-285) -/

/-- One iteration of the Priority-preemptive `while` loop (lines 266-285):
among arrived, incomplete processes pick the first maximal under the key
`(current_priority, -arrival_time)`, run it one tick, finalize at zero. -/
def pp_step (st : SimSt) : SimSt :=
  let candidates := (List.range st.processes.length).filter
    (fun i => decide ((getP st.processes i).arrival_time ≤ st.current_time ∧
                      (getP st.processes i).is_completed = false))
  match candidates with
  | [] => idle_tick st
  | c :: cs =>
    let j := pyMaxByLex
      (fun i => ((getP st.processes i).current_priority, -(getP st.processes i).arrival_time)) c cs
    tick_exec j st

/-- Embeds `Scheduler.run_priority_preemptive` with explicit fuel. -/
def run_priority_preemptive_fuel (fuel : Nat) (ps : List Process) : Scheduler :=
  (iterWhile (loopDone ps.length) pp_step fuel (initSt ps)).toScheduler

/-- Embeds `Scheduler.run_priority_preemptive` (lines 259-285). -/
def run_priority_preemptive (ps : List Process) : Scheduler :=
  run_priority_preemptive_fuel (tick_fuel ps) ps

/-! ### Priority non-preemptive (lines 287-364) -/

/-- The Priority-non-preemptive aging recomputation for one queued process
(lines 334-348): `wait_duration = current_time - arrival_time`, the effective
priority is `original_priority + (wait_duration // aging_interval) *
aging_step`, and an event is appended exactly when the stored
`current_priority` changes. -/
def pnp_aging_update (aging_interval aging_step current_time : Int) (p : Process) :
    Process × Option StarveEvent :=
  let wait_duration := current_time - p.arrival_time
  let boost := (Int.fdiv wait_duration aging_interval) * aging_step
  let old_prio := p.current_priority
  let new_prio := p.original_priority + boost
  ({ p with current_priority := new_prio },
   if new_prio ≠ old_prio then
     some { time := current_time, pid := p.pid, old_priority := old_prio,
            new_priority := new_prio, waited := wait_duration }
   else none)

/-- The Priority-non-preemptive arrival scan (lines 296-298): like SJF's but
without touching `current_priority`. -/
def pnp_admit (st : SimSt) : SimSt :=
  (List.range st.processes.length).foldl
    (fun st i =>
      let p := getP st.processes i
      if p.arrival_time ≤ st.current_time ∧ p.is_completed = false ∧ i ∉ st.ready_queue then
        { st with ready_queue := st.ready_queue ++ [i] }
      else st) st

/-- The Priority-non-preemptive aging pass (lines 334-348). -/
def pnp_age (aging_interval aging_step : Int) (st : SimSt) : SimSt :=
  aging_pass (pnp_aging_update aging_interval aging_step) st.ready_queue st

/-- The Priority-non-preemptive aging-and-sort block (lines 334-351):
optionally age, then stably sort descending by `current_priority` (line 351
sorts by the current priority whether or not aging is enabled). -/
def pnp_select (aging_enabled : Bool) (aging_interval aging_step : Int) (st : SimSt) : SimSt :=
  let st := if aging_enabled then pnp_age aging_interval aging_step st else st
  { st with ready_queue := (pySort
      (fun i j => (getP st.processes i).current_priority > (getP st.processes j).current_priority)
      st.ready_queue) }

/-- One iteration of the Priority-non-preemptive `while` loop (lines
294-364): admit arrivals; if the queue is empty advance one tick; otherwise
optionally age, stably sort descending by `current_priority` (line 351,
aging-enabled or not), and run the head to completion. -/
def pnp_step (aging_enabled : Bool) (aging_interval aging_step : Int) (st : SimSt) : SimSt :=
  let st := pnp_admit st
  if st.ready_queue.isEmpty then idle_tick st
  else np_dispatch (pnp_select aging_enabled aging_interval aging_step st)

/-- Embeds `Scheduler.run_priority_non_preemptive` with explicit fuel. -/
def run_priority_non_preemptive_fuel (fuel : Nat) (aging_enabled : Bool)
    (aging_interval aging_step : Int) (ps : List Process) : Scheduler :=
  (iterWhile (loopDone ps.length) (pnp_step aging_enabled aging_interval aging_step)
    fuel (initSt ps)).toScheduler

/-- Embeds `Scheduler.run_priority_non_preemptive` (lines 287-364). -/
def run_priority_non_preemptive (aging_enabled : Bool) (aging_interval aging_step : Int)
    (ps : List Process) : Scheduler :=
  run_priority_non_preemptive_fuel (np_fuel ps) aging_enabled aging_interval aging_step ps

/-! ### Starvation detection (lines 366-388) -/

/-- Builds one starvation record (lines 375-387), including the
`Reason` string. -/
def starvation_record (starvation_threshold : Int) (higher_prio_count : Nat)
    (p : Process) : StarveRecord :=
  let w := p.waiting_time
  let base := "Waited " ++ toString w ++ " units, exceeding threshold " ++
              toString starvation_threshold ++ "."
  { pid := p.pid, waiting_time := w, threshold := starvation_threshold,
    blocked_by := higher_prio_count,
    reason := if 0 < higher_prio_count then
        base ++ " Likely starved by " ++ toString higher_prio_count ++
          " higher priority processes."
      else base }

/-- Embeds `Scheduler.detect_starvation` (lines 366-388): scan the process
list, flag every process whose `waiting_time` strictly exceeds the threshold,
and count the processes with strictly greater `original_priority`.  The
method writes nothing, so the scheduler is returned unchanged. -/
def detect_starvation (s : Scheduler) (starvation_threshold : Int) :
    List StarveRecord × Scheduler :=
  (s.processes.foldl
    (fun acc p =>
      if starvation_threshold < p.waiting_time then
        acc ++ [starvation_record starvation_threshold
          ((s.processes.filter
            (fun x => decide (p.original_priority < x.original_priority))).length) p]
      else acc) [], s)

/-! ### The six entry points as one dispatcher -/

/-- A call to one of the six algorithm entry points with its parameters. -/
inductive AlgCall where
  | fcfs
  | sjf (aging_enabled : Bool) (aging_interval aging_step : Int)
  | srtf (aging_enabled : Bool) (aging_interval aging_step : Int)
  | round_robin (time_quantum : Int) (aging_enabled : Bool) (aging_interval aging_step : Int)
  | priority_preemptive
  | priority_non_preemptive (aging_enabled : Bool) (aging_interval aging_step : Int)
deriving Repr, DecidableEq

/-- Configuration validity from the spec (section 6): `time_quantum ≥ 1`,
`aging_interval ≥ 1`, `aging_step ≥ 1`. -/
def AlgCall.valid : AlgCall → Prop
  | .fcfs => True
  | .sjf _ I S => 1 ≤ I ∧ 1 ≤ S
  | .srtf _ I S => 1 ≤ I ∧ 1 ≤ S
  | .round_robin q _ I S => 1 ≤ q ∧ 1 ≤ I ∧ 1 ≤ S
  | .priority_preemptive => True
  | .priority_non_preemptive _ I S => 1 ≤ I ∧ 1 ≤ S

instance : DecidablePred AlgCall.valid := fun a =>
  match a with
  | .fcfs => inferInstanceAs (Decidable True)
  | .sjf _ _ _ => inferInstanceAs (Decidable (_ ∧ _))
  | .srtf _ _ _ => inferInstanceAs (Decidable (_ ∧ _))
  | .round_robin _ _ _ _ => inferInstanceAs (Decidable (_ ∧ _))
  | .priority_preemptive => inferInstanceAs (Decidable True)
  | .priority_non_preemptive _ _ _ => inferInstanceAs (Decidable (_ ∧ _))

/-- Runs the selected entry point with the given loop fuel. -/
def runAlgFuel (a : AlgCall) (fuel : Nat) (ps : List Process) : Scheduler :=
  match a with
  | .fcfs => run_fcfs_fuel fuel ps
  | .sjf b I S => run_sjf_fuel fuel b I S ps
  | .srtf b I S => run_srtf_fuel fuel b I S ps
  | .round_robin q b I S => run_round_robin_fuel fuel q b I S ps
  | .priority_preemptive => run_priority_preemptive_fuel fuel ps
  | .priority_non_preemptive b I S => run_priority_non_preemptive_fuel fuel b I S ps

/-- The fuel each entry point is run with (a proved upper bound on its
iteration count). -/
def algFuel (a : AlgCall) (ps : List Process) : Nat :=
  match a with
  | .fcfs => ps.length
  | .sjf _ _ _ => np_fuel ps
  | .srtf _ _ _ => tick_fuel ps
  | .round_robin _ _ _ _ => rr_fuel ps
  | .priority_preemptive => tick_fuel ps
  | .priority_non_preemptive _ _ _ => np_fuel ps

/-- Runs the selected entry point, embedding the corresponding Python method. -/
def runAlg (a : AlgCall) (ps : List Process) : Scheduler :=
  runAlgFuel a (algFuel a ps) ps

/-! ### Observations the claims are stated over -/

/-- Total burst time of a process set. -/
def burstSum (ps : List Process) : Int := (ps.map (fun p => p.burst_time)).sum

/-- Total remaining time of a process set. -/
def remSum (ps : List Process) : Int := (ps.map (fun p => p.remaining_time)).sum

/-- Sum over execution-log slices of `end_tick - start_tick`. -/
def sliceSum (l : List Slice) : Int := (l.map (fun sl => sl.2.2 - sl.2.1)).sum

/-- Input validity from the spec (section 6): every process has
`burst_time ≥ 1` and `arrival_time ≥ 0`. -/
def ValidInput (ps : List Process) : Prop :=
  ∀ p ∈ ps, 1 ≤ p.burst_time ∧ 0 ≤ p.arrival_time

instance : DecidablePred ValidInput := fun ps =>
  inferInstanceAs (Decidable (∀ p ∈ ps, _ ∧ _))

/-- Two process lists agree on all static inputs (pid, ppid, burst, arrival,
original priority) position by position; the mutable run-state may differ. -/
def StaticEq (ps qs : List Process) : Prop :=
  ps.length = qs.length ∧
  ∀ i, i < ps.length →
    (getP ps i).pid = (getP qs i).pid ∧
    (getP ps i).ppid = (getP qs i).ppid ∧
    (getP ps i).burst_time = (getP qs i).burst_time ∧
    (getP ps i).arrival_time = (getP qs i).arrival_time ∧
    (getP ps i).original_priority = (getP qs i).original_priority

instance (ps qs : List Process) : Decidable (StaticEq ps qs) :=
  inferInstanceAs (Decidable (_ ∧ _))

/-- First execution-log slice carrying a given pid, if any. -/
def firstSlice (l : List Slice) (pid : String) : Option Slice :=
  l.find? (fun sl => sl.1 == pid)

/-! ### Invariants and termination measures -/

/-- Remaining work as a natural number (termination measures only). -/
def remNatSum (ps : List Process) : Nat :=
  (ps.map (fun p => p.remaining_time.toNat)).sum

/-- All fields except `current_priority` agree: what one aging write
preserves. -/
def agreeButPrio (p q : Process) : Prop :=
  q.pid = p.pid ∧ q.ppid = p.ppid ∧ q.burst_time = p.burst_time ∧
  q.arrival_time = p.arrival_time ∧ q.original_priority = p.original_priority ∧
  q.remaining_time = p.remaining_time ∧ q.start_time = p.start_time ∧
  q.completion_time = p.completion_time ∧ q.waiting_time = p.waiting_time ∧
  q.turnaround_time = p.turnaround_time ∧ q.is_completed = p.is_completed

/-- Metric identities required of a finalized process (claim C2). -/
def FinOk (p : Process) : Prop :=
  p.is_completed = true →
    p.turnaround_time = p.completion_time - p.arrival_time ∧
    p.waiting_time = p.turnaround_time - p.burst_time ∧
    0 ≤ p.waiting_time

/-- Loop invariant of `run_fcfs`: the first `completed` positions of the
arrival order are exactly the finalized processes, each contributing its full
burst to the log; nobody's `remaining_time` is ever touched. -/
structure FcfsInv (ps0 : List Process) (A : Int) (order : List Nat) (st : SimSt) : Prop where
  len : st.processes.length = ps0.length
  bmap : st.processes.map (fun p => p.burst_time) = ps0.map (fun p => p.burst_time)
  pidmap : st.processes.map (fun p => p.pid) = ps0.map (fun p => p.pid)
  valid : ∀ p ∈ st.processes, 1 ≤ p.burst_time ∧ 0 ≤ p.arrival_time ∧ p.arrival_time ≤ A
  rem : ∀ p ∈ st.processes, p.remaining_time = p.burst_time
  fin : ∀ p ∈ st.processes, FinOk p
  count : st.completed = st.processes.countP (fun p => p.is_completed)
  cons : sliceSum st.execution_log =
    (st.processes.map (fun p => if p.is_completed then p.burst_time else 0)).sum
  ord : ∀ k, k < order.length →
    ((getP st.processes (order.getD k 0)).is_completed = true ↔ k < st.completed)
  cle : st.completed ≤ order.length

/-- Loop invariant shared by the non-preemptive ready-queue algorithms (SJF
and Priority non-preemptive); `A` bounds every arrival time. -/
structure NPInv (ps0 : List Process) (A : Int) (st : SimSt) : Prop where
  len : st.processes.length = ps0.length
  bmap : st.processes.map (fun p => p.burst_time) = ps0.map (fun p => p.burst_time)
  pidmap : st.processes.map (fun p => p.pid) = ps0.map (fun p => p.pid)
  valid : ∀ p ∈ st.processes, 1 ≤ p.burst_time ∧ 0 ≤ p.arrival_time ∧ p.arrival_time ≤ A
  rem : ∀ p ∈ st.processes, p.remaining_time = p.burst_time
  fin : ∀ p ∈ st.processes, FinOk p
  count : st.completed = st.processes.countP (fun p => p.is_completed)
  cons : sliceSum st.execution_log =
    (st.processes.map (fun p => if p.is_completed then p.burst_time else 0)).sum
  qnodup : st.ready_queue.Nodup
  qok : ∀ i ∈ st.ready_queue, i < st.processes.length ∧
        (getP st.processes i).is_completed = false ∧
        (getP st.processes i).arrival_time ≤ st.current_time

/-- Loop invariant shared by the tick-preemptive algorithms (SRTF and
Priority preemptive), and the per-process part of Round Robin's: remaining
time tracks logged work, an incomplete arrived process has executed at most
the time elapsed since its arrival, and `start_time` is never written. -/
structure PInv (ps0 : List Process) (A : Int) (st : SimSt) : Prop where
  len : st.processes.length = ps0.length
  bmap : st.processes.map (fun p => p.burst_time) = ps0.map (fun p => p.burst_time)
  pidmap : st.processes.map (fun p => p.pid) = ps0.map (fun p => p.pid)
  valid : ∀ p ∈ st.processes, 1 ≤ p.burst_time ∧ 0 ≤ p.arrival_time ∧ p.arrival_time ≤ A
  rem0 : ∀ p ∈ st.processes, 0 ≤ p.remaining_time ∧ p.remaining_time ≤ p.burst_time
  comp : ∀ p ∈ st.processes, p.is_completed = true → p.remaining_time = 0
  inc : ∀ p ∈ st.processes, p.is_completed = false →
        1 ≤ p.remaining_time ∧
        p.burst_time - p.remaining_time ≤ max 0 (st.current_time - p.arrival_time)
  fin : ∀ p ∈ st.processes, FinOk p
  start : ∀ p ∈ st.processes, p.start_time = -1
  count : st.completed = st.processes.countP (fun p => p.is_completed)
  cons : sliceSum st.execution_log + remSum st.processes = burstSum st.processes

/-- Round Robin's loop invariant: the tick-preemptive process invariant plus
the queue discipline (queue and pending partition the incomplete processes,
queued ones have arrived, pending ones are untouched). -/
structure RRInv (ps0 : List Process) (A : Int) (st : SimSt) : Prop where
  base : PInv ps0 A st
  sep : (st.ready_queue ++ st.pending).Nodup
  qok : ∀ i ∈ st.ready_queue, i < st.processes.length ∧
        (getP st.processes i).is_completed = false ∧
        (getP st.processes i).arrival_time ≤ st.current_time
  pok : ∀ i ∈ st.pending, i < st.processes.length ∧
        (getP st.processes i).is_completed = false ∧
        (getP st.processes i).remaining_time = (getP st.processes i).burst_time
  part : ∀ i, i < st.processes.length → (getP st.processes i).is_completed = false →
         i ∈ st.ready_queue ∨ i ∈ st.pending

/-- Termination measure for FCFS: processes left to dispatch. -/
def fcfsMeasure (n : Nat) (st : SimSt) : Nat := n - st.completed

/-- Termination measure for SJF / Priority non-preemptive: processes left
plus idle ticks available before the last arrival. -/
def npMeasure (n : Nat) (A : Int) (st : SimSt) : Nat :=
  (n - st.completed) + (A + 1 - st.current_time).toNat

/-- Termination measure for SRTF / Priority preemptive: work left plus idle
ticks available before the last arrival. -/
def tickMeasure (A : Int) (st : SimSt) : Nat :=
  remNatSum st.processes + (A + 1 - st.current_time).toNat

/-- Termination measure for Round Robin: work left plus processes still
pending admission. -/
def rrMeasure (st : SimSt) : Nat := remNatSum st.processes + st.pending.length

/-- Start-time/log invariant of the non-preemptive algorithms (claim C7),
under distinct pids: an incomplete process has `start_time = -1` and no log
slice; a completed one's first slice is `(pid, start_time, start_time +
burst_time)`. -/
def StartInv (st : SimSt) : Prop :=
  (st.processes.map (fun p => p.pid)).Nodup ∧
  (∀ j, j < st.processes.length → (getP st.processes j).is_completed = false →
      (getP st.processes j).start_time = -1 ∧
      firstSlice st.execution_log (getP st.processes j).pid = none) ∧
  (∀ j, j < st.processes.length → (getP st.processes j).is_completed = true →
      firstSlice st.execution_log (getP st.processes j).pid
        = some ((getP st.processes j).pid, (getP st.processes j).start_time,
                (getP st.processes j).start_time + (getP st.processes j).burst_time))

/-- Dispatch-order invariant of `run_fcfs` (claim C8): the log's pids are the
first `completed` entries of the arrival order. -/
def FcfsLog (ps0 : List Process) (order : List Nat) (st : SimSt) : Prop :=
  st.execution_log.map (fun sl => sl.1)
    = (order.take st.completed).map (fun j => (getP ps0 j).pid)

/-- Round-Robin invariant for claim C8 (aging off, quantum at least every
burst): the log's pids are the dispatched prefix of the arrival order, the
queue then the pending list are its remainder, and no incomplete process has
ever been preempted. -/
def RRFcfs (ps0 : List Process) (order : List Nat) (st : SimSt) : Prop :=
  (st.execution_log.map (fun sl => sl.1)
    = (order.take st.completed).map (fun j => (getP ps0 j).pid)) ∧
  order.drop st.completed = st.ready_queue ++ st.pending ∧
  st.completed ≤ order.length ∧
  (∀ j, j < st.processes.length → (getP st.processes j).is_completed = false →
      (getP st.processes j).remaining_time = (getP st.processes j).burst_time)

/-! ## Generic lemmas: the loop combinator, folds, positional updates,
the stable sort, and arithmetic helpers -/

theorem iterWhile_of_done {σ} {done : σ → Bool} {step : σ → σ} {fuel : Nat} {st : σ}
    (h : done st = true) : iterWhile done step fuel st = st := by
  cases fuel <;> simp [iterWhile, h]

theorem iterWhile_succ {σ} {done : σ → Bool} {step : σ → σ} {fuel : Nat} {st : σ}
    (h : done st = false) :
    iterWhile done step (fuel + 1) st = iterWhile done step fuel (step st) := by
  simp [iterWhile, h]

theorem iterWhile_add {σ} (done : σ → Bool) (step : σ → σ) (f g : Nat) (st : σ) :
    iterWhile done step (f + g) st = iterWhile done step g (iterWhile done step f st) := by
  induction f generalizing st with
  | zero => simp [iterWhile]
  | succ f ih =>
    by_cases h : done st = true
    · rw [iterWhile_of_done h, iterWhile_of_done h, iterWhile_of_done h]
    · have h' : done st = false := by simpa using h
      have : f + 1 + g = (f + g) + 1 := by omega
      rw [this, iterWhile_succ h', iterWhile_succ h', ih]

theorem iterWhile_inv {σ} {done : σ → Bool} {step : σ → σ} {Inv : σ → Prop}
    (hstep : ∀ x, done x = false → Inv x → Inv (step x)) :
    ∀ fuel x, Inv x → Inv (iterWhile done step fuel x) := by
  intro fuel
  induction fuel with
  | zero => intro x hx; exact hx
  | succ fuel ih =>
    intro x hx
    by_cases h : done x = true
    · rw [iterWhile_of_done h]; exact hx
    · have h' : done x = false := by simpa using h
      rw [iterWhile_succ h']
      exact ih _ (hstep x h' hx)

theorem iterWhile_term {σ} {done : σ → Bool} {step : σ → σ} {Inv : σ → Prop} {m : σ → Nat}
    (hstep : ∀ x, done x = false → Inv x → Inv (step x))
    (hdec : ∀ x, done x = false → Inv x → m (step x) < m x) :
    ∀ fuel x, Inv x → m x ≤ fuel → done (iterWhile done step fuel x) = true := by
  intro fuel
  induction fuel with
  | zero =>
    intro x hx hm
    by_cases h : done x = true
    · simpa [iterWhile] using h
    · have h' : done x = false := by simpa using h
      have := hdec x h' hx
      omega
  | succ fuel ih =>
    intro x hx hm
    by_cases h : done x = true
    · rw [iterWhile_of_done h]; exact h
    · have h' : done x = false := by simpa using h
      rw [iterWhile_succ h']
      exact ih _ (hstep x h' hx) (by have := hdec x h' hx; omega)

theorem iterWhile_fuel_irrel {σ} {done : σ → Bool} {step : σ → σ} {f g : Nat} {st : σ}
    (h : done (iterWhile done step f st) = true) (hfg : f ≤ g) :
    iterWhile done step g st = iterWhile done step f st := by
  obtain ⟨k, rfl⟩ : ∃ k, g = f + k := ⟨g - f, by omega⟩
  rw [iterWhile_add, iterWhile_of_done h]

theorem foldl_preserve {σ α} {P : σ → Prop} {f : σ → α → σ} {l : List α}
    (h : ∀ s a, a ∈ l → P s → P (f s a)) : ∀ {s}, P s → P (l.foldl f s) := by
  induction l with
  | nil => intro s hs; exact hs
  | cons x xs ih =>
    intro s hs
    exact ih (fun s a ha => h s a (List.mem_cons_of_mem _ ha))
      (h s x (List.mem_cons_self _ _) hs)

theorem foldl_establish {σ α} {Q : σ → α → Prop} {f : σ → α → σ} {l : List α}
    (hmono : ∀ s b a, Q s a → Q (f s b) a)
    (hself : ∀ s a, a ∈ l → Q (f s a) a) :
    ∀ s, ∀ a ∈ l, Q (l.foldl f s) a := by
  induction l with
  | nil => intro s a ha; cases ha
  | cons x xs ih =>
    intro s a ha
    simp only [List.foldl_cons]
    rcases List.mem_cons.mp ha with rfl | ha
    · exact foldl_preserve (fun s b _ hq => hmono s b a hq) (hself s a (by simp))
    · exact ih (fun s b hb => hself s b (by simp [hb])) (f s x) a ha

theorem length_setP (ps : List Process) (i : Nat) (p : Process) :
    (setP ps i p).length = ps.length := List.length_set ..

theorem getP_eq_getElem {ps : List Process} {i : Nat} (h : i < ps.length) :
    getP ps i = ps[i] := by
  simp [getP, List.getD_eq_getElem?_getD, List.getElem?_eq_getElem h]

theorem getP_setP_self {ps : List Process} {i : Nat} (p : Process) (h : i < ps.length) :
    getP (setP ps i p) i = p := by
  simp [getP, setP, List.getD_eq_getElem?_getD, List.getElem?_set_self h]

theorem getP_setP_ne {ps : List Process} {i j : Nat} (p : Process) (h : i ≠ j) :
    getP (setP ps i p) j = getP ps j := by
  simp [getP, setP, List.getD_eq_getElem?_getD, List.getElem?_set_ne h]

theorem getP_mem {ps : List Process} {i : Nat} (h : i < ps.length) : getP ps i ∈ ps := by
  rw [getP_eq_getElem h]; exact List.getElem_mem h

theorem exists_getP_of_mem {ps : List Process} {p : Process} (h : p ∈ ps) :
    ∃ i, i < ps.length ∧ getP ps i = p := by
  obtain ⟨i, hi, hp⟩ := List.mem_iff_getElem.mp h
  exact ⟨i, hi, by rw [getP_eq_getElem hi, hp]⟩

theorem mem_setP {ps : List Process} {i : Nat} {p q : Process}
    (h : q ∈ setP ps i p) : q ∈ ps ∨ q = p :=
  List.mem_or_eq_of_mem_set h

theorem getP_cons_zero (a : Process) (l : List Process) : getP (a :: l) 0 = a := rfl

theorem getP_cons_succ (a : Process) (l : List Process) (i : Nat) :
    getP (a :: l) (i + 1) = getP l i := rfl

theorem setP_cons_zero (a : Process) (l : List Process) (p : Process) :
    setP (a :: l) 0 p = p :: l := rfl

theorem setP_cons_succ (a : Process) (l : List Process) (i : Nat) (p : Process) :
    setP (a :: l) (i + 1) p = a :: setP l i p := rfl

theorem map_sum_setP {M : Type} [AddCommMonoid M] (f : Process → M)
    {ps : List Process} {i : Nat} (p : Process) (h : i < ps.length) :
    ((setP ps i p).map f).sum + f (getP ps i) = (ps.map f).sum + f p := by
  induction ps generalizing i with
  | nil => simp at h
  | cons a l ih =>
    cases i with
    | zero =>
      simp only [setP_cons_zero, List.map_cons, List.sum_cons, getP_cons_zero]
      abel
    | succ i =>
      have h' : i < l.length := by simpa using h
      simp only [setP_cons_succ, List.map_cons, List.sum_cons, getP_cons_succ, add_assoc]
      rw [ih h']

theorem countP_setP (pred : Process → Bool) {ps : List Process} {i : Nat} (p : Process)
    (h : i < ps.length) :
    (setP ps i p).countP pred + (if pred (getP ps i) then 1 else 0)
      = ps.countP pred + (if pred p then 1 else 0) := by
  induction ps generalizing i with
  | nil => simp at h
  | cons a l ih =>
    cases i with
    | zero =>
      simp only [setP_cons_zero, List.countP_cons, getP_cons_zero]
      split_ifs <;> omega
    | succ i =>
      have h' : i < l.length := by simpa using h
      simp only [setP_cons_succ, List.countP_cons, getP_cons_succ]
      have h2 := ih h'
      split_ifs at h2 ⊢ <;> omega

theorem map_setP_same {β : Type} (f : Process → β) {ps : List Process} {i : Nat} {p : Process}
    (hf : f p = f (getP ps i)) : (setP ps i p).map f = ps.map f := by
  induction ps generalizing i with
  | nil => simp [setP]
  | cons a l ih =>
    cases i with
    | zero =>
      simp only [getP_cons_zero] at hf
      simp [setP_cons_zero, hf]
    | succ i =>
      simp only [getP_cons_succ] at hf
      simp only [setP_cons_succ, List.map_cons]
      rw [ih hf]

theorem insertSorted_perm {α} (lt : α → α → Bool) (x : α) (l : List α) :
    (insertSorted lt x l).Perm (x :: l) := by
  induction l with
  | nil => simp [insertSorted]
  | cons y ys ih =>
    simp only [insertSorted]
    split
    · exact (ih.cons y).trans (List.Perm.swap x y ys)
    · exact List.Perm.refl _

theorem pySort_perm {α} (lt : α → α → Bool) (l : List α) : (pySort lt l).Perm l := by
  induction l with
  | nil => simp [pySort]
  | cons x xs ih => exact (insertSorted_perm lt x (pySort lt xs)).trans (ih.cons x)

theorem mem_pySort {α} {lt : α → α → Bool} {l : List α} {a : α} :
    a ∈ pySort lt l ↔ a ∈ l := (pySort_perm lt l).mem_iff

theorem pySort_nodup {α} {lt : α → α → Bool} {l : List α} (h : l.Nodup) :
    (pySort lt l).Nodup := (pySort_perm lt l).nodup_iff.mpr h

theorem length_pySort {α} (lt : α → α → Bool) (l : List α) :
    (pySort lt l).length = l.length := (pySort_perm lt l).length_eq

theorem sortedOrder_perm_range (ps : List Process) :
    (sortedOrder ps).Perm (List.range ps.length) := pySort_perm _ _

theorem length_sortedOrder (ps : List Process) :
    (sortedOrder ps).length = ps.length := by
  simpa using (sortedOrder_perm_range ps).length_eq

theorem sortedOrder_nodup (ps : List Process) : (sortedOrder ps).Nodup :=
  (sortedOrder_perm_range ps).nodup_iff.mpr (List.nodup_range _)

theorem mem_sortedOrder_lt {ps : List Process} {k : Nat} (h : k ∈ sortedOrder ps) :
    k < ps.length := by
  have := (sortedOrder_perm_range ps).mem_iff.mp h
  simpa using this

theorem le_foldl_max (l : List Int) (a : Int) : a ≤ l.foldl max a := by
  induction l generalizing a with
  | nil => exact le_refl a
  | cons x xs ih => exact le_trans (le_max_left a x) (ih (max a x))

theorem mem_le_foldl_max (l : List Int) (a : Int) : ∀ x ∈ l, x ≤ l.foldl max a := by
  induction l generalizing a with
  | nil => intro x hx; cases hx
  | cons y xs ih =>
    intro x hx
    rcases List.mem_cons.mp hx with rfl | hx
    · exact le_trans (le_max_right a x) (le_foldl_max xs (max a x))
    · exact ih (max a y) x hx

theorem arrival_le_maxArrival {ps : List Process} {p : Process} (h : p ∈ ps) :
    p.arrival_time ≤ (maxArrival ps : Int) := by
  have h1 : p.arrival_time ≤ (ps.map (fun p : Process => p.arrival_time)).foldl max 0 :=
    mem_le_foldl_max _ 0 _ (List.mem_map_of_mem _ h)
  exact le_trans h1 (Int.self_le_toNat _)

theorem length_reset (ps : List Process) : (reset_processes ps).length = ps.length := by
  simp [reset_processes]

theorem bmap_reset (ps : List Process) :
    (reset_processes ps).map (fun p => p.burst_time) = ps.map (fun p => p.burst_time) := by
  simp only [reset_processes, List.map_map]
  exact List.map_congr_left (fun p _ => rfl)

theorem pidmap_reset (ps : List Process) :
    (reset_processes ps).map (fun p => p.pid) = ps.map (fun p => p.pid) := by
  simp only [reset_processes, List.map_map]
  exact List.map_congr_left (fun p _ => rfl)

theorem valid_reset {ps : List Process} (h : ValidInput ps) :
    ∀ q ∈ reset_processes ps,
      1 ≤ q.burst_time ∧ 0 ≤ q.arrival_time ∧ q.arrival_time ≤ (maxArrival ps : Int) := by
  intro q hq
  obtain ⟨p, hp, rfl⟩ := List.mem_map.mp hq
  obtain ⟨h1, h2⟩ := h p hp
  refine ⟨h1, h2, ?_⟩
  show p.arrival_time ≤ _
  exact arrival_le_maxArrival hp

theorem sliceSum_append (l1 l2 : List Slice) :
    sliceSum (l1 ++ l2) = sliceSum l1 + sliceSum l2 := by
  simp [sliceSum]

theorem burstSum_eq_of_bmap {ps qs : List Process}
    (h : ps.map (fun p => p.burst_time) = qs.map (fun p => p.burst_time)) :
    burstSum ps = burstSum qs := by
  simp [burstSum, h]

theorem nodup_append_single {α} {l : List α} {a : α} (h : l.Nodup) (ha : a ∉ l) :
    (l ++ [a]).Nodup := by
  simp [List.nodup_append, h, ha]

theorem countP_eq_of_pointwise (pred : Process → Bool) :
    ∀ (ps qs : List Process), qs.length = ps.length →
    (∀ k, k < ps.length → pred (getP qs k) = pred (getP ps k)) →
    qs.countP pred = ps.countP pred := by
  intro ps
  induction ps with
  | nil =>
    intro qs hlen _
    cases qs with
    | nil => rfl
    | cons b m => simp at hlen
  | cons a l ih =>
    intro qs hlen hpt
    cases qs with
    | nil => simp at hlen
    | cons b m =>
      simp only [List.countP_cons]
      have h0 := hpt 0 (by simp)
      simp only [getP_cons_zero] at h0
      rw [ih m (by simpa using hlen) (fun k hk => hpt (k + 1) (by simpa using hk)), h0]

theorem map_eq_of_pointwise {β : Type} (f : Process → β) :
    ∀ (ps qs : List Process), qs.length = ps.length →
    (∀ k, k < ps.length → f (getP qs k) = f (getP ps k)) →
    qs.map f = ps.map f := by
  intro ps
  induction ps with
  | nil =>
    intro qs hlen _
    cases qs with
    | nil => rfl
    | cons b m => simp at hlen
  | cons a l ih =>
    intro qs hlen hpt
    cases qs with
    | nil => simp at hlen
    | cons b m =>
      have h0 := hpt 0 (by simp)
      simp only [getP_cons_zero] at h0
      simp only [List.map_cons]
      rw [ih m (by simpa using hlen) (fun k hk => hpt (k + 1) (by simpa using hk)), h0]

/-! ### What an aging pass does to the state -/

theorem agreeButPrio_refl (p : Process) : agreeButPrio p p := by
  simp [agreeButPrio]

theorem agreeButPrio_trans {p q r : Process}
    (h1 : agreeButPrio p q) (h2 : agreeButPrio q r) : agreeButPrio p r := by
  unfold agreeButPrio at *
  obtain ⟨a1, a2, a3, a4, a5, a6, a7, a8, a9, a10, a11⟩ := h1
  obtain ⟨b1, b2, b3, b4, b5, b6, b7, b8, b9, b10, b11⟩ := h2
  exact ⟨b1.trans a1, b2.trans a2, b3.trans a3, b4.trans a4, b5.trans a5, b6.trans a6,
    b7.trans a7, b8.trans a8, b9.trans a9, b10.trans a10, b11.trans a11⟩

theorem sjf_aging_update_agree (I S t : Int) (p : Process) :
    agreeButPrio p (sjf_aging_update I S t p).1 := by
  simp [sjf_aging_update, agreeButPrio]

theorem srtf_aging_update_agree (I S t : Int) (p : Process) :
    agreeButPrio p (srtf_aging_update I S t p).1 := by
  simp [srtf_aging_update, agreeButPrio]

theorem rr_aging_update_agree (I S t : Int) (p : Process) :
    agreeButPrio p (rr_aging_update I S t p).1 := by
  simp [rr_aging_update, agreeButPrio]

theorem pnp_aging_update_agree (I S t : Int) (p : Process) :
    agreeButPrio p (pnp_aging_update I S t p).1 := by
  simp [pnp_aging_update, agreeButPrio]

theorem setP_oob {ps : List Process} {i : Nat} (p : Process) (h : ps.length ≤ i) :
    setP ps i p = ps := List.set_eq_of_length_le h

/-- Component facts about one aging pass: every scalar loop variable, both
index queues and the execution log are untouched, and every process keeps all
its fields except possibly `current_priority`. -/
theorem aging_pass_spec (upd : Int → Process → Process × Option StarveEvent)
    (hupd : ∀ t p, agreeButPrio p ((upd t p).1)) (l : List Nat) (st : SimSt) :
    (aging_pass upd l st).current_time = st.current_time ∧
    (aging_pass upd l st).completed = st.completed ∧
    (aging_pass upd l st).execution_log = st.execution_log ∧
    (aging_pass upd l st).ready_queue = st.ready_queue ∧
    (aging_pass upd l st).pending = st.pending ∧
    (aging_pass upd l st).processes.length = st.processes.length ∧
    (∀ k, agreeButPrio (getP st.processes k) (getP (aging_pass upd l st).processes k)) := by
  unfold aging_pass
  refine @foldl_preserve SimSt Nat
    (fun st' => st'.current_time = st.current_time ∧ st'.completed = st.completed ∧
      st'.execution_log = st.execution_log ∧ st'.ready_queue = st.ready_queue ∧
      st'.pending = st.pending ∧ st'.processes.length = st.processes.length ∧
      ∀ k, agreeButPrio (getP st.processes k) (getP st'.processes k))
    _ l ?_ st ?_
  · intro s i _ hs
    dsimp only
    obtain ⟨h1, h2, h3, h4, h5, h6, h7⟩ := hs
    refine ⟨h1, h2, h3, h4, h5, by simp [length_setP, h6], ?_⟩
    intro k
    by_cases hki : k = i
    · subst hki
      by_cases hk : k < s.processes.length
      · rw [getP_setP_self _ hk]
        exact agreeButPrio_trans (h7 k) (hupd s.current_time (getP s.processes k))
      · rw [setP_oob _ (by omega)]
        exact h7 k
    · rw [getP_setP_ne _ (fun he => hki he.symm)]
      exact h7 k
  · exact ⟨rfl, rfl, rfl, rfl, rfl, rfl, fun k => agreeButPrio_refl _⟩

theorem agree_pid {p q : Process} (h : agreeButPrio p q) : q.pid = p.pid := h.1

theorem agree_burst {p q : Process} (h : agreeButPrio p q) :
    q.burst_time = p.burst_time := h.2.2.1

theorem agree_arrival {p q : Process} (h : agreeButPrio p q) :
    q.arrival_time = p.arrival_time := h.2.2.2.1

theorem agree_rem {p q : Process} (h : agreeButPrio p q) :
    q.remaining_time = p.remaining_time := h.2.2.2.2.2.1

theorem agree_start {p q : Process} (h : agreeButPrio p q) :
    q.start_time = p.start_time := h.2.2.2.2.2.2.1

theorem agree_completion {p q : Process} (h : agreeButPrio p q) :
    q.completion_time = p.completion_time := h.2.2.2.2.2.2.2.1

theorem agree_waiting {p q : Process} (h : agreeButPrio p q) :
    q.waiting_time = p.waiting_time := h.2.2.2.2.2.2.2.2.1

theorem agree_turnaround {p q : Process} (h : agreeButPrio p q) :
    q.turnaround_time = p.turnaround_time := h.2.2.2.2.2.2.2.2.2.1

theorem agree_completed {p q : Process} (h : agreeButPrio p q) :
    q.is_completed = p.is_completed := h.2.2.2.2.2.2.2.2.2.2

theorem FinOk_of_agree {p q : Process} (hag : agreeButPrio p q) (h : FinOk p) : FinOk q := by
  intro hc
  rw [agree_completed hag] at hc
  obtain ⟨f1, f2, f3⟩ := h hc
  refine ⟨?_, ?_, ?_⟩
  · rw [agree_turnaround hag, agree_completion hag, agree_arrival hag]; exact f1
  · rw [agree_waiting hag, agree_turnaround hag, agree_burst hag]; exact f2
  · rw [agree_waiting hag]; exact f3

theorem forall_mem_of_agree {P : Process → Prop}
    (hP : ∀ p q, agreeButPrio p q → P p → P q)
    {ps qs : List Process} (hlen : qs.length = ps.length)
    (hag : ∀ k, agreeButPrio (getP ps k) (getP qs k))
    (h : ∀ p ∈ ps, P p) : ∀ q ∈ qs, P q := by
  intro q hq
  obtain ⟨k, hk, rfl⟩ := exists_getP_of_mem hq
  exact hP _ _ (hag k) (h _ (getP_mem (by omega)))

theorem NPInv_aging {upd : Int → Process → Process × Option StarveEvent}
    (hupd : ∀ t p, agreeButPrio p ((upd t p).1)) (l : List Nat)
    {ps0 : List Process} {A : Int} {st : SimSt} (h : NPInv ps0 A st) :
    NPInv ps0 A (aging_pass upd l st) := by
  obtain ⟨hct, hcm, hel, hq, hpd, hlen, hag⟩ := aging_pass_spec upd hupd l st
  refine ⟨hlen.trans h.len, ?_, ?_, ?_, ?_, ?_, ?_, ?_, ?_, ?_⟩
  · exact (map_eq_of_pointwise _ st.processes _ hlen
      (fun k _ => agree_burst (hag k))).trans h.bmap
  · exact (map_eq_of_pointwise _ st.processes _ hlen
      (fun k _ => agree_pid (hag k))).trans h.pidmap
  · refine forall_mem_of_agree ?_ hlen hag h.valid
    intro p q hpq hp
    simpa [agree_burst hpq, agree_arrival hpq] using hp
  · refine forall_mem_of_agree ?_ hlen hag h.rem
    intro p q hpq hp
    simpa [agree_rem hpq, agree_burst hpq] using hp
  · exact forall_mem_of_agree (fun p q hpq => FinOk_of_agree hpq) hlen hag h.fin
  · rw [hcm, h.count]
    exact (countP_eq_of_pointwise (fun p => p.is_completed) st.processes _ hlen
      (fun k _ => by simp only [agree_completed (hag k)])).symm
  · rw [hel, h.cons]
    exact (congrArg List.sum (map_eq_of_pointwise
      (fun p => if p.is_completed then p.burst_time else 0) st.processes _ hlen
      (fun k _ => by simp only [agree_completed (hag k), agree_burst (hag k)]))).symm
  · rw [hq]; exact h.qnodup
  · rw [hq, hct]
    intro i hi
    obtain ⟨g1, g2, g3⟩ := h.qok i hi
    refine ⟨by omega, ?_, ?_⟩
    · rw [agree_completed (hag i)]; exact g2
    · rw [agree_arrival (hag i)]; exact g3

theorem PInv_aging {upd : Int → Process → Process × Option StarveEvent}
    (hupd : ∀ t p, agreeButPrio p ((upd t p).1)) (l : List Nat)
    {ps0 : List Process} {A : Int} {st : SimSt} (h : PInv ps0 A st) :
    PInv ps0 A (aging_pass upd l st) := by
  obtain ⟨hct, hcm, hel, hq, hpd, hlen, hag⟩ := aging_pass_spec upd hupd l st
  refine ⟨hlen.trans h.len, ?_, ?_, ?_, ?_, ?_, ?_, ?_, ?_, ?_, ?_⟩
  · exact (map_eq_of_pointwise _ st.processes _ hlen
      (fun k _ => agree_burst (hag k))).trans h.bmap
  · exact (map_eq_of_pointwise _ st.processes _ hlen
      (fun k _ => agree_pid (hag k))).trans h.pidmap
  · refine forall_mem_of_agree ?_ hlen hag h.valid
    intro p q hpq hp
    simpa [agree_burst hpq, agree_arrival hpq] using hp
  · refine forall_mem_of_agree ?_ hlen hag h.rem0
    intro p q hpq hp
    simpa [agree_rem hpq, agree_burst hpq] using hp
  · refine forall_mem_of_agree ?_ hlen hag h.comp
    intro p q hpq hp
    rw [agree_completed hpq, agree_rem hpq]
    exact hp
  · rw [hct]
    refine forall_mem_of_agree ?_ hlen hag h.inc
    intro p q hpq hp
    rw [agree_completed hpq, agree_rem hpq, agree_burst hpq, agree_arrival hpq]
    exact hp
  · exact forall_mem_of_agree (fun p q hpq => FinOk_of_agree hpq) hlen hag h.fin
  · refine forall_mem_of_agree ?_ hlen hag h.start
    intro p q hpq hp
    rw [agree_start hpq]
    exact hp
  · rw [hcm, h.count]
    exact (countP_eq_of_pointwise (fun p => p.is_completed) st.processes _ hlen
      (fun k _ => by simp only [agree_completed (hag k)])).symm
  · rw [hel]
    have h1 : remSum (aging_pass upd l st).processes = remSum st.processes := by
      unfold remSum
      exact congrArg List.sum (map_eq_of_pointwise _ st.processes _ hlen
        (fun k _ => agree_rem (hag k)))
    have h2 : burstSum (aging_pass upd l st).processes = burstSum st.processes := by
      unfold burstSum
      exact congrArg List.sum (map_eq_of_pointwise _ st.processes _ hlen
        (fun k _ => agree_burst (hag k)))
    rw [h1, h2]
    exact h.cons

theorem RRInv_aging {upd : Int → Process → Process × Option StarveEvent}
    (hupd : ∀ t p, agreeButPrio p ((upd t p).1)) (l : List Nat)
    {ps0 : List Process} {A : Int} {st : SimSt} (h : RRInv ps0 A st) :
    RRInv ps0 A (aging_pass upd l st) := by
  obtain ⟨hct, hcm, hel, hq, hpd, hlen, hag⟩ := aging_pass_spec upd hupd l st
  refine ⟨PInv_aging hupd l h.base, ?_, ?_, ?_, ?_⟩
  · rw [hq, hpd]; exact h.sep
  · rw [hq, hct]
    intro i hi
    obtain ⟨g1, g2, g3⟩ := h.qok i hi
    refine ⟨by omega, ?_, ?_⟩
    · rw [agree_completed (hag i)]; exact g2
    · rw [agree_arrival (hag i)]; exact g3
  · rw [hpd]
    intro i hi
    obtain ⟨g1, g2, g3⟩ := h.pok i hi
    refine ⟨by omega, ?_, ?_⟩
    · rw [agree_completed (hag i)]; exact g2
    · rw [agree_rem (hag i), agree_burst (hag i)]; exact g3
  · rw [hq, hpd]
    intro i hi hinc
    rw [agree_completed (hag i)] at hinc
    exact h.part i (by omega) hinc

/-! ### Building blocks: queue re-sort, idle tick, dispatch, one-tick run -/

theorem NPInv_set_queue {ps0 : List Process} {A : Int} {st : SimSt} {q : List Nat}
    (h : NPInv ps0 A st) (hperm : q.Perm st.ready_queue) :
    NPInv ps0 A { st with ready_queue := q } := by
  refine ⟨h.len, h.bmap, h.pidmap, h.valid, h.rem, h.fin, h.count, h.cons, ?_, ?_⟩
  · exact hperm.symm.nodup h.qnodup
  · intro i hi
    exact h.qok i (hperm.mem_iff.mp hi)

theorem NPInv_idle {ps0 : List Process} {A : Int} {st : SimSt}
    (h : NPInv ps0 A st) : NPInv ps0 A (idle_tick st) := by
  refine ⟨h.len, h.bmap, h.pidmap, h.valid, h.rem, h.fin, h.count, h.cons, h.qnodup, ?_⟩
  intro i hi
  obtain ⟨g1, g2, g3⟩ := h.qok i hi
  exact ⟨g1, g2, by simp only [idle_tick]; omega⟩

theorem PInv_idle {ps0 : List Process} {A : Int} {st : SimSt}
    (h : PInv ps0 A st) : PInv ps0 A (idle_tick st) := by
  refine ⟨h.len, h.bmap, h.pidmap, h.valid, h.rem0, h.comp, ?_, h.fin, h.start,
    h.count, h.cons⟩
  intro p hp hc
  obtain ⟨g1, g2⟩ := h.inc p hp hc
  refine ⟨g1, ?_⟩
  simp only [idle_tick]
  have : max 0 (st.current_time - p.arrival_time) ≤
      max 0 (st.current_time + 1 - p.arrival_time) := by omega
  omega

theorem RRInv_idle {ps0 : List Process} {A : Int} {st : SimSt}
    (h : RRInv ps0 A st) : RRInv ps0 A (idle_tick st) := by
  refine ⟨PInv_idle h.base, h.sep, ?_, h.pok, h.part⟩
  intro i hi
  obtain ⟨g1, g2, g3⟩ := h.qok i hi
  exact ⟨g1, g2, by simp only [idle_tick]; omega⟩

theorem countP_setP_flip {ps : List Process} {i : Nat} {p : Process}
    (h : i < ps.length) (hold : (getP ps i).is_completed = false)
    (hnew : p.is_completed = true) :
    (setP ps i p).countP (fun q => q.is_completed) =
      ps.countP (fun q => q.is_completed) + 1 := by
  have hc := countP_setP (fun q => q.is_completed) p h
  simp only [hold, hnew] at hc
  simp at hc
  omega

theorem doneSum_setP_flip {ps : List Process} {i : Nat} {p : Process}
    (h : i < ps.length) (hold : (getP ps i).is_completed = false)
    (hnew : p.is_completed = true) (hburst : p.burst_time = (getP ps i).burst_time) :
    ((setP ps i p).map (fun q => if q.is_completed then q.burst_time else 0)).sum
      = (ps.map (fun q => if q.is_completed then q.burst_time else 0)).sum
        + (getP ps i).burst_time := by
  have hs := map_sum_setP (fun q => if q.is_completed then q.burst_time else 0) p h
  simp only [hold, hnew, hburst] at hs
  simp at hs
  omega

theorem NPInv_np_dispatch {ps0 : List Process} {A : Int} {st : SimSt}
    (h : NPInv ps0 A st) : NPInv ps0 A (np_dispatch st) := by
  rcases hq : st.ready_queue with _ | ⟨i, rest⟩
  · unfold np_dispatch
    rw [hq]
    exact h
  · obtain ⟨hilen, hicomp, hiarr⟩ := h.qok i (by rw [hq]; exact List.mem_cons_self _ _)
    have hmem := getP_mem hilen
    obtain ⟨hb1, hb2, hb3⟩ := h.valid _ hmem
    have hirest : i ∉ rest := by
      have := h.qnodup
      rw [hq] at this
      exact (List.nodup_cons.mp this).1
    unfold np_dispatch
    rw [hq]
    dsimp only
    refine ⟨?_, ?_, ?_, ?_, ?_, ?_, ?_, ?_, ?_, ?_⟩
    · dsimp only
      rw [length_setP]; exact h.len
    · dsimp only
      refine (map_setP_same (fun p => p.burst_time) ?_).trans h.bmap
      rfl
    · dsimp only
      refine (map_setP_same (fun p => p.pid) ?_).trans h.pidmap
      rfl
    · dsimp only
      intro q hmq
      rcases mem_setP hmq with hold | rfl
      · exact h.valid q hold
      · exact ⟨hb1, hb2, hb3⟩
    · dsimp only
      intro q hmq
      rcases mem_setP hmq with hold | rfl
      · exact h.rem q hold
      · show (getP st.processes i).remaining_time = (getP st.processes i).burst_time
        exact h.rem _ hmem
    · dsimp only
      intro q hmq
      rcases mem_setP hmq with hold | rfl
      · exact h.fin q hold
      · intro _
        refine ⟨rfl, rfl, ?_⟩
        show (0 : Int) ≤ _
        dsimp only
        omega
    · dsimp only
      rw [countP_setP_flip hilen hicomp (by rfl), h.count]
    · dsimp only
      rw [sliceSum_append, doneSum_setP_flip hilen hicomp (by rfl) (by rfl), h.cons]
      simp [sliceSum]
    · dsimp only
      have := h.qnodup
      rw [hq] at this
      exact (List.nodup_cons.mp this).2
    · dsimp only
      intro j hj
      have hjq : j ∈ st.ready_queue := by rw [hq]; exact List.mem_cons_of_mem _ hj
      obtain ⟨g1, g2, g3⟩ := h.qok j hjq
      have hji : j ≠ i := fun he => hirest (he ▸ hj)
      rw [getP_setP_ne _ (fun he => hji he.symm)]
      exact ⟨by rw [length_setP]; exact g1, g2, by omega⟩

theorem countP_setP_same {ps : List Process} {i : Nat} {p : Process} (h : i < ps.length)
    (hsame : p.is_completed = (getP ps i).is_completed) :
    (setP ps i p).countP (fun q => q.is_completed) =
      ps.countP (fun q => q.is_completed) := by
  have hc := countP_setP (fun q => q.is_completed) p h
  simp only [] at hc
  cases hcc : (getP ps i).is_completed with
  | false =>
    rw [hcc] at hsame
    simp only [hcc, hsame] at hc
    simpa using hc
  | true =>
    rw [hcc] at hsame
    simp [hcc, hsame] at hc
    omega

theorem remSum_setP_eq {ps : List Process} {i : Nat} {p : Process} (h : i < ps.length) :
    ((setP ps i p).map (fun q => q.remaining_time)).sum
      = (ps.map (fun q => q.remaining_time)).sum
        + p.remaining_time - (getP ps i).remaining_time := by
  have hr := map_sum_setP (fun q => q.remaining_time) p h
  simp only [] at hr
  omega

theorem burstSum_setP_eq {ps : List Process} {i : Nat} {p : Process}
    (hb : p.burst_time = (getP ps i).burst_time) :
    ((setP ps i p).map (fun q => q.burst_time)).sum
      = (ps.map (fun q => q.burst_time)).sum :=
  congrArg List.sum (map_setP_same (fun q => q.burst_time) hb)

theorem PInv_tick_exec {ps0 : List Process} {A : Int} {st : SimSt} {j : Nat}
    (h : PInv ps0 A st) (hjlen : j < st.processes.length)
    (hjcomp : (getP st.processes j).is_completed = false)
    (hjarr : (getP st.processes j).arrival_time ≤ st.current_time) :
    PInv ps0 A (tick_exec j st) := by
  have hmem := getP_mem hjlen
  obtain ⟨hb1, hb2, hb3⟩ := h.valid _ hmem
  obtain ⟨hr0, hr1⟩ := h.rem0 _ hmem
  obtain ⟨hi1, hi2⟩ := h.inc _ hmem hjcomp
  have hmax : max 0 (st.current_time - (getP st.processes j).arrival_time) =
      st.current_time - (getP st.processes j).arrival_time := by omega
  rw [hmax] at hi2
  unfold tick_exec
  dsimp only
  split
  case isTrue hz =>
    refine ⟨?_, ?_, ?_, ?_, ?_, ?_, ?_, ?_, ?_, ?_, ?_⟩
    · dsimp only; rw [length_setP]; exact h.len
    · dsimp only
      refine (map_setP_same (fun p => p.burst_time) ?_).trans h.bmap
      rfl
    · dsimp only
      refine (map_setP_same (fun p => p.pid) ?_).trans h.pidmap
      rfl
    · dsimp only
      intro q hmq
      rcases mem_setP hmq with hold | rfl
      · exact h.valid q hold
      · exact ⟨hb1, hb2, hb3⟩
    · dsimp only
      intro q hmq
      rcases mem_setP hmq with hold | rfl
      · exact h.rem0 q hold
      · constructor
        · show (0 : Int) ≤ _
          dsimp only
          omega
        · show (getP st.processes j).remaining_time - 1 ≤ _
          dsimp only
          omega
    · dsimp only
      intro q hmq
      rcases mem_setP hmq with hold | rfl
      · exact h.comp q hold
      · intro _
        exact hz
    · dsimp only
      intro q hmq
      rcases mem_setP hmq with hold | rfl
      · intro hqc
        obtain ⟨g1, g2⟩ := h.inc q hold hqc
        refine ⟨g1, ?_⟩
        have : max 0 (st.current_time - q.arrival_time) ≤
            max 0 (st.current_time + 1 - q.arrival_time) := by omega
        omega
      · intro hqc
        simp at hqc
    · dsimp only
      intro q hmq
      rcases mem_setP hmq with hold | rfl
      · exact h.fin q hold
      · intro _
        refine ⟨rfl, rfl, ?_⟩
        show (0 : Int) ≤ _
        dsimp only
        omega
    · dsimp only
      intro q hmq
      rcases mem_setP hmq with hold | rfl
      · exact h.start q hold
      · show (getP st.processes j).start_time = -1
        exact h.start _ hmem
    · dsimp only
      rw [countP_setP_flip hjlen hjcomp (by rfl), h.count]
    · dsimp only
      rw [sliceSum_append]
      unfold remSum burstSum
      rw [remSum_setP_eq hjlen, burstSum_setP_eq (by rfl)]
      dsimp only
      have hco := h.cons
      unfold remSum burstSum sliceSum at hco
      simp only [sliceSum, List.map_cons, List.map_nil, List.sum_cons, List.sum_nil]
      omega
  case isFalse hz =>
    refine ⟨?_, ?_, ?_, ?_, ?_, ?_, ?_, ?_, ?_, ?_, ?_⟩
    · dsimp only; rw [length_setP]; exact h.len
    · dsimp only
      refine (map_setP_same (fun p => p.burst_time) ?_).trans h.bmap
      rfl
    · dsimp only
      refine (map_setP_same (fun p => p.pid) ?_).trans h.pidmap
      rfl
    · dsimp only
      intro q hmq
      rcases mem_setP hmq with hold | rfl
      · exact h.valid q hold
      · exact ⟨hb1, hb2, hb3⟩
    · dsimp only
      intro q hmq
      rcases mem_setP hmq with hold | rfl
      · exact h.rem0 q hold
      · constructor
        · show (0 : Int) ≤ _
          dsimp only
          omega
        · show (getP st.processes j).remaining_time - 1 ≤ _
          dsimp only
          omega
    · dsimp only
      intro q hmq
      rcases mem_setP hmq with hold | rfl
      · exact h.comp q hold
      · intro hqc
        show (getP st.processes j).remaining_time - 1 = 0
        rw [show ({ getP st.processes j with
          remaining_time := (getP st.processes j).remaining_time - 1 } : Process).is_completed
            = (getP st.processes j).is_completed from rfl] at hqc
        rw [hjcomp] at hqc
        cases hqc
    · dsimp only
      intro q hmq
      rcases mem_setP hmq with hold | rfl
      · intro hqc
        obtain ⟨g1, g2⟩ := h.inc q hold hqc
        refine ⟨g1, ?_⟩
        have : max 0 (st.current_time - q.arrival_time) ≤
            max 0 (st.current_time + 1 - q.arrival_time) := by omega
        omega
      · intro _
        constructor
        · show (1 : Int) ≤ _
          dsimp only
          omega
        · show _ - ((getP st.processes j).remaining_time - 1) ≤ _
          dsimp only
          omega
    · dsimp only
      intro q hmq
      rcases mem_setP hmq with hold | rfl
      · exact h.fin q hold
      · intro hqc
        rw [show ({ getP st.processes j with
          remaining_time := (getP st.processes j).remaining_time - 1 } : Process).is_completed
            = (getP st.processes j).is_completed from rfl] at hqc
        rw [hjcomp] at hqc
        cases hqc
    · dsimp only
      intro q hmq
      rcases mem_setP hmq with hold | rfl
      · exact h.start q hold
      · show (getP st.processes j).start_time = -1
        exact h.start _ hmem
    · dsimp only
      rw [countP_setP_same hjlen (by rfl), h.count]
    · dsimp only
      rw [sliceSum_append]
      unfold remSum burstSum
      rw [remSum_setP_eq hjlen, burstSum_setP_eq (by rfl)]
      dsimp only
      have hco := h.cons
      unfold remSum burstSum sliceSum at hco
      simp only [sliceSum, List.map_cons, List.map_nil, List.sum_cons, List.sum_nil]
      omega

theorem pyMinBy_mem (k : Nat → Int) (c : Nat) (cs : List Nat) :
    pyMinBy k c cs ∈ c :: cs := by
  induction cs generalizing c with
  | nil => simp [pyMinBy]
  | cons y ys ih =>
    simp only [pyMinBy, List.foldl_cons]
    by_cases hk : k y < k c
    · simp only [if_pos hk]
      have hm := ih y
      simp only [pyMinBy] at hm
      rcases List.mem_cons.mp hm with he | hm
      · exact List.mem_cons_of_mem _ (by rw [he]; exact List.mem_cons_self _ _)
      · exact List.mem_cons_of_mem _ (List.mem_cons_of_mem _ hm)
    · simp only [if_neg hk]
      have hm := ih c
      simp only [pyMinBy] at hm
      rcases List.mem_cons.mp hm with he | hm
      · rw [he]; exact List.mem_cons_self _ _
      · exact List.mem_cons_of_mem _ (List.mem_cons_of_mem _ hm)

theorem pyMaxByLex_mem (k : Nat → Int × Int) (c : Nat) (cs : List Nat) :
    pyMaxByLex k c cs ∈ c :: cs := by
  induction cs generalizing c with
  | nil => simp [pyMaxByLex]
  | cons y ys ih =>
    simp only [pyMaxByLex, List.foldl_cons]
    by_cases hk : lexLt (k c) (k y) = true
    · simp only [if_pos hk]
      have hm := ih y
      simp only [pyMaxByLex] at hm
      rcases List.mem_cons.mp hm with he | hm
      · exact List.mem_cons_of_mem _ (by rw [he]; exact List.mem_cons_self _ _)
      · exact List.mem_cons_of_mem _ (List.mem_cons_of_mem _ hm)
    · simp only [if_neg hk]
      have hm := ih c
      simp only [pyMaxByLex] at hm
      rcases List.mem_cons.mp hm with he | hm
      · rw [he]; exact List.mem_cons_self _ _
      · exact List.mem_cons_of_mem _ (List.mem_cons_of_mem _ hm)

theorem mem_candidates {st : SimSt} {i : Nat} :
    i ∈ (List.range st.processes.length).filter
      (fun i => decide ((getP st.processes i).arrival_time ≤ st.current_time ∧
                        (getP st.processes i).is_completed = false)) ↔
    (i < st.processes.length ∧ (getP st.processes i).arrival_time ≤ st.current_time ∧
     (getP st.processes i).is_completed = false) := by
  simp [List.mem_filter, List.mem_range, and_assoc]

theorem exists_incomplete {ps : List Process} {c : Nat}
    (hcount : c = ps.countP (fun p => p.is_completed)) (hlt : c < ps.length) :
    ∃ k, k < ps.length ∧ (getP ps k).is_completed = false := by
  by_contra hno
  push_neg at hno
  have hall : ∀ p ∈ ps, (fun p : Process => p.is_completed) p = true := by
    intro p hp
    obtain ⟨k, hk, rfl⟩ := exists_getP_of_mem hp
    have := hno k hk
    simpa using this
  have := List.countP_eq_length.mpr hall
  omega

/-! ### Ready-queue admission (SJF and Priority non-preemptive) -/

theorem ite_false_bool {α : Type} (x y : α) : (if false = true then x else y) = y := rfl

theorem ite_true_bool {α : Type} (x y : α) : (if true = true then x else y) = x := rfl

theorem setP_self {ps : List Process} {i : Nat} (h : i < ps.length) :
    setP ps i (getP ps i) = ps := by
  induction ps generalizing i with
  | nil => simp at h
  | cons a l ih =>
    cases i with
    | zero => rfl
    | succ i =>
      simp only [setP_cons_succ, getP_cons_succ]
      rw [ih (by simpa using h)]

theorem NPInv_admit_elem {ps0 : List Process} {A : Int} {s : SimSt} {i : Nat} {q : Process}
    (hinv : NPInv ps0 A s) (hi : i < s.processes.length)
    (hag : agreeButPrio (getP s.processes i) q)
    (harr : (getP s.processes i).arrival_time ≤ s.current_time)
    (hcomp : (getP s.processes i).is_completed = false)
    (hnq : i ∉ s.ready_queue) :
    NPInv ps0 A { s with processes := setP s.processes i q,
                         ready_queue := s.ready_queue ++ [i] } := by
  have hmem := getP_mem hi
  refine ⟨?_, ?_, ?_, ?_, ?_, ?_, ?_, ?_, ?_, ?_⟩
  · dsimp only; rw [length_setP]; exact hinv.len
  · dsimp only
    exact (map_setP_same (fun p => p.burst_time) (agree_burst hag)).trans hinv.bmap
  · dsimp only
    exact (map_setP_same (fun p => p.pid) (agree_pid hag)).trans hinv.pidmap
  · dsimp only
    intro r hmr
    rcases mem_setP hmr with hold | rfl
    · exact hinv.valid r hold
    · obtain ⟨g1, g2, g3⟩ := hinv.valid _ hmem
      rw [agree_burst hag, agree_arrival hag]
      exact ⟨g1, g2, g3⟩
  · dsimp only
    intro r hmr
    rcases mem_setP hmr with hold | rfl
    · exact hinv.rem r hold
    · rw [agree_rem hag, agree_burst hag]
      exact hinv.rem _ hmem
  · dsimp only
    intro r hmr
    rcases mem_setP hmr with hold | rfl
    · exact hinv.fin r hold
    · exact FinOk_of_agree hag (hinv.fin _ hmem)
  · dsimp only
    rw [countP_setP_same hi (agree_completed hag)]
    exact hinv.count
  · dsimp only
    refine Eq.trans hinv.cons ?_
    refine (congrArg List.sum (map_setP_same _ ?_)).symm
    show (if q.is_completed then q.burst_time else 0) = _
    simp only [agree_completed hag, agree_burst hag]
  · dsimp only
    exact nodup_append_single hinv.qnodup hnq
  · dsimp only
    intro j hj
    rcases List.mem_append.mp hj with hjq | hjs
    · have hji : j ≠ i := fun he => hnq (he ▸ hjq)
      obtain ⟨g1, g2, g3⟩ := hinv.qok j hjq
      rw [getP_setP_ne _ (fun he => hji he.symm)]
      exact ⟨by rw [length_setP]; exact g1, g2, g3⟩
    · have hji : j = i := by simpa using hjs
      subst hji
      rw [getP_setP_self _ hi]
      refine ⟨by rw [length_setP]; exact hi, ?_, ?_⟩
      · rw [agree_completed hag]; exact hcomp
      · rw [agree_arrival hag]; exact harr

theorem sjf_admit_inv {ps0 : List Process} {A : Int} {st : SimSt} (b : Bool)
    (h : NPInv ps0 A st) :
    NPInv ps0 A ( sjf_admit b st) ∧
    ( sjf_admit b st).current_time = st.current_time ∧
    ( sjf_admit b st).completed = st.completed ∧
    ( sjf_admit b st).execution_log = st.execution_log := by
  unfold sjf_admit
  refine @foldl_preserve SimSt Nat
    (fun s => NPInv ps0 A s ∧ s.current_time = st.current_time ∧
      s.completed = st.completed ∧ s.execution_log = st.execution_log)
    _ _ ?_ st ?_
  · intro s i hi hs
    obtain ⟨hinv, e1, e2, e3⟩ := hs
    dsimp only
    split
    case isTrue hcond =>
      obtain ⟨hc1, hc2, hc3⟩ := hcond
      have hilen : i < s.processes.length := by
        have hr := List.mem_range.mp hi
        have l1 := hinv.len
        have l2 := h.len
        omega
      refine ⟨?_, e1, e2, e3⟩
      cases b with
      | false =>
        rw [ite_false_bool]
        rw [show s.processes = setP s.processes i (getP s.processes i) from
          (setP_self hilen).symm]
        exact NPInv_admit_elem hinv hilen (agreeButPrio_refl _) hc1 hc2 hc3
      | true =>
        rw [ite_true_bool]
        exact NPInv_admit_elem hinv hilen (by simp [agreeButPrio]) hc1 hc2 hc3
    case isFalse => exact ⟨hinv, e1, e2, e3⟩
  · exact ⟨h, rfl, rfl, rfl⟩

theorem sjf_admit_post (b : Bool) (st : SimSt) :
    ∀ i ∈ List.range st.processes.length,
      (((getP ( sjf_admit b st).processes i).arrival_time ≤ ( sjf_admit b st).current_time ∧
        (getP ( sjf_admit b st).processes i).is_completed = false) →
       i ∈ ( sjf_admit b st).ready_queue) := by
  unfold sjf_admit
  refine @foldl_establish SimSt Nat
    (fun s a => ((getP s.processes a).arrival_time ≤ s.current_time ∧
      (getP s.processes a).is_completed = false) → a ∈ s.ready_queue)
    _ _ ?_ ?_ st
  · intro s j a hQ
    dsimp only
    split
    case isTrue hcond =>
      intro hcnew
      have harr : (getP s.processes a).arrival_time ≤ s.current_time ∧
          (getP s.processes a).is_completed = false := by
        cases b with
        | false =>
          rw [ite_false_bool] at hcnew
          exact hcnew
        | true =>
          rw [ite_true_bool] at hcnew
          by_cases haj : a = j
          · subst haj
            by_cases hjl : a < s.processes.length
            · rw [getP_setP_self _ hjl] at hcnew
              exact hcnew
            · rw [setP_oob _ (by omega)] at hcnew
              exact hcnew
          · rw [getP_setP_ne _ (fun he => haj he.symm)] at hcnew
            exact hcnew
      exact List.mem_append_left _ (hQ harr)
    case isFalse => exact hQ
  · intro s a ha
    dsimp only
    split
    case isTrue hcond =>
      intro _
      exact List.mem_append_right _ (List.mem_singleton.mpr rfl)
    case isFalse hcond =>
      intro hcnew
      by_contra hnq
      exact hcond ⟨hcnew.1, hcnew.2, hnq⟩

theorem pnp_admit_eq (st : SimSt) : pnp_admit st = sjf_admit false st := rfl

/-! ### SJF and Priority non-preemptive: step preservation, progress, start -/

theorem sjf_select_spec (b : Bool) (I S : Int) (st : SimSt) :
    (sjf_select b I S st).current_time = st.current_time ∧
    (sjf_select b I S st).completed = st.completed ∧
    (sjf_select b I S st).ready_queue.length = st.ready_queue.length := by
  unfold sjf_select
  cases b with
  | false =>
    rw [ite_false_bool]
    exact ⟨rfl, rfl, length_pySort _ _⟩
  | true =>
    rw [ite_true_bool]
    obtain ⟨hct, hcm, _, hq, _, _, _⟩ :=
      aging_pass_spec _ (sjf_aging_update_agree I S) st.ready_queue st
    unfold sjf_age
    refine ⟨hct, hcm, ?_⟩
    rw [length_pySort, hq]

theorem sjf_select_inv {ps0 : List Process} {A : Int} (b : Bool) (I S : Int) {st : SimSt}
    (h : NPInv ps0 A st) : NPInv ps0 A (sjf_select b I S st) := by
  unfold sjf_select
  cases b with
  | false =>
    rw [ite_false_bool]
    exact NPInv_set_queue h (pySort_perm _ _)
  | true =>
    rw [ite_true_bool]
    exact NPInv_set_queue (by unfold sjf_age; exact NPInv_aging (sjf_aging_update_agree I S) _ h)
      (pySort_perm _ _)

theorem pnp_select_spec (b : Bool) (I S : Int) (st : SimSt) :
    (pnp_select b I S st).current_time = st.current_time ∧
    (pnp_select b I S st).completed = st.completed ∧
    (pnp_select b I S st).ready_queue.length = st.ready_queue.length := by
  unfold pnp_select
  cases b with
  | false =>
    rw [ite_false_bool]
    exact ⟨rfl, rfl, length_pySort _ _⟩
  | true =>
    rw [ite_true_bool]
    obtain ⟨hct, hcm, _, hq, _, _, _⟩ :=
      aging_pass_spec _ (pnp_aging_update_agree I S) st.ready_queue st
    unfold pnp_age
    refine ⟨hct, hcm, ?_⟩
    rw [length_pySort, hq]

theorem pnp_select_inv {ps0 : List Process} {A : Int} (b : Bool) (I S : Int) {st : SimSt}
    (h : NPInv ps0 A st) : NPInv ps0 A (pnp_select b I S st) := by
  unfold pnp_select
  cases b with
  | false =>
    rw [ite_false_bool]
    exact NPInv_set_queue h (pySort_perm _ _)
  | true =>
    rw [ite_true_bool]
    exact NPInv_set_queue (by unfold pnp_age; exact NPInv_aging (pnp_aging_update_agree I S) _ h)
      (pySort_perm _ _)

theorem np_dispatch_spec {ps0 : List Process} {A : Int} {st : SimSt}
    (h : NPInv ps0 A st) (hne : st.ready_queue ≠ []) :
    (np_dispatch st).completed = st.completed + 1 ∧
    st.current_time ≤ (np_dispatch st).current_time := by
  rcases hq : st.ready_queue with _ | ⟨i, rest⟩
  · exact absurd hq hne
  · obtain ⟨hilen, _, _⟩ := h.qok i (by rw [hq]; exact List.mem_cons_self _ _)
    obtain ⟨hb1, _, _⟩ := h.valid _ (getP_mem hilen)
    unfold np_dispatch
    rw [hq]
    dsimp only
    exact ⟨rfl, by omega⟩

theorem sjf_step_inv {ps0 : List Process} {A : Int} (b : Bool) (I S : Int) {st : SimSt}
    (h : NPInv ps0 A st) : NPInv ps0 A (sjf_step b I S st) := by
  unfold sjf_step
  obtain ⟨hinv, _, _, _⟩ := sjf_admit_inv b h
  dsimp only
  split
  · exact NPInv_idle hinv
  · exact NPInv_np_dispatch (sjf_select_inv b I S hinv)

theorem pnp_step_inv {ps0 : List Process} {A : Int} (b : Bool) (I S : Int) {st : SimSt}
    (h : NPInv ps0 A st) : NPInv ps0 A (pnp_step b I S st) := by
  unfold pnp_step
  rw [pnp_admit_eq]
  obtain ⟨hinv, _, _, _⟩ := sjf_admit_inv false h
  dsimp only
  split
  · exact NPInv_idle hinv
  · exact NPInv_np_dispatch (pnp_select_inv b I S hinv)

theorem np_idle_time_lt {ps0 : List Process} {A : Int} {st : SimSt} (b : Bool)
    (h : NPInv ps0 A st) (hguard : st.completed < ps0.length)
    (hempty : ( sjf_admit b st).ready_queue.isEmpty = true) :
    st.current_time < A := by
  obtain ⟨hinv, e1, e2, e3⟩ := sjf_admit_inv b h
  have hcnt := hinv.count
  rw [e2] at hcnt
  have hlen := hinv.len
  obtain ⟨k, hk, hkinc⟩ := exists_incomplete hcnt (by omega)
  have hk0 : k < st.processes.length := by
    have := h.len
    omega
  have hpost := sjf_admit_post b st k (List.mem_range.mpr hk0)
  have hq : ( sjf_admit b st).ready_queue = [] := List.isEmpty_iff.mp hempty
  have harr : ¬ ((getP ( sjf_admit b st).processes k).arrival_time ≤
      ( sjf_admit b st).current_time) := by
    intro hle
    have := hpost ⟨hle, hkinc⟩
    rw [hq] at this
    cases this
  obtain ⟨_, _, hA⟩ := hinv.valid _ (getP_mem hk)
  rw [e1] at harr
  omega

theorem sjf_step_dec {ps0 : List Process} {A : Int} (b : Bool) (I S : Int) {st : SimSt}
    (h : NPInv ps0 A st) (hguard : st.completed < ps0.length) :
    npMeasure ps0.length A (sjf_step b I S st) < npMeasure ps0.length A st := by
  unfold sjf_step
  obtain ⟨hinv, e1, e2, e3⟩ := sjf_admit_inv b h
  dsimp only
  split
  case isTrue hempty =>
    have hlt := np_idle_time_lt b h hguard hempty
    unfold npMeasure idle_tick
    dsimp only
    rw [e1, e2]
    omega
  case isFalse hempty =>
    obtain ⟨s1, s2, s3⟩ := sjf_select_spec b I S ( sjf_admit b st)
    have hne : (sjf_select b I S ( sjf_admit b st)).ready_queue ≠ [] := by
      intro hnil
      rw [hnil] at s3
      simp only [List.isEmpty_iff] at hempty
      cases hql : ( sjf_admit b st).ready_queue with
      | nil => exact hempty hql
      | cons x xs => rw [hql] at s3; simp at s3
    obtain ⟨d1, d2⟩ := np_dispatch_spec (sjf_select_inv b I S hinv) hne
    unfold npMeasure
    rw [d1, s2, e2, s1, e1] at *
    have ht : (A + 1 - (np_dispatch (sjf_select b I S ( sjf_admit b st))).current_time).toNat
        ≤ (A + 1 - st.current_time).toNat := by omega
    omega

theorem pnp_step_dec {ps0 : List Process} {A : Int} (b : Bool) (I S : Int) {st : SimSt}
    (h : NPInv ps0 A st) (hguard : st.completed < ps0.length) :
    npMeasure ps0.length A (pnp_step b I S st) < npMeasure ps0.length A st := by
  unfold pnp_step
  rw [pnp_admit_eq]
  obtain ⟨hinv, e1, e2, e3⟩ := sjf_admit_inv false h
  dsimp only
  split
  case isTrue hempty =>
    have hlt := np_idle_time_lt false h hguard hempty
    unfold npMeasure idle_tick
    dsimp only
    rw [e1, e2]
    omega
  case isFalse hempty =>
    obtain ⟨s1, s2, s3⟩ := pnp_select_spec b I S ( sjf_admit false st)
    have hne : (pnp_select b I S ( sjf_admit false st)).ready_queue ≠ [] := by
      intro hnil
      rw [hnil] at s3
      simp only [List.isEmpty_iff] at hempty
      cases hql : ( sjf_admit false st).ready_queue with
      | nil => exact hempty hql
      | cons x xs => rw [hql] at s3; simp at s3
    obtain ⟨d1, d2⟩ := np_dispatch_spec (pnp_select_inv b I S hinv) hne
    unfold npMeasure
    rw [d1, s2, e2, s1, e1] at *
    have ht : (A + 1 - (np_dispatch (pnp_select b I S ( sjf_admit false st))).current_time).toNat
        ≤ (A + 1 - st.current_time).toNat := by omega
    omega

theorem initSt_NPInv {ps : List Process} (h : ValidInput ps) :
    NPInv (reset_processes ps) ((maxArrival ps : Int)) (initSt ps) := by
  refine ⟨rfl, rfl, rfl, valid_reset h, ?_, ?_, ?_, ?_, ?_, ?_⟩
  · intro p hp
    obtain ⟨q, _, rfl⟩ := List.mem_map.mp hp
    rfl
  · intro p hp
    obtain ⟨q, _, rfl⟩ := List.mem_map.mp hp
    intro hc
    cases hc
  · show (0 : Nat) = _
    symm
    refine List.countP_eq_zero.mpr ?_
    intro p hp
    obtain ⟨q, _, rfl⟩ := List.mem_map.mp hp
    simp [resetProcess]
  · show sliceSum [] = _
    rw [show sliceSum [] = 0 from rfl]
    symm
    refine List.sum_eq_zero ?_
    intro x hx
    obtain ⟨p, hp, rfl⟩ := List.mem_map.mp hx
    obtain ⟨q, _, rfl⟩ := List.mem_map.mp hp
    rfl
  · exact List.nodup_nil
  · intro i hi
    cases hi

/-! ### Loop-level facts: invariant at the result, the guard turning false,
and insensitivity to extra fuel -/

theorem run_loop_facts {Inv : SimSt → Prop} {m : SimSt → Nat} {done : SimSt → Bool}
    {step : SimSt → SimSt} {fuel : Nat} {st0 : SimSt}
    (hstep : ∀ x, done x = false → Inv x → Inv (step x))
    (hdec : ∀ x, done x = false → Inv x → m (step x) < m x)
    (hinit : Inv st0) (hfuel : m st0 ≤ fuel) :
    Inv (iterWhile done step fuel st0) ∧ done (iterWhile done step fuel st0) = true ∧
    ∀ g, fuel ≤ g → iterWhile done step g st0 = iterWhile done step fuel st0 := by
  have hdone := iterWhile_term hstep hdec fuel st0 hinit hfuel
  exact ⟨iterWhile_inv hstep fuel st0 hinit, hdone,
    fun g hg => iterWhile_fuel_irrel hdone hg⟩

theorem sjf_loop_facts (b : Bool) (I S : Int) (ps : List Process) (h : ValidInput ps) :
    NPInv (reset_processes ps) ((maxArrival ps : Int))
        (iterWhile (loopDone ps.length) (sjf_step b I S) (np_fuel ps) (initSt ps)) ∧
    loopDone ps.length
        (iterWhile (loopDone ps.length) (sjf_step b I S) (np_fuel ps) (initSt ps)) = true ∧
    ∀ g, np_fuel ps ≤ g →
      iterWhile (loopDone ps.length) (sjf_step b I S) g (initSt ps)
        = iterWhile (loopDone ps.length) (sjf_step b I S) (np_fuel ps) (initSt ps) := by
  have hlr := length_reset ps
  refine @run_loop_facts _ (npMeasure (reset_processes ps).length ((maxArrival ps : Int)))
    _ _ _ _ ?_ ?_ (initSt_NPInv h) ?_
  · intro x _ hInv
    exact sjf_step_inv b I S hInv
  · intro x hx hInv
    refine sjf_step_dec b I S hInv ?_
    simp only [loopDone, decide_eq_false_iff_not, not_le] at hx
    omega
  · show npMeasure (reset_processes ps).length _ (initSt ps) ≤ _
    unfold npMeasure np_fuel initSt
    dsimp only
    omega

theorem pnp_loop_facts (b : Bool) (I S : Int) (ps : List Process) (h : ValidInput ps) :
    NPInv (reset_processes ps) ((maxArrival ps : Int))
        (iterWhile (loopDone ps.length) (pnp_step b I S) (np_fuel ps) (initSt ps)) ∧
    loopDone ps.length
        (iterWhile (loopDone ps.length) (pnp_step b I S) (np_fuel ps) (initSt ps)) = true ∧
    ∀ g, np_fuel ps ≤ g →
      iterWhile (loopDone ps.length) (pnp_step b I S) g (initSt ps)
        = iterWhile (loopDone ps.length) (pnp_step b I S) (np_fuel ps) (initSt ps) := by
  have hlr := length_reset ps
  refine @run_loop_facts _ (npMeasure (reset_processes ps).length ((maxArrival ps : Int)))
    _ _ _ _ ?_ ?_ (initSt_NPInv h) ?_
  · intro x _ hInv
    exact pnp_step_inv b I S hInv
  · intro x hx hInv
    refine pnp_step_dec b I S hInv ?_
    simp only [loopDone, decide_eq_false_iff_not, not_le] at hx
    omega
  · show npMeasure (reset_processes ps).length _ (initSt ps) ≤ _
    unfold npMeasure np_fuel initSt
    dsimp only
    omega

/-! ### FCFS -/

theorem natGetD_mem {l : List Nat} {k : Nat} (h : k < l.length) : l.getD k 0 ∈ l := by
  rw [List.getD_eq_getElem _ _ h]
  exact List.getElem_mem h

theorem initSt_FcfsInv {ps : List Process} (h : ValidInput ps) :
    FcfsInv (reset_processes ps) ((maxArrival ps : Int))
      (sortedOrder (reset_processes ps)) (initSt ps) := by
  refine ⟨rfl, rfl, rfl, valid_reset h, ?_, ?_, ?_, ?_, ?_, ?_⟩
  · intro p hp
    obtain ⟨q, _, rfl⟩ := List.mem_map.mp hp
    rfl
  · intro p hp
    obtain ⟨q, _, rfl⟩ := List.mem_map.mp hp
    intro hc
    cases hc
  · show (0 : Nat) = _
    symm
    refine List.countP_eq_zero.mpr ?_
    intro p hp
    obtain ⟨q, _, rfl⟩ := List.mem_map.mp hp
    simp [resetProcess]
  · show sliceSum [] = _
    rw [show sliceSum [] = 0 from rfl]
    symm
    refine List.sum_eq_zero ?_
    intro x hx
    obtain ⟨p, hp, rfl⟩ := List.mem_map.mp hx
    obtain ⟨q, _, rfl⟩ := List.mem_map.mp hp
    rfl
  · intro k hk
    have hmem : (sortedOrder (reset_processes ps)).getD k 0 ∈ sortedOrder (reset_processes ps) :=
      natGetD_mem hk
    have hlt := mem_sortedOrder_lt hmem
    show _ ↔ k < 0
    constructor
    · intro hc
      exfalso
      have hc2 : (getP (reset_processes ps)
          ((sortedOrder (reset_processes ps)).getD k 0)).is_completed = true := hc
      have hmm2 : getP (reset_processes ps)
          ((sortedOrder (reset_processes ps)).getD k 0) ∈ reset_processes ps :=
        getP_mem hlt
      obtain ⟨q, _, he⟩ := List.mem_map.mp hmm2
      rw [← he] at hc2
      cases hc2
    · intro hk0
      omega
  · show (0 : Nat) ≤ _
    omega

theorem fcfs_step_inv {ps0 : List Process} {A : Int} {order : List Nat} {st : SimSt}
    (horder : order.Perm (List.range ps0.length))
    (h : FcfsInv ps0 A order st) (hguard : st.completed < ps0.length) :
    FcfsInv ps0 A order (fcfs_step order st) := by
  have hordlen : order.length = ps0.length := by simpa using horder.length_eq
  have hordnodup : order.Nodup := horder.nodup_iff.mpr (List.nodup_range _)
  have hc_lt : st.completed < order.length := by omega
  have hi_mem : order.getD st.completed 0 ∈ order := natGetD_mem hc_lt
  have hi_lt : order.getD st.completed 0 < ps0.length := by
    have := horder.mem_iff.mp hi_mem
    simpa using this
  have hilen : order.getD st.completed 0 < st.processes.length := by
    have := h.len
    omega
  have hicomp : (getP st.processes (order.getD st.completed 0)).is_completed = false := by
    have hiff := h.ord st.completed hc_lt
    rcases hb : (getP st.processes (order.getD st.completed 0)).is_completed with _ | _
    · rfl
    · exact absurd (hiff.mp hb) (Nat.lt_irrefl _)
  obtain ⟨hb1, hb2, hb3⟩ := h.valid _ (getP_mem hilen)
  have hmem := getP_mem hilen
  unfold fcfs_step
  dsimp only
  have harrle : (getP st.processes (order.getD st.completed 0)).arrival_time ≤
      (if st.current_time < (getP st.processes (order.getD st.completed 0)).arrival_time
       then (getP st.processes (order.getD st.completed 0)).arrival_time
       else st.current_time) := by
    split <;> omega
  refine ⟨?_, ?_, ?_, ?_, ?_, ?_, ?_, ?_, ?_, ?_⟩
  · dsimp only; rw [length_setP]; exact h.len
  · dsimp only
    refine (map_setP_same (fun p => p.burst_time) ?_).trans h.bmap
    rfl
  · dsimp only
    refine (map_setP_same (fun p => p.pid) ?_).trans h.pidmap
    rfl
  · dsimp only
    intro q hmq
    rcases mem_setP hmq with hold | rfl
    · exact h.valid q hold
    · exact ⟨hb1, hb2, hb3⟩
  · dsimp only
    intro q hmq
    rcases mem_setP hmq with hold | rfl
    · exact h.rem q hold
    · show (getP st.processes _).remaining_time = (getP st.processes _).burst_time
      exact h.rem _ hmem
  · dsimp only
    intro q hmq
    rcases mem_setP hmq with hold | rfl
    · exact h.fin q hold
    · intro _
      refine ⟨rfl, rfl, ?_⟩
      show (0 : Int) ≤ _
      dsimp only
      omega
  · dsimp only
    rw [countP_setP_flip hilen hicomp (by rfl), h.count]
  · dsimp only
    rw [sliceSum_append, doneSum_setP_flip hilen hicomp (by rfl) (by rfl), h.cons]
    simp [sliceSum]
  · dsimp only
    intro k hk
    by_cases hkc : k = st.completed
    · subst hkc
      rw [getP_setP_self _ hilen]
      simp
    · have hne : order.getD k 0 ≠ order.getD st.completed 0 := by
        intro he
        rw [List.getD_eq_getElem _ _ hk, List.getD_eq_getElem _ _ hc_lt] at he
        exact hkc ((List.Nodup.getElem_inj_iff hordnodup).mp he)
      rw [getP_setP_ne _ (fun he => hne he.symm)]
      rw [h.ord k hk]
      omega
  · dsimp only
    have := h.cle
    omega

theorem fcfs_loop_facts (ps : List Process) (h : ValidInput ps) :
    FcfsInv (reset_processes ps) ((maxArrival ps : Int)) (sortedOrder (reset_processes ps))
        (iterWhile (loopDone ps.length) (fcfs_step (sortedOrder (reset_processes ps)))
          ps.length (initSt ps)) ∧
    loopDone ps.length
        (iterWhile (loopDone ps.length) (fcfs_step (sortedOrder (reset_processes ps)))
          ps.length (initSt ps)) = true ∧
    ∀ g, ps.length ≤ g →
      iterWhile (loopDone ps.length) (fcfs_step (sortedOrder (reset_processes ps))) g (initSt ps)
        = iterWhile (loopDone ps.length) (fcfs_step (sortedOrder (reset_processes ps)))
            ps.length (initSt ps) := by
  have hlr := length_reset ps
  have hperm : (sortedOrder (reset_processes ps)).Perm (List.range (reset_processes ps).length) :=
    sortedOrder_perm_range _
  refine @run_loop_facts _ (fcfsMeasure (reset_processes ps).length) _ _ _ _ ?_ ?_
    (initSt_FcfsInv h) ?_
  · intro x hx hInv
    refine fcfs_step_inv hperm hInv ?_
    simp only [loopDone, decide_eq_false_iff_not, not_le] at hx
    omega
  · intro x hx hInv
    simp only [loopDone, decide_eq_false_iff_not, not_le] at hx
    unfold fcfsMeasure fcfs_step
    dsimp only
    omega
  · show fcfsMeasure (reset_processes ps).length (initSt ps) ≤ _
    unfold fcfsMeasure initSt
    dsimp only
    omega

/-! ### SRTF and Priority preemptive -/

theorem initSt_PInv {ps : List Process} (h : ValidInput ps) :
    PInv (reset_processes ps) ((maxArrival ps : Int)) (initSt ps) := by
  refine ⟨rfl, rfl, rfl, valid_reset h, ?_, ?_, ?_, ?_, ?_, ?_, ?_⟩
  · intro p hp
    obtain ⟨q, hq, rfl⟩ := List.mem_map.mp hp
    obtain ⟨h1, _⟩ := h q hq
    show (0 : Int) ≤ q.burst_time ∧ q.burst_time ≤ q.burst_time
    omega
  · intro p hp
    obtain ⟨q, _, rfl⟩ := List.mem_map.mp hp
    intro hc
    cases hc
  · intro p hp
    obtain ⟨q, hq, rfl⟩ := List.mem_map.mp hp
    obtain ⟨h1, _⟩ := h q hq
    intro _
    refine ⟨h1, ?_⟩
    show q.burst_time - q.burst_time ≤ _
    omega
  · intro p hp
    obtain ⟨q, _, rfl⟩ := List.mem_map.mp hp
    intro hc
    cases hc
  · intro p hp
    obtain ⟨q, _, rfl⟩ := List.mem_map.mp hp
    rfl
  · show (0 : Nat) = _
    symm
    refine List.countP_eq_zero.mpr ?_
    intro p hp
    obtain ⟨q, _, rfl⟩ := List.mem_map.mp hp
    simp [resetProcess]
  · show sliceSum [] + remSum _ = burstSum _
    rw [show sliceSum [] = 0 from rfl]
    unfold remSum burstSum
    rw [zero_add]
    refine congrArg List.sum (List.map_congr_left ?_)
    intro p hp
    obtain ⟨q, _, rfl⟩ := List.mem_map.mp hp
    rfl

theorem agree_pass_candidate {upd : Int → Process → Process × Option StarveEvent}
    (hupd : ∀ t p, agreeButPrio p ((upd t p).1)) (l : List Nat) (st : SimSt) {j : Nat}
    (hjl : j < st.processes.length)
    (hjc : (getP st.processes j).is_completed = false)
    (hja : (getP st.processes j).arrival_time ≤ st.current_time) :
    j < (aging_pass upd l st).processes.length ∧
    (getP (aging_pass upd l st).processes j).is_completed = false ∧
    (getP (aging_pass upd l st).processes j).arrival_time ≤
      (aging_pass upd l st).current_time := by
  obtain ⟨hct, _, _, _, _, hlen, hag⟩ := aging_pass_spec upd hupd l st
  refine ⟨by omega, ?_, ?_⟩
  · rw [agree_completed (hag j)]; exact hjc
  · rw [agree_arrival (hag j), hct]; exact hja

theorem srtf_step_inv {ps0 : List Process} {A : Int} (b : Bool) (I S : Int) {st : SimSt}
    (h : PInv ps0 A st) : PInv ps0 A (srtf_step b I S st) := by
  unfold srtf_step
  dsimp only
  generalize hcand : (List.range st.processes.length).filter
    (fun i => decide ((getP st.processes i).arrival_time ≤ st.current_time ∧
                      (getP st.processes i).is_completed = false)) = cands
  cases cands with
  | nil => exact PInv_idle h
  | cons c cs =>
    cases b with
    | false =>
      dsimp only
      simp only [ite_false_bool]
      have hj := pyMinBy_mem (fun i => (getP st.processes i).remaining_time) c cs
      rw [← hcand] at hj
      obtain ⟨g1, g2, g3⟩ := mem_candidates.mp hj
      exact PInv_tick_exec h g1 g3 g2
    | true =>
      dsimp only
      simp only [eq_self_iff_true, if_true]
      have hj := pyMinBy_mem
        (fun i => (getP (aging_pass (srtf_aging_update I S) (c :: cs) st).processes i).current_priority) c cs
      have hjf : pyMinBy
          (fun i => (getP (aging_pass (srtf_aging_update I S) (c :: cs) st).processes i).current_priority) c cs
          ∈ (List.range st.processes.length).filter
            (fun i => decide ((getP st.processes i).arrival_time ≤ st.current_time ∧
                              (getP st.processes i).is_completed = false)) := by
        rw [hcand]; exact hj
      obtain ⟨g1, g2, g3⟩ := mem_candidates.mp hjf
      obtain ⟨k1, k2, k3⟩ :=
        agree_pass_candidate (srtf_aging_update_agree I S) (c :: cs) st g1 g3 g2
      exact PInv_tick_exec (PInv_aging (srtf_aging_update_agree I S) _ h) k1 k2 k3

theorem pp_step_inv {ps0 : List Process} {A : Int} {st : SimSt}
    (h : PInv ps0 A st) : PInv ps0 A (pp_step st) := by
  unfold pp_step
  dsimp only
  generalize hcand : (List.range st.processes.length).filter
    (fun i => decide ((getP st.processes i).arrival_time ≤ st.current_time ∧
                      (getP st.processes i).is_completed = false)) = cands
  cases cands with
  | nil => exact PInv_idle h
  | cons c cs =>
    dsimp only
    have hj := pyMaxByLex_mem
      (fun i => ((getP st.processes i).current_priority, -(getP st.processes i).arrival_time)) c cs
    rw [← hcand] at hj
    obtain ⟨g1, g2, g3⟩ := mem_candidates.mp hj
    exact PInv_tick_exec h g1 g3 g2

theorem remNatSum_dec {ps : List Process} {i : Nat} {p : Process} (h : i < ps.length)
    (hrem : p.remaining_time = (getP ps i).remaining_time - 1)
    (hr : 1 ≤ (getP ps i).remaining_time) :
    ((setP ps i p).map (fun q => q.remaining_time.toNat)).sum + 1
      = (ps.map (fun q => q.remaining_time.toNat)).sum := by
  have hx := map_sum_setP (fun q => q.remaining_time.toNat) p h
  simp only [] at hx
  rw [hrem] at hx
  omega

theorem tick_exec_measure {st : SimSt} {j : Nat} (hj : j < st.processes.length)
    (hr : 1 ≤ (getP st.processes j).remaining_time) :
    remNatSum (tick_exec j st).processes + 1 = remNatSum st.processes ∧
    (tick_exec j st).current_time = st.current_time + 1 := by
  unfold tick_exec
  dsimp only
  split
  case isTrue hz =>
    refine ⟨?_, rfl⟩
    unfold remNatSum
    exact remNatSum_dec hj rfl hr
  case isFalse hz =>
    refine ⟨?_, rfl⟩
    unfold remNatSum
    exact remNatSum_dec hj rfl hr

theorem remNatSum_aging {upd : Int → Process → Process × Option StarveEvent}
    (hupd : ∀ t p, agreeButPrio p ((upd t p).1)) (l : List Nat) (st : SimSt) :
    remNatSum (aging_pass upd l st).processes = remNatSum st.processes := by
  obtain ⟨_, _, _, _, _, hlen, hag⟩ := aging_pass_spec upd hupd l st
  unfold remNatSum
  exact congrArg List.sum (map_eq_of_pointwise _ st.processes _ hlen
    (fun k _ => by simp only [agree_rem (hag k)]))

theorem srtf_step_dec {ps0 : List Process} {A : Int} (b : Bool) (I S : Int) {st : SimSt}
    (h : PInv ps0 A st) (hguard : st.completed < ps0.length) :
    tickMeasure A (srtf_step b I S st) < tickMeasure A st := by
  unfold srtf_step
  dsimp only
  generalize hcand : (List.range st.processes.length).filter
    (fun i => decide ((getP st.processes i).arrival_time ≤ st.current_time ∧
                      (getP st.processes i).is_completed = false)) = cands
  cases cands with
  | nil =>
    have hcnt := h.count
    have hlen := h.len
    obtain ⟨k, hk, hkinc⟩ := exists_incomplete hcnt (by omega)
    have harr : ¬ ((getP st.processes k).arrival_time ≤ st.current_time) := by
      intro hle
      have : k ∈ (List.range st.processes.length).filter
          (fun i => decide ((getP st.processes i).arrival_time ≤ st.current_time ∧
                            (getP st.processes i).is_completed = false)) :=
        mem_candidates.mpr ⟨hk, hle, hkinc⟩
      rw [hcand] at this
      cases this
    obtain ⟨_, _, hA⟩ := h.valid _ (getP_mem hk)
    unfold tickMeasure idle_tick
    dsimp only
    omega
  | cons c cs =>
    cases b with
    | false =>
      dsimp only
      simp only [ite_false_bool]
      have hjf : pyMinBy (fun i => (getP st.processes i).remaining_time) c cs
          ∈ (List.range st.processes.length).filter
            (fun i => decide ((getP st.processes i).arrival_time ≤ st.current_time ∧
                              (getP st.processes i).is_completed = false)) := by
        rw [hcand]; exact pyMinBy_mem _ c cs
      obtain ⟨g1, g2, g3⟩ := mem_candidates.mp hjf
      obtain ⟨hr1, _⟩ := h.inc _ (getP_mem g1) g3
      obtain ⟨m1, m2⟩ := tick_exec_measure g1 hr1
      unfold tickMeasure
      rw [m2]
      omega
    | true =>
      dsimp only
      simp only [eq_self_iff_true, if_true]
      have hjf : pyMinBy
          (fun i => (getP (aging_pass (srtf_aging_update I S) (c :: cs) st).processes i).current_priority) c cs
          ∈ (List.range st.processes.length).filter
            (fun i => decide ((getP st.processes i).arrival_time ≤ st.current_time ∧
                              (getP st.processes i).is_completed = false)) := by
        rw [hcand]; exact pyMinBy_mem _ c cs
      obtain ⟨g1, g2, g3⟩ := mem_candidates.mp hjf
      obtain ⟨k1, k2, k3⟩ :=
        agree_pass_candidate (srtf_aging_update_agree I S) (c :: cs) st g1 g3 g2
      have hinv' := PInv_aging (srtf_aging_update_agree I S) (c :: cs) h
      obtain ⟨hr1, _⟩ := hinv'.inc _ (getP_mem k1) k2
      obtain ⟨m1, m2⟩ := tick_exec_measure k1 hr1
      obtain ⟨hct, _, _, _, _, _, _⟩ :=
        aging_pass_spec _ (srtf_aging_update_agree I S) (c :: cs) st
      have hrs := remNatSum_aging (srtf_aging_update_agree I S) (c :: cs) st
      unfold tickMeasure
      rw [m2, hct]
      omega

theorem pp_step_dec {ps0 : List Process} {A : Int} {st : SimSt} (h : PInv ps0 A st)
    (hguard : st.completed < ps0.length) :
    tickMeasure A (pp_step st) < tickMeasure A st := by
  unfold pp_step
  dsimp only
  generalize hcand : (List.range st.processes.length).filter
    (fun i => decide ((getP st.processes i).arrival_time ≤ st.current_time ∧
                      (getP st.processes i).is_completed = false)) = cands
  cases cands with
  | nil =>
    have hcnt := h.count
    have hlen := h.len
    obtain ⟨k, hk, hkinc⟩ := exists_incomplete hcnt (by omega)
    have harr : ¬ ((getP st.processes k).arrival_time ≤ st.current_time) := by
      intro hle
      have : k ∈ (List.range st.processes.length).filter
          (fun i => decide ((getP st.processes i).arrival_time ≤ st.current_time ∧
                            (getP st.processes i).is_completed = false)) :=
        mem_candidates.mpr ⟨hk, hle, hkinc⟩
      rw [hcand] at this
      cases this
    obtain ⟨_, _, hA⟩ := h.valid _ (getP_mem hk)
    unfold tickMeasure idle_tick
    dsimp only
    omega
  | cons c cs =>
    dsimp only
    have hjf : pyMaxByLex
        (fun i => ((getP st.processes i).current_priority, -(getP st.processes i).arrival_time)) c cs
        ∈ (List.range st.processes.length).filter
          (fun i => decide ((getP st.processes i).arrival_time ≤ st.current_time ∧
                            (getP st.processes i).is_completed = false)) := by
      rw [hcand]; exact pyMaxByLex_mem _ c cs
    obtain ⟨g1, g2, g3⟩ := mem_candidates.mp hjf
    obtain ⟨hr1, _⟩ := h.inc _ (getP_mem g1) g3
    obtain ⟨m1, m2⟩ := tick_exec_measure g1 hr1
    unfold tickMeasure
    rw [m2]
    omega

theorem remNatSum_reset (ps : List Process) :
    remNatSum (reset_processes ps) = burstSumNat ps := by
  unfold remNatSum burstSumNat reset_processes
  rw [List.map_map]
  exact congrArg List.sum (List.map_congr_left (fun p _ => rfl))

theorem srtf_loop_facts (b : Bool) (I S : Int) (ps : List Process) (h : ValidInput ps) :
    PInv (reset_processes ps) ((maxArrival ps : Int))
        (iterWhile (loopDone ps.length) (srtf_step b I S) (tick_fuel ps) (initSt ps)) ∧
    loopDone ps.length
        (iterWhile (loopDone ps.length) (srtf_step b I S) (tick_fuel ps) (initSt ps)) = true ∧
    ∀ g, tick_fuel ps ≤ g →
      iterWhile (loopDone ps.length) (srtf_step b I S) g (initSt ps)
        = iterWhile (loopDone ps.length) (srtf_step b I S) (tick_fuel ps) (initSt ps) := by
  have hlr := length_reset ps
  refine @run_loop_facts _ (tickMeasure ((maxArrival ps : Int))) _ _ _ _ ?_ ?_
    (initSt_PInv h) ?_
  · intro x _ hInv
    exact srtf_step_inv b I S hInv
  · intro x hx hInv
    refine srtf_step_dec b I S hInv ?_
    simp only [loopDone, decide_eq_false_iff_not, not_le] at hx
    omega
  · show tickMeasure _ (initSt ps) ≤ _
    unfold tickMeasure tick_fuel initSt
    dsimp only
    rw [remNatSum_reset]
    omega

theorem pp_loop_facts (ps : List Process) (h : ValidInput ps) :
    PInv (reset_processes ps) ((maxArrival ps : Int))
        (iterWhile (loopDone ps.length) pp_step (tick_fuel ps) (initSt ps)) ∧
    loopDone ps.length
        (iterWhile (loopDone ps.length) pp_step (tick_fuel ps) (initSt ps)) = true ∧
    ∀ g, tick_fuel ps ≤ g →
      iterWhile (loopDone ps.length) pp_step g (initSt ps)
        = iterWhile (loopDone ps.length) pp_step (tick_fuel ps) (initSt ps) := by
  have hlr := length_reset ps
  refine @run_loop_facts _ (tickMeasure ((maxArrival ps : Int))) _ _ _ _ ?_ ?_
    (initSt_PInv h) ?_
  · intro x _ hInv
    exact pp_step_inv hInv
  · intro x hx hInv
    refine pp_step_dec hInv ?_
    simp only [loopDone, decide_eq_false_iff_not, not_le] at hx
    omega
  · show tickMeasure _ (initSt ps) ≤ _
    unfold tickMeasure tick_fuel initSt
    dsimp only
    rw [remNatSum_reset]
    omega

/-! ### Round Robin -/

theorem rr_admit_eq (ps : List Process) (t : Int) :
    ∀ (pending queue : List Nat),
    rr_admit ps t queue pending =
      (queue ++ pending.takeWhile (fun i => decide ((getP ps i).arrival_time ≤ t)),
       pending.dropWhile (fun i => decide ((getP ps i).arrival_time ≤ t))) := by
  intro pending
  induction pending with
  | nil => intro queue; simp [ rr_admit]
  | cons i rest ih =>
    intro queue
    unfold rr_admit
    by_cases hc : (getP ps i).arrival_time ≤ t
    · rw [if_pos hc, ih]
      simp [List.takeWhile_cons, List.dropWhile_cons, hc]
    · rw [if_neg hc]
      simp [List.takeWhile_cons, List.dropWhile_cons, hc]

theorem setP_setP (ps : List Process) (i : Nat) (p q : Process) :
    setP (setP ps i p) i q = setP ps i q := List.set_set ..

theorem remSum_setP_rw {ps : List Process} {i : Nat} {p : Process} (h : i < ps.length) :
    ((setP ps i p).map (fun q => q.remaining_time)).sum
      = (ps.map (fun q => q.remaining_time)).sum
        + p.remaining_time - (getP ps i).remaining_time := by
  have hx := map_sum_setP (fun q => q.remaining_time) p h
  simp only [] at hx
  omega

theorem remNatSum_setP_lt {ps : List Process} {i : Nat} {p : Process} (h : i < ps.length)
    (h0 : 0 ≤ p.remaining_time) (hlt : p.remaining_time < (getP ps i).remaining_time) :
    ((setP ps i p).map (fun q => q.remaining_time.toNat)).sum
      < (ps.map (fun q => q.remaining_time.toNat)).sum := by
  have hx := map_sum_setP (fun q => q.remaining_time.toNat) p h
  simp only [] at hx
  omega

theorem RRInv_set_queue {ps0 : List Process} {A : Int} {st : SimSt} {q : List Nat}
    (h : RRInv ps0 A st) (hperm : q.Perm st.ready_queue) :
    RRInv ps0 A { st with ready_queue := q } := by
  refine ⟨⟨h.base.len, h.base.bmap, h.base.pidmap, h.base.valid, h.base.rem0, h.base.comp,
    h.base.inc, h.base.fin, h.base.start, h.base.count, h.base.cons⟩, ?_, ?_, ?_, ?_⟩
  · exact ((hperm.symm.append_right st.pending).nodup h.sep)
  · intro i hi
    exact h.qok i (hperm.mem_iff.mp hi)
  · exact h.pok
  · intro i hi hic
    rcases h.part i hi hic with hm | hm
    · exact Or.inl (hperm.mem_iff.mpr hm)
    · exact Or.inr hm

theorem rr_age_facts (I S : Int) {ps0 : List Process} {A : Int} {st : SimSt}
    (h : RRInv ps0 A st) :
    RRInv ps0 A (rr_age I S st) ∧
    (rr_age I S st).current_time = st.current_time ∧
    (rr_age I S st).completed = st.completed ∧
    (rr_age I S st).execution_log = st.execution_log ∧
    (rr_age I S st).pending = st.pending ∧
    (rr_age I S st).ready_queue.length = st.ready_queue.length ∧
    remNatSum (rr_age I S st).processes = remNatSum st.processes := by
  obtain ⟨hct, hcm, hel, hq, hpd, hlen, hag⟩ :=
    aging_pass_spec _ (rr_aging_update_agree I S) st.ready_queue st
  have hinv1 := RRInv_aging (rr_aging_update_agree I S) st.ready_queue h
  have hrs := remNatSum_aging (rr_aging_update_agree I S) st.ready_queue st
  unfold rr_age
  dsimp only
  refine ⟨RRInv_set_queue hinv1 (pySort_perm _ _), hct, hcm, hel, hpd, ?_, hrs⟩
  rw [length_pySort, hq]

theorem rr_requeue_perm {α : Type} (rest pend : List α) (i : α) (p : α → Bool) :
    (((rest ++ pend.takeWhile p) ++ [i]) ++ pend.dropWhile p).Perm (i :: (rest ++ pend)) := by
  have h1 : ((rest ++ pend.takeWhile p) ++ [i]) ++ pend.dropWhile p
      = (rest ++ pend.takeWhile p) ++ (i :: pend.dropWhile p) := by
    rw [List.append_assoc]
    rfl
  rw [h1]
  refine List.perm_middle.trans ?_
  rw [List.append_assoc, List.takeWhile_append_dropWhile]

theorem rr_finalize_concat {α : Type} (rest pend : List α) (p : α → Bool) :
    (rest ++ pend.takeWhile p) ++ pend.dropWhile p = rest ++ pend := by
  rw [List.append_assoc, List.takeWhile_append_dropWhile]

theorem mem_take_or_drop {α : Type} (p : α → Bool) {l : List α} {x : α} (h : x ∈ l) :
    x ∈ l.takeWhile p ∨ x ∈ l.dropWhile p := by
  have h2 : x ∈ l.takeWhile p ++ l.dropWhile p := by
    rw [List.takeWhile_append_dropWhile]
    exact h
  exact List.mem_append.mp h2

theorem RRInv_rr_dispatch {ps0 : List Process} {A : Int} (tq : Int) {st : SimSt}
    {i : Nat} {rest : List Nat}
    (h : RRInv ps0 A st) (hq : st.ready_queue = i :: rest) (hqd : 1 ≤ tq) :
    RRInv ps0 A (
      let p := getP st.processes i
      let exec_time := min tq p.remaining_time
      let t := st.current_time + exec_time
      let elog := st.execution_log ++ [(p.pid, st.current_time, t)]
      let p := { p with remaining_time := p.remaining_time - exec_time }
      let ps := setP st.processes i p
      let qp := rr_admit ps t rest st.pending
      if 0 < p.remaining_time then
        { st with processes := ps, current_time := t, execution_log := elog,
                  ready_queue := qp.1 ++ [i], pending := qp.2 }
      else
        let p := { p with completion_time := t, turnaround_time := t - p.arrival_time,
                          waiting_time := (t - p.arrival_time) - p.burst_time,
                          is_completed := true }
        { st with processes := setP ps i p, current_time := t, execution_log := elog,
                  ready_queue := qp.1, pending := qp.2, completed := st.completed + 1 }) := by
  obtain ⟨hilen, hicomp, hiarr⟩ := h.qok i (by rw [hq]; exact List.mem_cons_self _ _)
  have hmem := getP_mem hilen
  obtain ⟨hb1, hb2, hb3⟩ := h.base.valid _ hmem
  obtain ⟨hr0, hr1⟩ := h.base.rem0 _ hmem
  obtain ⟨hi1, hi2⟩ := h.base.inc _ hmem hicomp
  have hstart := h.base.start _ hmem
  have hexecle : min tq (getP st.processes i).remaining_time
      ≤ (getP st.processes i).remaining_time := min_le_right _ _
  have hexec1 : 1 ≤ min tq (getP st.processes i).remaining_time := le_min hqd hi1
  have hsep' : (i :: (rest ++ st.pending)).Nodup := by
    have := h.sep
    rw [hq] at this
    simpa using this
  have hin : i ∉ rest ++ st.pending := (List.nodup_cons.mp hsep').1
  have hinr : i ∉ rest := fun hm => hin (List.mem_append_left _ hm)
  have hinp : i ∉ st.pending := fun hm => hin (List.mem_append_right _ hm)
  have hrpn : (rest ++ st.pending).Nodup := (List.nodup_cons.mp hsep').2
  dsimp only
  rw [rr_admit_eq]
  dsimp only
  split
  case isTrue hpos =>
    have hTD := List.takeWhile_append_dropWhile
      (fun j => decide ((getP (setP st.processes i
        { getP st.processes i with
          remaining_time := (getP st.processes i).remaining_time
            - min tq (getP st.processes i).remaining_time }) j).arrival_time
        ≤ st.current_time + min tq (getP st.processes i).remaining_time)) st.pending
    refine ⟨⟨?_, ?_, ?_, ?_, ?_, ?_, ?_, ?_, ?_, ?_, ?_⟩, ?_, ?_, ?_, ?_⟩
    · dsimp only; rw [length_setP]; exact h.base.len
    · dsimp only
      refine (map_setP_same (fun p => p.burst_time) ?_).trans h.base.bmap
      rfl
    · dsimp only
      refine (map_setP_same (fun p => p.pid) ?_).trans h.base.pidmap
      rfl
    · dsimp only
      intro q hmq
      rcases mem_setP hmq with hold | rfl
      · exact h.base.valid q hold
      · exact ⟨hb1, hb2, hb3⟩
    · dsimp only
      intro q hmq
      rcases mem_setP hmq with hold | rfl
      · exact h.base.rem0 q hold
      · constructor
        · show (0 : Int) ≤ _
          dsimp only
          omega
        · show _ - _ ≤ _
          dsimp only
          omega
    · dsimp only
      intro q hmq
      rcases mem_setP hmq with hold | rfl
      · exact h.base.comp q hold
      · intro hqc
        rw [show ({ getP st.processes i with
            remaining_time := (getP st.processes i).remaining_time
              - min tq (getP st.processes i).remaining_time } : Process).is_completed
            = (getP st.processes i).is_completed from rfl] at hqc
        rw [hicomp] at hqc
        cases hqc
    · dsimp only
      intro q hmq
      rcases mem_setP hmq with hold | rfl
      · intro hqc
        obtain ⟨g1, g2⟩ := h.base.inc q hold hqc
        refine ⟨g1, ?_⟩
        have hle : max 0 (st.current_time - q.arrival_time) ≤
            max 0 (st.current_time + min tq (getP st.processes i).remaining_time
              - q.arrival_time) := by omega
        omega
      · intro _
        constructor
        · show (1 : Int) ≤ _
          dsimp only
          omega
        · show _ - _ ≤ _
          dsimp only
          omega
    · dsimp only
      intro q hmq
      rcases mem_setP hmq with hold | rfl
      · exact h.base.fin q hold
      · intro hqc
        rw [show ({ getP st.processes i with
            remaining_time := (getP st.processes i).remaining_time
              - min tq (getP st.processes i).remaining_time } : Process).is_completed
            = (getP st.processes i).is_completed from rfl] at hqc
        rw [hicomp] at hqc
        cases hqc
    · dsimp only
      intro q hmq
      rcases mem_setP hmq with hold | rfl
      · exact h.base.start q hold
      · exact hstart
    · dsimp only
      rw [countP_setP_same hilen (by rfl)]
      exact h.base.count
    · dsimp only
      rw [sliceSum_append]
      unfold remSum burstSum
      rw [remSum_setP_rw hilen, burstSum_setP_eq (by rfl)]
      dsimp only
      have hco := h.base.cons
      unfold remSum burstSum sliceSum at hco
      simp only [sliceSum, List.map_cons, List.map_nil, List.sum_cons, List.sum_nil]
      omega
    · dsimp only
      exact ((rr_requeue_perm rest st.pending i
        (fun j => decide ((getP (setP st.processes i
          { getP st.processes i with
            remaining_time := (getP st.processes i).remaining_time
              - min tq (getP st.processes i).remaining_time }) j).arrival_time
          ≤ st.current_time + min tq (getP st.processes i).remaining_time))).symm.nodup hsep')
    · dsimp only
      intro j hj
      rcases List.mem_append.mp hj with hj1 | hj2
      · rcases List.mem_append.mp hj1 with hjr | hjT
        · have hjq : j ∈ st.ready_queue := by rw [hq]; exact List.mem_cons_of_mem _ hjr
          obtain ⟨g1, g2, g3⟩ := h.qok j hjq
          have hji : j ≠ i := fun he => hinr (he ▸ hjr)
          rw [getP_setP_ne _ (fun he => hji he.symm)]
          exact ⟨by rw [length_setP]; omega, g2, by omega⟩
        · have hjp : j ∈ st.pending := (List.takeWhile_sublist _).subset hjT
          obtain ⟨g1, g2, g3⟩ := h.pok j hjp
          have hji : j ≠ i := fun he => hinp (he ▸ hjp)
          have harr := List.mem_takeWhile_imp hjT
          simp only [decide_eq_true_eq] at harr
          rw [getP_setP_ne _ (fun he => hji he.symm)] at harr
          rw [getP_setP_ne _ (fun he => hji he.symm)]
          exact ⟨by rw [length_setP]; omega, g2, harr⟩
      · have hji : j = i := by simpa using hj2
        subst hji
        rw [getP_setP_self _ hilen]
        refine ⟨by rw [length_setP]; omega, ?_, ?_⟩
        · show (getP st.processes j).is_completed = false
          exact hicomp
        · show (getP st.processes j).arrival_time ≤ _
          omega
    · dsimp only
      intro j hj
      have hjp : j ∈ st.pending := (List.dropWhile_sublist _).subset hj
      obtain ⟨g1, g2, g3⟩ := h.pok j hjp
      have hji : j ≠ i := fun he => hinp (he ▸ hjp)
      rw [getP_setP_ne _ (fun he => hji he.symm)]
      exact ⟨by rw [length_setP]; omega, g2, g3⟩
    · dsimp only
      intro k hk hkinc
      rw [length_setP] at hk
      by_cases hki : k = i
      · subst hki
        left
        exact List.mem_append_right _ (by simp)
      · rw [getP_setP_ne _ (fun he => hki he.symm)] at hkinc
        rcases h.part k hk hkinc with hm | hm
        · rw [hq] at hm
          rcases List.mem_cons.mp hm with he | hm2
          · exact absurd he hki
          · left
            exact List.mem_append_left _ (List.mem_append_left _ hm2)
        · rcases mem_take_or_drop
            (fun j => decide ((getP (setP st.processes i
              { getP st.processes i with
                remaining_time := (getP st.processes i).remaining_time
                  - min tq (getP st.processes i).remaining_time }) j).arrival_time
              ≤ st.current_time + min tq (getP st.processes i).remaining_time)) hm with hT | hD
          · left
            exact List.mem_append_left _ (List.mem_append_right _ hT)
          · right
            exact hD
  case isFalse hpos =>
    rw [setP_setP]
    refine ⟨⟨?_, ?_, ?_, ?_, ?_, ?_, ?_, ?_, ?_, ?_, ?_⟩, ?_, ?_, ?_, ?_⟩
    · dsimp only; rw [length_setP]; exact h.base.len
    · dsimp only
      refine (map_setP_same (fun p => p.burst_time) ?_).trans h.base.bmap
      rfl
    · dsimp only
      refine (map_setP_same (fun p => p.pid) ?_).trans h.base.pidmap
      rfl
    · dsimp only
      intro q hmq
      rcases mem_setP hmq with hold | rfl
      · exact h.base.valid q hold
      · exact ⟨hb1, hb2, hb3⟩
    · dsimp only
      intro q hmq
      rcases mem_setP hmq with hold | rfl
      · exact h.base.rem0 q hold
      · constructor
        · show (0 : Int) ≤ _
          dsimp only
          omega
        · show _ - _ ≤ _
          dsimp only
          omega
    · dsimp only
      intro q hmq
      rcases mem_setP hmq with hold | rfl
      · exact h.base.comp q hold
      · intro _
        show (getP st.processes i).remaining_time
            - min tq (getP st.processes i).remaining_time = 0
        omega
    · dsimp only
      intro q hmq
      rcases mem_setP hmq with hold | rfl
      · intro hqc
        obtain ⟨g1, g2⟩ := h.base.inc q hold hqc
        refine ⟨g1, ?_⟩
        have hle : max 0 (st.current_time - q.arrival_time) ≤
            max 0 (st.current_time + min tq (getP st.processes i).remaining_time
              - q.arrival_time) := by omega
        omega
      · intro hqc
        simp at hqc
    · dsimp only
      intro q hmq
      rcases mem_setP hmq with hold | rfl
      · exact h.base.fin q hold
      · intro _
        refine ⟨rfl, rfl, ?_⟩
        show (0 : Int) ≤ _
        dsimp only
        omega
    · dsimp only
      intro q hmq
      rcases mem_setP hmq with hold | rfl
      · exact h.base.start q hold
      · exact hstart
    · dsimp only
      rw [countP_setP_flip hilen hicomp (by rfl)]
      rw [h.base.count]
    · dsimp only
      rw [sliceSum_append]
      unfold remSum burstSum
      rw [remSum_setP_rw hilen, burstSum_setP_eq (by rfl)]
      dsimp only
      have hco := h.base.cons
      unfold remSum burstSum sliceSum at hco
      simp only [sliceSum, List.map_cons, List.map_nil, List.sum_cons, List.sum_nil]
      omega
    · dsimp only
      rw [rr_finalize_concat]
      exact hrpn
    · dsimp only
      intro j hj
      rcases List.mem_append.mp hj with hjr | hjT
      · have hjq : j ∈ st.ready_queue := by rw [hq]; exact List.mem_cons_of_mem _ hjr
        obtain ⟨g1, g2, g3⟩ := h.qok j hjq
        have hji : j ≠ i := fun he => hinr (he ▸ hjr)
        rw [getP_setP_ne _ (fun he => hji he.symm)]
        exact ⟨by rw [length_setP]; omega, g2, by omega⟩
      · have hjp : j ∈ st.pending := (List.takeWhile_sublist _).subset hjT
        obtain ⟨g1, g2, g3⟩ := h.pok j hjp
        have hji : j ≠ i := fun he => hinp (he ▸ hjp)
        have harr := List.mem_takeWhile_imp hjT
        simp only [decide_eq_true_eq] at harr
        rw [getP_setP_ne _ (fun he => hji he.symm)] at harr
        rw [getP_setP_ne _ (fun he => hji he.symm)]
        exact ⟨by rw [length_setP]; omega, g2, harr⟩
    · dsimp only
      intro j hj
      have hjp : j ∈ st.pending := (List.dropWhile_sublist _).subset hj
      obtain ⟨g1, g2, g3⟩ := h.pok j hjp
      have hji : j ≠ i := fun he => hinp (he ▸ hjp)
      rw [getP_setP_ne _ (fun he => hji he.symm)]
      exact ⟨by rw [length_setP]; omega, g2, g3⟩
    · dsimp only
      intro k hk hkinc
      rw [length_setP] at hk
      by_cases hki : k = i
      · subst hki
        rw [getP_setP_self _ hilen] at hkinc
        simp at hkinc
      · rw [getP_setP_ne _ (fun he => hki he.symm)] at hkinc
        rcases h.part k hk hkinc with hm | hm
        · rw [hq] at hm
          rcases List.mem_cons.mp hm with he | hm2
          · exact absurd he hki
          · left
            exact List.mem_append_left _ hm2
        · rcases mem_take_or_drop
            (fun j => decide ((getP (setP st.processes i
              { getP st.processes i with
                remaining_time := (getP st.processes i).remaining_time
                  - min tq (getP st.processes i).remaining_time }) j).arrival_time
              ≤ st.current_time + min tq (getP st.processes i).remaining_time)) hm with hT | hD
          · left
            exact List.mem_append_right _ hT
          · right
            exact hD

theorem rr_step_inv {ps0 : List Process} {A : Int} (tq : Int) (b : Bool) (I S : Int)
    {st : SimSt} (h : RRInv ps0 A st) (hqd : 1 ≤ tq) :
    RRInv ps0 A (rr_step tq b I S st) := by
  unfold rr_step
  split
  case isTrue hempty =>
    have hqe : st.ready_queue = [] := List.isEmpty_iff.mp hempty
    rcases hpend : st.pending with _ | ⟨i, rest⟩
    · exact RRInv_idle h
    · dsimp only
      rw [rr_admit_eq]
      dsimp only
      refine ⟨⟨h.base.len, h.base.bmap, h.base.pidmap, h.base.valid, h.base.rem0,
        h.base.comp, ?_, h.base.fin, h.base.start, h.base.count, h.base.cons⟩,
        ?_, ?_, ?_, ?_⟩
      · dsimp only
        intro p hp hpc
        obtain ⟨g1, _⟩ := h.base.inc p hp hpc
        refine ⟨g1, ?_⟩
        obtain ⟨k, hk, hkp⟩ := exists_getP_of_mem hp
        rcases h.part k hk (by rw [hkp]; exact hpc) with hm | hm
        · rw [hqe] at hm
          cases hm
        · obtain ⟨_, _, g3⟩ := h.pok k hm
          rw [hkp] at g3
          rw [g3]
          simp
      · dsimp only
        rw [rr_finalize_concat, hqe, ← hpend]
        have hsep := h.sep
        rw [hqe] at hsep
        simpa using hsep
      · dsimp only
        intro j hj
        rcases List.mem_append.mp hj with hjq | hjT
        · rw [hqe] at hjq
          cases hjq
        · have hjp : j ∈ st.pending := by
            rw [hpend]
            exact (List.takeWhile_sublist _).subset hjT
          obtain ⟨g1, g2, _⟩ := h.pok j hjp
          have harr := List.mem_takeWhile_imp hjT
          simp only [decide_eq_true_eq] at harr
          exact ⟨g1, g2, harr⟩
      · dsimp only
        intro j hj
        have hjp : j ∈ st.pending := by
          rw [hpend]
          exact (List.dropWhile_sublist _).subset hj
        obtain ⟨g1, g2, g3⟩ := h.pok j hjp
        exact ⟨g1, g2, g3⟩
      · dsimp only
        intro k hk hkinc
        rcases h.part k hk hkinc with hm | hm
        · rw [hqe] at hm
          cases hm
        · rw [hpend] at hm
          rcases mem_take_or_drop
            (fun j => decide ((getP st.processes j).arrival_time ≤
              (getP st.processes i).arrival_time)) hm with hT | hD
          · left
            exact List.mem_append_right _ hT
          · right
            exact hD
  case isFalse hempty =>
    cases b with
    | false =>
      simp only [Bool.false_eq_true, if_false]
      rcases hq1 : st.ready_queue with _ | ⟨i, rest⟩
      · exact h
      · exact RRInv_rr_dispatch tq h hq1 hqd
    | true =>
      simp only [eq_self_iff_true, if_true]
      obtain ⟨hinv1, hct, hcm, hel, hpd, hql, hrs⟩ := rr_age_facts I S h
      rcases hq1 : (rr_age I S st).ready_queue with _ | ⟨i, rest⟩
      · exact hinv1
      · exact RRInv_rr_dispatch tq hinv1 hq1 hqd

theorem rr_dispatch_measure {ps0 : List Process} {A : Int} (tq : Int) {st : SimSt}
    {i : Nat} {rest : List Nat}
    (h : RRInv ps0 A st) (hq : st.ready_queue = i :: rest) (hqd : 1 ≤ tq) :
    rrMeasure (
      let p := getP st.processes i
      let exec_time := min tq p.remaining_time
      let t := st.current_time + exec_time
      let elog := st.execution_log ++ [(p.pid, st.current_time, t)]
      let p := { p with remaining_time := p.remaining_time - exec_time }
      let ps := setP st.processes i p
      let qp := rr_admit ps t rest st.pending
      if 0 < p.remaining_time then
        { st with processes := ps, current_time := t, execution_log := elog,
                  ready_queue := qp.1 ++ [i], pending := qp.2 }
      else
        let p := { p with completion_time := t, turnaround_time := t - p.arrival_time,
                          waiting_time := (t - p.arrival_time) - p.burst_time,
                          is_completed := true }
        { st with processes := setP ps i p, current_time := t, execution_log := elog,
                  ready_queue := qp.1, pending := qp.2, completed := st.completed + 1 })
      < rrMeasure st := by
  obtain ⟨hilen, hicomp, hiarr⟩ := h.qok i (by rw [hq]; exact List.mem_cons_self _ _)
  obtain ⟨hi1, hi2⟩ := h.base.inc _ (getP_mem hilen) hicomp
  have hexecle : min tq (getP st.processes i).remaining_time
      ≤ (getP st.processes i).remaining_time := min_le_right _ _
  have hexec1 : 1 ≤ min tq (getP st.processes i).remaining_time := le_min hqd hi1
  dsimp only
  rw [rr_admit_eq]
  dsimp only
  split
  case isTrue hpos =>
    unfold rrMeasure remNatSum
    dsimp only
    refine Nat.add_lt_add_of_lt_of_le ?_ ?_
    · refine remNatSum_setP_lt hilen ?_ ?_
      · show (0 : Int) ≤ (getP st.processes i).remaining_time
          - min tq (getP st.processes i).remaining_time
        omega
      · show (getP st.processes i).remaining_time
            - min tq (getP st.processes i).remaining_time
          < (getP st.processes i).remaining_time
        omega
    · exact (List.dropWhile_sublist _).length_le
  case isFalse hpos =>
    rw [setP_setP]
    unfold rrMeasure remNatSum
    dsimp only
    refine Nat.add_lt_add_of_lt_of_le ?_ ?_
    · refine remNatSum_setP_lt hilen ?_ ?_
      · show (0 : Int) ≤ (getP st.processes i).remaining_time
          - min tq (getP st.processes i).remaining_time
        omega
      · show (getP st.processes i).remaining_time
            - min tq (getP st.processes i).remaining_time
          < (getP st.processes i).remaining_time
        omega
    · exact (List.dropWhile_sublist _).length_le

theorem rr_step_dec {ps0 : List Process} {A : Int} (tq : Int) (b : Bool) (I S : Int)
    {st : SimSt} (h : RRInv ps0 A st) (hqd : 1 ≤ tq)
    (hguard : st.completed < ps0.length) :
    rrMeasure (rr_step tq b I S st) < rrMeasure st := by
  unfold rr_step
  split
  case isTrue hempty =>
    have hqe : st.ready_queue = [] := List.isEmpty_iff.mp hempty
    rcases hpend : st.pending with _ | ⟨i, rest⟩
    · exfalso
      have hcnt := h.base.count
      have hlen := h.base.len
      obtain ⟨k, hk, hkinc⟩ := exists_incomplete hcnt (by omega)
      rcases h.part k hk hkinc with hm | hm
      · rw [hqe] at hm
        cases hm
      · rw [hpend] at hm
        cases hm
    · dsimp only
      rw [rr_admit_eq]
      dsimp only
      unfold rrMeasure
      dsimp only
      rw [List.dropWhile_cons_of_pos (by simp)]
      have hdl : (List.dropWhile
          (fun j => decide ((getP st.processes j).arrival_time ≤
            (getP st.processes i).arrival_time)) rest).length ≤ rest.length :=
        (List.dropWhile_sublist _).length_le
      rw [hpend]
      simp only [List.length_cons]
      omega
  case isFalse hempty =>
    cases b with
    | false =>
      simp only [Bool.false_eq_true, if_false]
      rcases hq1 : st.ready_queue with _ | ⟨i, rest⟩
      · rw [hq1] at hempty
        simp at hempty
      · exact rr_dispatch_measure tq h hq1 hqd
    | true =>
      simp only [eq_self_iff_true, if_true]
      obtain ⟨hinv1, hct, hcm, hel, hpd, hql, hrs⟩ := rr_age_facts I S h
      rcases hq1 : (rr_age I S st).ready_queue with _ | ⟨i, rest⟩
      · exfalso
        rw [hq1] at hql
        simp only [List.length_nil] at hql
        have hqe : st.ready_queue = [] := List.length_eq_zero.mp hql.symm
        rw [hqe] at hempty
        simp at hempty
      · have hm := rr_dispatch_measure tq hinv1 hq1 hqd
        unfold rrMeasure at hm ⊢
        rw [← hrs, ← hpd]
        exact hm

theorem rrInit_inv {ps : List Process} (h : ValidInput ps) :
    RRInv (reset_processes ps) ((maxArrival ps : Int)) (rrInit ps) := by
  have hbase := initSt_PInv h
  have hinc : ∀ j, j < (reset_processes ps).length →
      (getP (reset_processes ps) j).is_completed = false ∧
      (getP (reset_processes ps) j).remaining_time
        = (getP (reset_processes ps) j).burst_time := by
    intro j hj
    obtain ⟨q, _, he⟩ := List.mem_map.mp (getP_mem hj)
    unfold reset_processes
    rw [← he]
    exact ⟨rfl, rfl⟩
  unfold rrInit
  dsimp only
  rw [rr_admit_eq]
  refine ⟨⟨hbase.len, hbase.bmap, hbase.pidmap, hbase.valid, hbase.rem0, hbase.comp,
    hbase.inc, hbase.fin, hbase.start, hbase.count, hbase.cons⟩, ?_, ?_, ?_, ?_⟩
  · show ((([] : List Nat) ++ _) ++ _).Nodup
    rw [rr_finalize_concat]
    simpa using sortedOrder_nodup (reset_processes ps)
  · intro j hj
    simp only [List.nil_append] at hj
    have hjs : j ∈ sortedOrder (reset_processes ps) :=
      (List.takeWhile_sublist _).subset hj
    have hjl := mem_sortedOrder_lt hjs
    have harr := List.mem_takeWhile_imp hj
    simp only [decide_eq_true_eq] at harr
    exact ⟨hjl, (hinc j hjl).1, harr⟩
  · intro j hj
    have hjs : j ∈ sortedOrder (reset_processes ps) :=
      (List.dropWhile_sublist _).subset hj
    have hjl := mem_sortedOrder_lt hjs
    exact ⟨hjl, (hinc j hjl).1, (hinc j hjl).2⟩
  · intro k hk _
    have hks : k ∈ sortedOrder (reset_processes ps) := by
      rw [(sortedOrder_perm_range (reset_processes ps)).mem_iff]
      exact List.mem_range.mpr hk
    rcases mem_take_or_drop
      (fun i => decide ((getP (reset_processes ps) i).arrival_time ≤ 0)) hks with hT | hD
    · left
      simpa using hT
    · right
      exact hD

theorem rr_loop_facts (tq : Int) (b : Bool) (I S : Int) (ps : List Process)
    (h : ValidInput ps) (hq : 1 ≤ tq) :
    RRInv (reset_processes ps) ((maxArrival ps : Int))
        (iterWhile (loopDone ps.length) (rr_step tq b I S) (rr_fuel ps) (rrInit ps)) ∧
    loopDone ps.length
        (iterWhile (loopDone ps.length) (rr_step tq b I S) (rr_fuel ps) (rrInit ps)) = true ∧
    ∀ g, rr_fuel ps ≤ g →
      iterWhile (loopDone ps.length) (rr_step tq b I S) g (rrInit ps)
        = iterWhile (loopDone ps.length) (rr_step tq b I S) (rr_fuel ps) (rrInit ps) := by
  have hlr := length_reset ps
  refine @run_loop_facts _ rrMeasure _ _ _ _ ?_ ?_ (rrInit_inv h) ?_
  · intro x _ hInv
    exact rr_step_inv tq b I S hInv hq
  · intro x hx hInv
    refine rr_step_dec tq b I S hInv hq ?_
    simp only [loopDone, decide_eq_false_iff_not, not_le] at hx
    omega
  · show rrMeasure (rrInit ps) ≤ _
    unfold rrMeasure rrInit initSt
    dsimp only
    rw [rr_admit_eq]
    dsimp only
    rw [remNatSum_reset]
    have hdl : (List.dropWhile
        (fun i => decide ((getP (reset_processes ps) i).arrival_time ≤ 0))
        (sortedOrder (reset_processes ps))).length
        ≤ (sortedOrder (reset_processes ps)).length :=
      (List.dropWhile_sublist _).length_le
    rw [length_sortedOrder, hlr] at hdl
    unfold rr_fuel
    omega

/-! ## Final-state consequences shared by the claims -/

theorem all_completed {st : SimSt} {n : Nat}
    (hlen : st.processes.length = n)
    (hcount : st.completed = st.processes.countP (fun p => p.is_completed))
    (hdone : loopDone n st = true) :
    ∀ p ∈ st.processes, p.is_completed = true := by
  have hle : n ≤ st.completed := by
    simpa [loopDone] using hdone
  have hcle : st.processes.countP (fun p => p.is_completed) ≤ st.processes.length :=
    List.countP_le_length _
  have heq : st.processes.countP (fun p => p.is_completed) = st.processes.length := by
    omega
  intro p hp
  exact List.countP_eq_length.mp heq p hp

theorem sum_if_completed {ps : List Process} (h : ∀ p ∈ ps, p.is_completed = true) :
    (ps.map (fun p => if p.is_completed then p.burst_time else 0)).sum = burstSum ps := by
  unfold burstSum
  have he : ps.map (fun p => if p.is_completed then p.burst_time else 0)
      = ps.map (fun p => p.burst_time) :=
    List.map_congr_left (fun p hp => by rw [h p hp]; simp)
  rw [he]

theorem remSum_eq_zero {ps : List Process} (h : ∀ p ∈ ps, p.remaining_time = 0) :
    remSum ps = 0 := by
  unfold remSum
  have he : ps.map (fun p => p.remaining_time) = ps.map (fun _ => (0 : Int)) :=
    List.map_congr_left (fun p hp => h p hp)
  rw [he]
  simp

theorem burstSum_congr {ps qs : List Process}
    (h : ps.map (fun p => p.burst_time) = qs.map (fun p => p.burst_time)) :
    burstSum ps = burstSum qs := by
  unfold burstSum
  rw [h]

theorem burstSum_reset (ps : List Process) :
    burstSum (reset_processes ps) = burstSum ps := burstSum_congr (bmap_reset ps)

/-! ## The claims -/

/-- C1: for every run of each of the six algorithms over a valid process set
(`burst_time ≥ 1`, `arrival_time ≥ 0`, parameters valid), the sum over all
execution-log slices of `end_tick - start_tick` equals the total
`burst_time`: no work is created or lost. -/
theorem C1_work_conservation (a : AlgCall) (ps : List Process)
    (hv : ValidInput ps) (ha : a.valid) :
    sliceSum (runAlg a ps).execution_log = burstSum ps := by
  have hbs := burstSum_reset ps
  cases a with
  | fcfs =>
    obtain ⟨hInv, hdone, _⟩ := fcfs_loop_facts ps hv
    have hall := all_completed (hInv.len.trans (length_reset ps)) hInv.count hdone
    show sliceSum (iterWhile (loopDone ps.length)
        (fcfs_step (sortedOrder (reset_processes ps))) ps.length (initSt ps)).execution_log
      = burstSum ps
    rw [hInv.cons, sum_if_completed hall, burstSum_congr hInv.bmap, hbs]
  | sjf b I S =>
    obtain ⟨hInv, hdone, _⟩ := sjf_loop_facts b I S ps hv
    have hall := all_completed (hInv.len.trans (length_reset ps)) hInv.count hdone
    show sliceSum (iterWhile (loopDone ps.length)
        (sjf_step b I S) (np_fuel ps) (initSt ps)).execution_log = burstSum ps
    rw [hInv.cons, sum_if_completed hall, burstSum_congr hInv.bmap, hbs]
  | srtf b I S =>
    obtain ⟨hInv, hdone, _⟩ := srtf_loop_facts b I S ps hv
    have hall := all_completed (hInv.len.trans (length_reset ps)) hInv.count hdone
    have hrs := remSum_eq_zero (fun p hp => hInv.comp p hp (hall p hp))
    have hcons := hInv.cons
    rw [hrs, burstSum_congr hInv.bmap, hbs] at hcons
    show sliceSum (iterWhile (loopDone ps.length)
        (srtf_step b I S) (tick_fuel ps) (initSt ps)).execution_log = burstSum ps
    omega
  | round_robin q b I S =>
    obtain ⟨hq, _, _⟩ := ha
    obtain ⟨hInv, hdone, _⟩ := rr_loop_facts q b I S ps hv hq
    have hall := all_completed (hInv.base.len.trans (length_reset ps)) hInv.base.count hdone
    have hrs := remSum_eq_zero (fun p hp => hInv.base.comp p hp (hall p hp))
    have hcons := hInv.base.cons
    rw [hrs, burstSum_congr hInv.base.bmap, hbs] at hcons
    show sliceSum (iterWhile (loopDone ps.length)
        (rr_step q b I S) (rr_fuel ps) (rrInit ps)).execution_log = burstSum ps
    omega
  | priority_preemptive =>
    obtain ⟨hInv, hdone, _⟩ := pp_loop_facts ps hv
    have hall := all_completed (hInv.len.trans (length_reset ps)) hInv.count hdone
    have hrs := remSum_eq_zero (fun p hp => hInv.comp p hp (hall p hp))
    have hcons := hInv.cons
    rw [hrs, burstSum_congr hInv.bmap, hbs] at hcons
    show sliceSum (iterWhile (loopDone ps.length)
        pp_step (tick_fuel ps) (initSt ps)).execution_log = burstSum ps
    omega
  | priority_non_preemptive b I S =>
    obtain ⟨hInv, hdone, _⟩ := pnp_loop_facts b I S ps hv
    have hall := all_completed (hInv.len.trans (length_reset ps)) hInv.count hdone
    show sliceSum (iterWhile (loopDone ps.length)
        (pnp_step b I S) (np_fuel ps) (initSt ps)).execution_log = burstSum ps
    rw [hInv.cons, sum_if_completed hall, burstSum_congr hInv.bmap, hbs]

theorem C1_witness :
    ValidInput [Process.make "A" "0" 2 0 1] ∧ AlgCall.valid .fcfs ∧
    sliceSum (runAlg .fcfs [Process.make "A" "0" 2 0 1]).execution_log
      = burstSum [Process.make "A" "0" 2 0 1] :=
  ⟨by decide, trivial, C1_work_conservation .fcfs [Process.make "A" "0" 2 0 1]
    (by decide) trivial⟩

/-- C2: every process finalized by any of the six algorithm runs satisfies
`waiting_time ≥ 0`, `turnaround_time = waiting_time + burst_time` and
`turnaround_time = completion_time - arrival_time`. -/
theorem C2_finalized_metrics (a : AlgCall) (ps : List Process)
    (hv : ValidInput ps) (ha : a.valid) :
    ∀ p ∈ (runAlg a ps).processes, p.is_completed = true →
      0 ≤ p.waiting_time ∧
      p.turnaround_time = p.waiting_time + p.burst_time ∧
      p.turnaround_time = p.completion_time - p.arrival_time := by
  cases a with
  | fcfs =>
    obtain ⟨hInv, _, _⟩ := fcfs_loop_facts ps hv
    intro p hp hc
    obtain ⟨h1, h2, h3⟩ := hInv.fin p hp hc
    exact ⟨h3, by omega, h1⟩
  | sjf b I S =>
    obtain ⟨hInv, _, _⟩ := sjf_loop_facts b I S ps hv
    intro p hp hc
    obtain ⟨h1, h2, h3⟩ := hInv.fin p hp hc
    exact ⟨h3, by omega, h1⟩
  | srtf b I S =>
    obtain ⟨hInv, _, _⟩ := srtf_loop_facts b I S ps hv
    intro p hp hc
    obtain ⟨h1, h2, h3⟩ := hInv.fin p hp hc
    exact ⟨h3, by omega, h1⟩
  | round_robin q b I S =>
    obtain ⟨hq, _, _⟩ := ha
    obtain ⟨hInv, _, _⟩ := rr_loop_facts q b I S ps hv hq
    intro p hp hc
    obtain ⟨h1, h2, h3⟩ := hInv.base.fin p hp hc
    exact ⟨h3, by omega, h1⟩
  | priority_preemptive =>
    obtain ⟨hInv, _, _⟩ := pp_loop_facts ps hv
    intro p hp hc
    obtain ⟨h1, h2, h3⟩ := hInv.fin p hp hc
    exact ⟨h3, by omega, h1⟩
  | priority_non_preemptive b I S =>
    obtain ⟨hInv, _, _⟩ := pnp_loop_facts b I S ps hv
    intro p hp hc
    obtain ⟨h1, h2, h3⟩ := hInv.fin p hp hc
    exact ⟨h3, by omega, h1⟩

theorem C2_witness :
    ValidInput [Process.make "A" "0" 2 0 1] ∧ AlgCall.valid (.srtf false 2 1) ∧
    (∀ p ∈ (runAlg (.srtf false 2 1) [Process.make "A" "0" 2 0 1]).processes,
      p.is_completed = true →
      0 ≤ p.waiting_time ∧
      p.turnaround_time = p.waiting_time + p.burst_time ∧
      p.turnaround_time = p.completion_time - p.arrival_time) :=
  ⟨by decide, ⟨by decide, by decide⟩,
    C2_finalized_metrics (.srtf false 2 1) [Process.make "A" "0" 2 0 1]
      (by decide) ⟨by decide, by decide⟩⟩

/-- C5: every entry point terminates on every valid input: each proved fuel
bound `algFuel` suffices, and any larger fuel returns the same scheduler, so
the `while completed < n` loops stabilize rather than running forever. -/
theorem C5_termination (a : AlgCall) (ps : List Process)
    (hv : ValidInput ps) (ha : a.valid) :
    ∀ g, algFuel a ps ≤ g → runAlgFuel a g ps = runAlg a ps := by
  cases a with
  | fcfs =>
    intro g hg
    obtain ⟨_, _, hirr⟩ := fcfs_loop_facts ps hv
    show (iterWhile (loopDone ps.length) (fcfs_step (sortedOrder (reset_processes ps)))
        g (initSt ps)).toScheduler = _
    rw [hirr g hg]
    rfl
  | sjf b I S =>
    intro g hg
    obtain ⟨_, _, hirr⟩ := sjf_loop_facts b I S ps hv
    show (iterWhile (loopDone ps.length) (sjf_step b I S) g (initSt ps)).toScheduler = _
    rw [hirr g hg]
    rfl
  | srtf b I S =>
    intro g hg
    obtain ⟨_, _, hirr⟩ := srtf_loop_facts b I S ps hv
    show (iterWhile (loopDone ps.length) (srtf_step b I S) g (initSt ps)).toScheduler = _
    rw [hirr g hg]
    rfl
  | round_robin q b I S =>
    intro g hg
    obtain ⟨hq, _, _⟩ := ha
    obtain ⟨_, _, hirr⟩ := rr_loop_facts q b I S ps hv hq
    show (iterWhile (loopDone ps.length) (rr_step q b I S) g (rrInit ps)).toScheduler = _
    rw [hirr g hg]
    rfl
  | priority_preemptive =>
    intro g hg
    obtain ⟨_, _, hirr⟩ := pp_loop_facts ps hv
    show (iterWhile (loopDone ps.length) pp_step g (initSt ps)).toScheduler = _
    rw [hirr g hg]
    rfl
  | priority_non_preemptive b I S =>
    intro g hg
    obtain ⟨_, _, hirr⟩ := pnp_loop_facts b I S ps hv
    show (iterWhile (loopDone ps.length) (pnp_step b I S) g (initSt ps)).toScheduler = _
    rw [hirr g hg]
    rfl

theorem C5_witness :
    ValidInput [Process.make "A" "0" 2 0 1] ∧ AlgCall.valid .fcfs ∧
    algFuel .fcfs [Process.make "A" "0" 2 0 1] ≤ 7 ∧
    runAlgFuel .fcfs 7 [Process.make "A" "0" 2 0 1]
      = runAlg .fcfs [Process.make "A" "0" 2 0 1] :=
  ⟨by decide, trivial, by decide,
    C5_termination .fcfs [Process.make "A" "0" 2 0 1] (by decide) trivial 7 (by decide)⟩

/-- C6 (corrected): `remaining_time` always stays in `[0, burst_time]` and
starts equal to `burst_time`; but only the preemptive algorithms (SRTF, Round
Robin, Priority preemptive) drive it to `0` on completion — FCFS, SJF and
Priority non-preemptive never decrement it, so their finalized processes keep
`remaining_time = burst_time`. -/
theorem C6_remaining_time (ps : List Process) (b : Bool) (I S q : Int)
    (hv : ValidInput ps) (hq : 1 ≤ q) :
    (∀ p ∈ reset_processes ps, p.remaining_time = p.burst_time) ∧
    (∀ p ∈ (run_fcfs ps).processes,
        0 ≤ p.remaining_time ∧ p.remaining_time ≤ p.burst_time ∧
        p.remaining_time = p.burst_time) ∧
    (∀ p ∈ (run_sjf b I S ps).processes,
        0 ≤ p.remaining_time ∧ p.remaining_time ≤ p.burst_time ∧
        p.remaining_time = p.burst_time) ∧
    (∀ p ∈ (run_priority_non_preemptive b I S ps).processes,
        0 ≤ p.remaining_time ∧ p.remaining_time ≤ p.burst_time ∧
        p.remaining_time = p.burst_time) ∧
    (∀ p ∈ (run_srtf b I S ps).processes,
        0 ≤ p.remaining_time ∧ p.remaining_time ≤ p.burst_time ∧
        (p.is_completed = true → p.remaining_time = 0)) ∧
    (∀ p ∈ (run_priority_preemptive ps).processes,
        0 ≤ p.remaining_time ∧ p.remaining_time ≤ p.burst_time ∧
        (p.is_completed = true → p.remaining_time = 0)) ∧
    (∀ p ∈ (run_round_robin q b I S ps).processes,
        0 ≤ p.remaining_time ∧ p.remaining_time ≤ p.burst_time ∧
        (p.is_completed = true → p.remaining_time = 0)) := by
  refine ⟨?_, ?_, ?_, ?_, ?_, ?_, ?_⟩
  · intro p hp
    obtain ⟨_, _, rfl⟩ := List.mem_map.mp hp
    rfl
  · obtain ⟨hInv, _, _⟩ := fcfs_loop_facts ps hv
    intro p hp
    have hr := hInv.rem p hp
    obtain ⟨hb, _⟩ := hInv.valid p hp
    exact ⟨by omega, by omega, hr⟩
  · obtain ⟨hInv, _, _⟩ := sjf_loop_facts b I S ps hv
    intro p hp
    have hr := hInv.rem p hp
    obtain ⟨hb, _⟩ := hInv.valid p hp
    exact ⟨by omega, by omega, hr⟩
  · obtain ⟨hInv, _, _⟩ := pnp_loop_facts b I S ps hv
    intro p hp
    have hr := hInv.rem p hp
    obtain ⟨hb, _⟩ := hInv.valid p hp
    exact ⟨by omega, by omega, hr⟩
  · obtain ⟨hInv, _, _⟩ := srtf_loop_facts b I S ps hv
    intro p hp
    obtain ⟨h0, h1⟩ := hInv.rem0 p hp
    exact ⟨h0, h1, hInv.comp p hp⟩
  · obtain ⟨hInv, _, _⟩ := pp_loop_facts ps hv
    intro p hp
    obtain ⟨h0, h1⟩ := hInv.rem0 p hp
    exact ⟨h0, h1, hInv.comp p hp⟩
  · obtain ⟨hInv, _, _⟩ := rr_loop_facts q b I S ps hv hq
    intro p hp
    obtain ⟨h0, h1⟩ := hInv.base.rem0 p hp
    exact ⟨h0, h1, hInv.base.comp p hp⟩

theorem C6_witness :
    ValidInput [Process.make "A" "0" 2 0 1] ∧ (1 : Int) ≤ 3 ∧
    (∀ p ∈ (run_fcfs [Process.make "A" "0" 2 0 1]).processes,
        0 ≤ p.remaining_time ∧ p.remaining_time ≤ p.burst_time ∧
        p.remaining_time = p.burst_time) :=
  ⟨by decide, by decide,
    (C6_remaining_time [Process.make "A" "0" 2 0 1] false 2 1 3
      (by decide) (by decide)).2.1⟩

theorem C6_counterexample :
    (getP (run_fcfs [Process.make "A" "0" 5 0 1]).processes 0).is_completed = true ∧
    (getP (run_fcfs [Process.make "A" "0" 5 0 1]).processes 0).remaining_time = 5 ∧
    ¬ (getP (run_fcfs [Process.make "A" "0" 5 0 1]).processes 0).remaining_time = 0 := by
  decide

/-! ### C10: starvation detection is pure -/

/-- C10: `detect_starvation` modifies nothing — the scheduler it returns is
the one it was given — so any sequence of calls with any thresholds leaves
the state unchanged and a repeated query returns the same records. -/
theorem C10_detect_starvation_pure (s : Scheduler) (T : Int) (l : List Int) :
    (detect_starvation s T).2 = s ∧
    (detect_starvation (l.foldl (fun s2 T2 => (detect_starvation s2 T2).2) s) T).1
      = (detect_starvation s T).1 := by
  have hfold : ∀ (l2 : List Int) (s2 : Scheduler),
      l2.foldl (fun s3 T3 => (detect_starvation s3 T3).2) s2 = s2 := by
    intro l2
    induction l2 with
    | nil => intro s2; rfl
    | cons x xs ih => intro s2; exact ih s2
  exact ⟨rfl, by rw [hfold]⟩

/-! ### C3: what starvation detection returns -/

theorem detect_starvation_foldl (s : Scheduler) (T : Int) :
    ∀ (l : List Process) (acc : List StarveRecord),
      l.foldl (fun acc p =>
        if T < p.waiting_time then
          acc ++ [starvation_record T
            ((s.processes.filter
              (fun x => decide (p.original_priority < x.original_priority))).length) p]
        else acc) acc
      = acc ++ (l.filter (fun p => decide (T < p.waiting_time))).map
          (fun p => starvation_record T
            ((s.processes.filter
              (fun x => decide (p.original_priority < x.original_priority))).length) p) := by
  intro l
  induction l with
  | nil =>
    intro acc
    simp
  | cons p rest ih =>
    intro acc
    simp only [List.foldl_cons, List.filter_cons]
    by_cases hp : T < p.waiting_time
    · rw [if_pos hp, ih]
      simp [hp]
    · rw [if_neg hp, ih]
      simp [hp]

theorem detect_starvation_records (s : Scheduler) (T : Int) :
    (detect_starvation s T).1
      = (s.processes.filter (fun p => decide (T < p.waiting_time))).map
          (fun p => starvation_record T
            ((s.processes.filter
              (fun x => decide (p.original_priority < x.original_priority))).length) p) := by
  unfold detect_starvation
  dsimp only
  rw [detect_starvation_foldl s T s.processes []]
  simp

/-- C3: `detect_starvation` with threshold `T` is empty when every process
waited at most `T`; it returns the record built for a process exactly when
its `waiting_time` strictly exceeds `T`; and every returned record carries
the process's pid and waiting time, the threshold, and as its blocked-by
count the number of processes in the whole set with strictly greater
`original_priority`. -/
theorem C3_detect_starvation (s : Scheduler) (T : Int) :
    ((∀ p ∈ s.processes, p.waiting_time ≤ T) → (detect_starvation s T).1 = []) ∧
    (∀ p ∈ s.processes, T < p.waiting_time →
        starvation_record T
          ((s.processes.filter
            (fun x => decide (p.original_priority < x.original_priority))).length) p
          ∈ (detect_starvation s T).1) ∧
    (∀ r ∈ (detect_starvation s T).1, ∃ p ∈ s.processes,
        T < p.waiting_time ∧ r.pid = p.pid ∧ r.waiting_time = p.waiting_time ∧
        r.threshold = T ∧
        r.blocked_by = (s.processes.filter
          (fun x => decide (p.original_priority < x.original_priority))).length) := by
  refine ⟨?_, ?_, ?_⟩
  · intro hall
    rw [detect_starvation_records]
    have hf : s.processes.filter (fun p => decide (T < p.waiting_time)) = [] := by
      rw [List.filter_eq_nil_iff]
      intro p hp
      simp only [decide_eq_true_eq]
      exact not_lt.mpr (hall p hp)
    rw [hf]
    rfl
  · intro p hp hw
    rw [detect_starvation_records]
    exact List.mem_map.mpr ⟨p, List.mem_filter.mpr ⟨hp, by simpa using hw⟩, rfl⟩
  · intro r hr
    rw [detect_starvation_records] at hr
    obtain ⟨p, hpf, rfl⟩ := List.mem_map.mp hr
    obtain ⟨hp, hw⟩ := List.mem_filter.mp hpf
    exact ⟨p, hp, by simpa using hw, rfl, rfl, rfl, rfl⟩

/-! ### C4: when the aging passes log an event -/

/-- C4 (corrected): in the SJF, Round Robin and Priority-non-preemptive aging
passes, one recomputation appends an event exactly when it changes the stored
`current_priority`, and the event records the old value, the new value and
the wait duration.  The SRTF pass deviates (the sentinel at line 151): its
emitted-event test compares the new value against `current_priority` only
when that already differs from `original_priority`, and against
`remaining_time` otherwise — so a recomputation that changes the stored value
of a not-yet-deviated process can append nothing. -/
theorem C4_aging_log_append (I S t : Int) (p : Process) :
    ((sjf_aging_update I S t p).2.isSome ↔
        (sjf_aging_update I S t p).1.current_priority ≠ p.current_priority) ∧
    (∀ e, (sjf_aging_update I S t p).2 = some e →
        e.time = t ∧ e.pid = p.pid ∧ e.old_priority = p.current_priority ∧
        e.new_priority = (sjf_aging_update I S t p).1.current_priority ∧
        e.waited = t - p.arrival_time) ∧
    ((rr_aging_update I S t p).2.isSome ↔
        (rr_aging_update I S t p).1.current_priority ≠ p.current_priority) ∧
    (∀ e, (rr_aging_update I S t p).2 = some e →
        e.time = t ∧ e.pid = p.pid ∧ e.old_priority = p.current_priority ∧
        e.new_priority = (rr_aging_update I S t p).1.current_priority ∧
        e.waited = (t - p.arrival_time) - (p.burst_time - p.remaining_time)) ∧
    ((pnp_aging_update I S t p).2.isSome ↔
        (pnp_aging_update I S t p).1.current_priority ≠ p.current_priority) ∧
    (∀ e, (pnp_aging_update I S t p).2 = some e →
        e.time = t ∧ e.pid = p.pid ∧ e.old_priority = p.current_priority ∧
        e.new_priority = (pnp_aging_update I S t p).1.current_priority ∧
        e.waited = t - p.arrival_time) ∧
    (p.current_priority ≠ p.original_priority →
        ((srtf_aging_update I S t p).2.isSome ↔
          (srtf_aging_update I S t p).1.current_priority ≠ p.current_priority)) ∧
    (p.current_priority = p.original_priority →
        ((srtf_aging_update I S t p).2.isSome ↔
          (srtf_aging_update I S t p).1.current_priority ≠ p.remaining_time)) := by
  refine ⟨?_, ?_, ?_, ?_, ?_, ?_, ?_, ?_⟩
  · unfold sjf_aging_update
    dsimp only
    by_cases hc : max 0 (p.burst_time - (Int.fdiv (t - p.arrival_time) I) * S)
        ≠ p.current_priority
    · rw [if_pos hc]
      simp [hc]
    · rw [if_neg hc]
      simp [hc]
  · unfold sjf_aging_update
    dsimp only
    intro e he
    by_cases hc : max 0 (p.burst_time - (Int.fdiv (t - p.arrival_time) I) * S)
        ≠ p.current_priority
    · rw [if_pos hc] at he
      cases he
      exact ⟨rfl, rfl, rfl, rfl, rfl⟩
    · rw [if_neg hc] at he
      cases he
  · unfold rr_aging_update
    dsimp only
    by_cases hc : p.original_priority +
        (Int.fdiv ((t - p.arrival_time) - (p.burst_time - p.remaining_time)) I) * S
        ≠ p.current_priority
    · rw [if_pos hc]
      simp [hc]
    · rw [if_neg hc]
      simp [hc]
  · unfold rr_aging_update
    dsimp only
    intro e he
    by_cases hc : p.original_priority +
        (Int.fdiv ((t - p.arrival_time) - (p.burst_time - p.remaining_time)) I) * S
        ≠ p.current_priority
    · rw [if_pos hc] at he
      cases he
      exact ⟨rfl, rfl, rfl, rfl, rfl⟩
    · rw [if_neg hc] at he
      cases he
  · unfold pnp_aging_update
    dsimp only
    by_cases hc : p.original_priority + (Int.fdiv (t - p.arrival_time) I) * S
        ≠ p.current_priority
    · rw [if_pos hc]
      simp [hc]
    · rw [if_neg hc]
      simp [hc]
  · unfold pnp_aging_update
    dsimp only
    intro e he
    by_cases hc : p.original_priority + (Int.fdiv (t - p.arrival_time) I) * S
        ≠ p.current_priority
    · rw [if_pos hc] at he
      cases he
      exact ⟨rfl, rfl, rfl, rfl, rfl⟩
    · rw [if_neg hc] at he
      cases he
  · intro hne
    unfold srtf_aging_update
    dsimp only
    rw [if_pos hne]
    by_cases hc : max 0 (p.remaining_time -
        (Int.fdiv ((t - p.arrival_time) - (p.burst_time - p.remaining_time)) I) * S)
        ≠ p.current_priority
    · rw [if_pos hc]
      simp [hc]
    · rw [if_neg hc]
      simp [hc]
  · intro heq
    unfold srtf_aging_update
    dsimp only
    rw [if_neg (not_ne_iff.mpr heq)]
    by_cases hc : max 0 (p.remaining_time -
        (Int.fdiv ((t - p.arrival_time) - (p.burst_time - p.remaining_time)) I) * S)
        ≠ p.remaining_time
    · rw [if_pos hc]
      simp [hc]
    · rw [if_neg hc]
      simp [hc]

theorem C4_counterexample :
    ((srtf_aging_update 2 1 0 (resetProcess (Process.make "P1" "0" 2 0 5))).1.current_priority
        ≠ (resetProcess (Process.make "P1" "0" 2 0 5)).current_priority) ∧
    (srtf_aging_update 2 1 0 (resetProcess (Process.make "P1" "0" 2 0 5))).2 = none := by
  decide

/-! ### C9: determinism over static inputs -/

theorem process_eq_of_fields {p q : Process}
    (h1 : p.pid = q.pid) (h2 : p.ppid = q.ppid) (h3 : p.burst_time = q.burst_time)
    (h4 : p.arrival_time = q.arrival_time) (h5 : p.original_priority = q.original_priority)
    (h6 : p.current_priority = q.current_priority) (h7 : p.remaining_time = q.remaining_time)
    (h8 : p.start_time = q.start_time) (h9 : p.completion_time = q.completion_time)
    (h10 : p.waiting_time = q.waiting_time) (h11 : p.turnaround_time = q.turnaround_time)
    (h12 : p.is_completed = q.is_completed) : p = q := by
  cases p
  cases q
  simp_all

theorem reset_static_eq {ps qs : List Process} (h : StaticEq ps qs) :
    reset_processes ps = reset_processes qs := by
  obtain ⟨hlen, hf⟩ := h
  apply List.ext_getElem
  · simp [reset_processes, hlen]
  · intro i h1 h2
    have h1p : i < ps.length := by simpa [reset_processes] using h1
    have h2q : i < qs.length := by simpa [reset_processes] using h2
    simp only [reset_processes, List.getElem_map]
    obtain ⟨f1, f2, f3, f4, f5⟩ := hf i h1p
    rw [getP_eq_getElem h1p, getP_eq_getElem h2q] at f1 f2 f3 f4 f5
    refine process_eq_of_fields ?_ ?_ ?_ ?_ ?_ ?_ ?_ ?_ ?_ ?_ ?_ ?_ <;>
      simp [resetProcess, f1, f2, f3, f4, f5]

theorem arrival_map_static_eq {ps qs : List Process} (h : StaticEq ps qs) :
    ps.map (fun p : Process => p.arrival_time) = qs.map (fun p : Process => p.arrival_time) := by
  obtain ⟨hlen, hf⟩ := h
  apply List.ext_getElem
  · simp [hlen]
  · intro i h1 h2
    have h1p : i < ps.length := by simpa using h1
    have h2q : i < qs.length := by simpa using h2
    simp only [List.getElem_map]
    have f4 := (hf i h1p).2.2.2.1
    rw [getP_eq_getElem h1p, getP_eq_getElem h2q] at f4
    exact f4

theorem burst_map_static_eq {ps qs : List Process} (h : StaticEq ps qs) :
    ps.map (fun p : Process => p.burst_time) = qs.map (fun p : Process => p.burst_time) := by
  obtain ⟨hlen, hf⟩ := h
  apply List.ext_getElem
  · simp [hlen]
  · intro i h1 h2
    have h1p : i < ps.length := by simpa using h1
    have h2q : i < qs.length := by simpa using h2
    simp only [List.getElem_map]
    have f3 := (hf i h1p).2.2.1
    rw [getP_eq_getElem h1p, getP_eq_getElem h2q] at f3
    exact f3

theorem maxArrival_static_eq {ps qs : List Process} (h : StaticEq ps qs) :
    maxArrival ps = maxArrival qs := by
  unfold maxArrival
  rw [arrival_map_static_eq h]

theorem burstSumNat_static_eq {ps qs : List Process} (h : StaticEq ps qs) :
    burstSumNat ps = burstSumNat qs := by
  unfold burstSumNat
  have hm := burst_map_static_eq h
  have : ps.map (fun p => p.burst_time.toNat) = qs.map (fun p => p.burst_time.toNat) := by
    have h1 : ps.map (fun p => p.burst_time.toNat)
        = (ps.map (fun p : Process => p.burst_time)).map Int.toNat := by
      rw [List.map_map]
      rfl
    have h2 : qs.map (fun p => p.burst_time.toNat)
        = (qs.map (fun p : Process => p.burst_time)).map Int.toNat := by
      rw [List.map_map]
      rfl
    rw [h1, h2, hm]
  rw [this]

/-- C9: the entry points are deterministic functions of the static inputs:
two process lists equal in pid, ppid, burst, arrival and original priority
(whatever their mutable run-state) produce identical schedulers — the same
processes, execution log and starvation log — under every algorithm and
parameter choice. -/
theorem C9_determinism (a : AlgCall) (ps qs : List Process) (h : StaticEq ps qs) :
    runAlg a ps = runAlg a qs := by
  have hreset := reset_static_eq h
  have hlen := h.1
  have hmax := maxArrival_static_eq h
  have hbsn := burstSumNat_static_eq h
  cases a with
  | fcfs =>
    show (iterWhile (loopDone ps.length) (fcfs_step (sortedOrder (reset_processes ps)))
        ps.length (initSt ps)).toScheduler
      = (iterWhile (loopDone qs.length) (fcfs_step (sortedOrder (reset_processes qs)))
        qs.length (initSt qs)).toScheduler
    unfold initSt
    rw [hreset, hlen]
  | sjf b I S =>
    show (iterWhile (loopDone ps.length) (sjf_step b I S)
        (np_fuel ps) (initSt ps)).toScheduler
      = (iterWhile (loopDone qs.length) (sjf_step b I S)
        (np_fuel qs) (initSt qs)).toScheduler
    unfold np_fuel initSt
    rw [hreset, hlen, hmax]
  | srtf b I S =>
    show (iterWhile (loopDone ps.length) (srtf_step b I S)
        (tick_fuel ps) (initSt ps)).toScheduler
      = (iterWhile (loopDone qs.length) (srtf_step b I S)
        (tick_fuel qs) (initSt qs)).toScheduler
    unfold tick_fuel initSt
    rw [hreset, hlen, hmax, hbsn]
  | round_robin q b I S =>
    show (iterWhile (loopDone ps.length) (rr_step q b I S)
        (rr_fuel ps) (rrInit ps)).toScheduler
      = (iterWhile (loopDone qs.length) (rr_step q b I S)
        (rr_fuel qs) (rrInit qs)).toScheduler
    unfold rr_fuel rrInit initSt
    rw [hreset, hlen, hbsn]
  | priority_preemptive =>
    show (iterWhile (loopDone ps.length) pp_step
        (tick_fuel ps) (initSt ps)).toScheduler
      = (iterWhile (loopDone qs.length) pp_step
        (tick_fuel qs) (initSt qs)).toScheduler
    unfold tick_fuel initSt
    rw [hreset, hlen, hmax, hbsn]
  | priority_non_preemptive b I S =>
    show (iterWhile (loopDone ps.length) (pnp_step b I S)
        (np_fuel ps) (initSt ps)).toScheduler
      = (iterWhile (loopDone qs.length) (pnp_step b I S)
        (np_fuel qs) (initSt qs)).toScheduler
    unfold np_fuel initSt
    rw [hreset, hlen, hmax]

theorem C9_witness :
    StaticEq [Process.make "A" "0" 2 0 1]
      [{ Process.make "A" "0" 2 0 1 with
          current_priority := 9, remaining_time := 0, start_time := 4,
          completion_time := 6, waiting_time := 4, turnaround_time := 6,
          is_completed := true }] ∧
    runAlg .fcfs [Process.make "A" "0" 2 0 1]
      = runAlg .fcfs [{ Process.make "A" "0" 2 0 1 with
          current_priority := 9, remaining_time := 0, start_time := 4,
          completion_time := 6, waiting_time := 4, turnaround_time := 6,
          is_completed := true }] :=
  ⟨by decide, C9_determinism .fcfs _ _ (by decide)⟩

/-! ### C7: start times against the execution log -/

theorem firstSlice_append_of_some {l1 : List Slice} {pid : String} {s : Slice}
    (h : firstSlice l1 pid = some s) (l2 : List Slice) :
    firstSlice (l1 ++ l2) pid = some s := by
  unfold firstSlice at h ⊢
  rw [List.find?_append, h]
  rfl

theorem firstSlice_append_of_none {l1 : List Slice} {pid : String}
    (h : firstSlice l1 pid = none) (l2 : List Slice) :
    firstSlice (l1 ++ l2) pid = firstSlice l2 pid := by
  unfold firstSlice at h ⊢
  rw [List.find?_append, h]
  rfl

theorem firstSlice_singleton_self (a : String) (x y : Int) :
    firstSlice [(a, x, y)] a = some (a, x, y) := by
  unfold firstSlice
  rw [List.find?_cons_of_pos _ (by simp)]

theorem firstSlice_singleton_ne {a pid : String} (h : a ≠ pid) (x y : Int) :
    firstSlice [(a, x, y)] pid = none := by
  unfold firstSlice
  rw [List.find?_cons_of_neg _ (by simp [h])]
  rfl

theorem getP_field_eq {β : Type} (f : Process → β) {ps qs : List Process}
    (h : ps.map f = qs.map f) {j : Nat} (hj : j < ps.length) :
    f (getP ps j) = f (getP qs j) := by
  have hlen : ps.length = qs.length := by
    have hc := congrArg List.length h
    simpa using hc
  have hj2 : j < qs.length := by omega
  have hjm : j < (ps.map f).length := by simpa using hj
  have hjm2 : j < (qs.map f).length := by simpa using hj2
  have h1 : (ps.map f)[j] = (qs.map f)[j] := by
    simp only [h]
  simp only [List.getElem_map] at h1
  rw [getP_eq_getElem hj, getP_eq_getElem hj2]
  exact h1

theorem pid_ne_of_nodup {ps : List Process} (hnd : (ps.map (fun p => p.pid)).Nodup)
    {i j : Nat} (hi : i < ps.length) (hj : j < ps.length) (hne : i ≠ j) :
    (getP ps i).pid ≠ (getP ps j).pid := by
  intro he
  have him : i < (ps.map (fun p => p.pid)).length := by simpa using hi
  have hjm : j < (ps.map (fun p => p.pid)).length := by simpa using hj
  have hee : (ps.map (fun p => p.pid))[i] = (ps.map (fun p => p.pid))[j] := by
    simp only [List.getElem_map]
    rw [← getP_eq_getElem hi, ← getP_eq_getElem hj]
    exact he
  exact hne ((List.Nodup.getElem_inj_iff hnd).mp hee)

theorem StartInv_of_agree {st st2 : SimSt}
    (hlen : st2.processes.length = st.processes.length)
    (hag : ∀ k, agreeButPrio (getP st.processes k) (getP st2.processes k))
    (hel : st2.execution_log = st.execution_log)
    (h : StartInv st) : StartInv st2 := by
  obtain ⟨hnd, hinc, hcomp⟩ := h
  refine ⟨?_, ?_, ?_⟩
  · rw [map_eq_of_pointwise (fun p => p.pid) st.processes st2.processes hlen
      (fun k _ => agree_pid (hag k))]
    exact hnd
  · intro j hj hjc
    rw [hlen] at hj
    have ha := hag j
    rw [agree_completed ha] at hjc
    obtain ⟨h1, h2⟩ := hinc j hj hjc
    rw [agree_start ha, hel, agree_pid ha]
    exact ⟨h1, h2⟩
  · intro j hj hjc
    rw [hlen] at hj
    have ha := hag j
    rw [agree_completed ha] at hjc
    have hc := hcomp j hj hjc
    rw [hel, agree_pid ha, agree_start ha, agree_burst ha]
    exact hc

theorem sjf_admit_agree (b : Bool) (st : SimSt) :
    ( sjf_admit b st).execution_log = st.execution_log ∧
    ( sjf_admit b st).processes.length = st.processes.length ∧
    (∀ k, agreeButPrio (getP st.processes k) (getP ( sjf_admit b st).processes k)) := by
  unfold sjf_admit
  refine @foldl_preserve SimSt Nat
    (fun s => s.execution_log = st.execution_log ∧
      s.processes.length = st.processes.length ∧
      ∀ k, agreeButPrio (getP st.processes k) (getP s.processes k))
    _ _ ?_ st ?_
  · intro s i _ hs
    obtain ⟨h1, h2, h3⟩ := hs
    dsimp only
    split
    case isTrue hcond =>
      refine ⟨h1, ?_, ?_⟩
      · cases b with
        | false =>
          rw [ite_false_bool]
          exact h2
        | true =>
          rw [ite_true_bool]
          rw [length_setP]
          exact h2
      · intro k
        cases b with
        | false =>
          rw [ite_false_bool]
          exact h3 k
        | true =>
          rw [ite_true_bool]
          by_cases hki : k = i
          · subst hki
            by_cases hk : k < s.processes.length
            · rw [getP_setP_self _ hk]
              exact agreeButPrio_trans (h3 k) ⟨rfl, rfl, rfl, rfl, rfl, rfl, rfl, rfl,
                rfl, rfl, rfl⟩
            · rw [setP_oob _ (by omega)]
              exact h3 k
          · rw [getP_setP_ne _ (fun he => hki he.symm)]
            exact h3 k
    case isFalse => exact ⟨h1, h2, h3⟩
  · exact ⟨rfl, rfl, fun k => agreeButPrio_refl _⟩

theorem sjf_select_agree (b : Bool) (I S : Int) (st : SimSt) :
    (sjf_select b I S st).execution_log = st.execution_log ∧
    (sjf_select b I S st).processes.length = st.processes.length ∧
    (∀ k, agreeButPrio (getP st.processes k) (getP (sjf_select b I S st).processes k)) := by
  unfold sjf_select
  cases b with
  | false =>
    rw [ite_false_bool]
    exact ⟨rfl, rfl, fun k => agreeButPrio_refl _⟩
  | true =>
    rw [ite_true_bool]
    dsimp only
    obtain ⟨_, _, h3, _, _, h6, h7⟩ :=
      aging_pass_spec _ (sjf_aging_update_agree I S) st.ready_queue st
    unfold sjf_age
    exact ⟨h3, h6, h7⟩

theorem pnp_select_agree (b : Bool) (I S : Int) (st : SimSt) :
    (pnp_select b I S st).execution_log = st.execution_log ∧
    (pnp_select b I S st).processes.length = st.processes.length ∧
    (∀ k, agreeButPrio (getP st.processes k) (getP (pnp_select b I S st).processes k)) := by
  unfold pnp_select
  cases b with
  | false =>
    rw [ite_false_bool]
    exact ⟨rfl, rfl, fun k => agreeButPrio_refl _⟩
  | true =>
    rw [ite_true_bool]
    dsimp only
    obtain ⟨_, _, h3, _, _, h6, h7⟩ :=
      aging_pass_spec _ (pnp_aging_update_agree I S) st.ready_queue st
    unfold pnp_age
    exact ⟨h3, h6, h7⟩

theorem StartInv_np_dispatch {ps0 : List Process} {A : Int} {st : SimSt}
    (hinv : NPInv ps0 A st) (h : StartInv st) : StartInv (np_dispatch st) := by
  obtain ⟨hnd, hinc, hcomp⟩ := h
  unfold np_dispatch
  rcases hq : st.ready_queue with _ | ⟨i, rest⟩
  · exact ⟨hnd, hinc, hcomp⟩
  · obtain ⟨hilen, hicomp, _⟩ := hinv.qok i (by rw [hq]; exact List.mem_cons_self _ _)
    obtain ⟨hstart_i, hslice_i⟩ := hinc i hilen hicomp
    dsimp only
    refine ⟨?_, ?_, ?_⟩
    · dsimp only
      rw [map_setP_same (fun p => p.pid) (by rfl)]
      exact hnd
    · intro j hj hjc
      dsimp only at hj hjc ⊢
      rw [length_setP] at hj
      by_cases hji : j = i
      · subst hji
        rw [getP_setP_self _ hilen] at hjc
        cases hjc
      · rw [getP_setP_ne _ (fun he => hji he.symm)] at hjc ⊢
        obtain ⟨h1, h2⟩ := hinc j hj hjc
        refine ⟨h1, ?_⟩
        rw [firstSlice_append_of_none h2]
        exact firstSlice_singleton_ne
          (pid_ne_of_nodup hnd hilen hj (fun he => hji he.symm)) _ _
    · intro j hj hjc
      dsimp only at hj hjc ⊢
      rw [length_setP] at hj
      by_cases hji : j = i
      · subst hji
        rw [getP_setP_self _ hilen] at hjc ⊢
        rw [firstSlice_append_of_none hslice_i]
        exact firstSlice_singleton_self _ _ _
      · rw [getP_setP_ne _ (fun he => hji he.symm)] at hjc ⊢
        have hc := hcomp j hj hjc
        exact firstSlice_append_of_some hc _

theorem StartInv_sjf_step {ps0 : List Process} {A : Int} (b : Bool) (I S : Int) {st : SimSt}
    (hinv : NPInv ps0 A st) (h : StartInv st) : StartInv (sjf_step b I S st) := by
  unfold sjf_step
  obtain ⟨he1, he2, he3⟩ := sjf_admit_agree b st
  obtain ⟨hinv1, _, _, _⟩ := sjf_admit_inv b hinv
  have h1 : StartInv ( sjf_admit b st) := StartInv_of_agree he2 he3 he1 h
  dsimp only
  split
  case isTrue => exact h1
  case isFalse =>
    obtain ⟨hs1, hs2, hs3⟩ := sjf_select_agree b I S ( sjf_admit b st)
    have h2 : StartInv (sjf_select b I S ( sjf_admit b st)) :=
      StartInv_of_agree hs2 hs3 hs1 h1
    exact StartInv_np_dispatch (sjf_select_inv b I S hinv1) h2

theorem StartInv_pnp_step {ps0 : List Process} {A : Int} (b : Bool) (I S : Int) {st : SimSt}
    (hinv : NPInv ps0 A st) (h : StartInv st) : StartInv (pnp_step b I S st) := by
  unfold pnp_step
  rw [pnp_admit_eq]
  obtain ⟨he1, he2, he3⟩ := sjf_admit_agree false st
  obtain ⟨hinv1, _, _, _⟩ := sjf_admit_inv false hinv
  have h1 : StartInv ( sjf_admit false st) := StartInv_of_agree he2 he3 he1 h
  dsimp only
  split
  case isTrue => exact h1
  case isFalse =>
    obtain ⟨hs1, hs2, hs3⟩ := pnp_select_agree b I S ( sjf_admit false st)
    have h2 : StartInv (pnp_select b I S ( sjf_admit false st)) :=
      StartInv_of_agree hs2 hs3 hs1 h1
    exact StartInv_np_dispatch (pnp_select_inv b I S hinv1) h2

theorem StartInv_initSt {ps : List Process}
    (hpid : (ps.map (fun p => p.pid)).Nodup) : StartInv (initSt ps) := by
  refine ⟨?_, ?_, ?_⟩
  · show ((reset_processes ps).map (fun p => p.pid)).Nodup
    rw [pidmap_reset]
    exact hpid
  · intro j hj _
    have hm : getP (reset_processes ps) j ∈ reset_processes ps := getP_mem hj
    obtain ⟨w, _, he⟩ := List.mem_map.mp hm
    refine ⟨?_, rfl⟩
    show (getP (reset_processes ps) j).start_time = -1
    rw [← he]
    exact rfl
  · intro j hj hjc
    exfalso
    have hm : getP (reset_processes ps) j ∈ reset_processes ps := getP_mem hj
    obtain ⟨w, _, he⟩ := List.mem_map.mp hm
    have hjc2 : (getP (reset_processes ps) j).is_completed = true := hjc
    rw [← he] at hjc2
    cases hjc2

theorem StartInv_fcfs_step {ps0 : List Process} {A : Int} {order : List Nat} {st : SimSt}
    (horder : order.Perm (List.range ps0.length))
    (hinv : FcfsInv ps0 A order st) (hguard : st.completed < ps0.length)
    (h : StartInv st) : StartInv (fcfs_step order st) := by
  obtain ⟨hnd, hinc, hcomp⟩ := h
  have hordlen : order.length = ps0.length := by simpa using horder.length_eq
  have hk : st.completed < order.length := by omega
  have himem : order.getD st.completed 0 ∈ order := natGetD_mem hk
  have hilen : (order.getD st.completed 0) < st.processes.length := by
    rw [hinv.len]
    simpa using horder.mem_iff.mp himem
  have hicomp : (getP st.processes (order.getD st.completed 0)).is_completed = false := by
    cases hcc : (getP st.processes (order.getD st.completed 0)).is_completed
    · rfl
    · exact absurd ((hinv.ord st.completed hk).mp hcc) (Nat.lt_irrefl _)
  obtain ⟨hstart_i, hslice_i⟩ := hinc _ hilen hicomp
  unfold fcfs_step
  dsimp only
  refine ⟨?_, ?_, ?_⟩
  · dsimp only
    rw [map_setP_same (fun p => p.pid) (by rfl)]
    exact hnd
  · intro j hj hjc
    dsimp only at hj hjc ⊢
    rw [length_setP] at hj
    by_cases hji : j = order.getD st.completed 0
    · subst hji
      rw [getP_setP_self _ hilen] at hjc
      cases hjc
    · rw [getP_setP_ne _ (fun he => hji he.symm)] at hjc ⊢
      obtain ⟨h1, h2⟩ := hinc j hj hjc
      refine ⟨h1, ?_⟩
      rw [firstSlice_append_of_none h2]
      exact firstSlice_singleton_ne
        (pid_ne_of_nodup hnd hilen hj (fun he => hji he.symm)) _ _
  · intro j hj hjc
    dsimp only at hj hjc ⊢
    rw [length_setP] at hj
    by_cases hji : j = order.getD st.completed 0
    · subst hji
      rw [getP_setP_self _ hilen] at hjc ⊢
      rw [firstSlice_append_of_none hslice_i]
      exact firstSlice_singleton_self _ _ _
    · rw [getP_setP_ne _ (fun he => hji he.symm)] at hjc ⊢
      have hc := hcomp j hj hjc
      exact firstSlice_append_of_some hc _

theorem fcfs_start_inv (ps : List Process) (hv : ValidInput ps)
    (hpid : (ps.map (fun p => p.pid)).Nodup) :
    StartInv (iterWhile (loopDone ps.length)
      (fcfs_step (sortedOrder (reset_processes ps))) ps.length (initSt ps)) := by
  have hlr := length_reset ps
  have hperm : (sortedOrder (reset_processes ps)).Perm
      (List.range (reset_processes ps).length) := sortedOrder_perm_range _
  refine (@iterWhile_inv SimSt (loopDone ps.length)
    (fcfs_step (sortedOrder (reset_processes ps)))
    (fun x => FcfsInv (reset_processes ps) ((maxArrival ps : Int))
        (sortedOrder (reset_processes ps)) x ∧ StartInv x)
    ?_ ps.length (initSt ps) ⟨initSt_FcfsInv hv, StartInv_initSt hpid⟩).2
  intro x hx hInv
  have hguard : x.completed < (reset_processes ps).length := by
    simp only [loopDone, decide_eq_false_iff_not, not_le] at hx
    omega
  exact ⟨fcfs_step_inv hperm hInv.1 hguard, StartInv_fcfs_step hperm hInv.1 hguard hInv.2⟩

theorem sjf_start_inv (b : Bool) (I S : Int) (ps : List Process) (hv : ValidInput ps)
    (hpid : (ps.map (fun p => p.pid)).Nodup) :
    StartInv (iterWhile (loopDone ps.length)
      (sjf_step b I S) (np_fuel ps) (initSt ps)) := by
  refine (@iterWhile_inv SimSt (loopDone ps.length) (sjf_step b I S)
    (fun x => NPInv (reset_processes ps) ((maxArrival ps : Int)) x ∧ StartInv x)
    ?_ (np_fuel ps) (initSt ps) ⟨initSt_NPInv hv, StartInv_initSt hpid⟩).2
  intro x _ hInv
  exact ⟨sjf_step_inv b I S hInv.1, StartInv_sjf_step b I S hInv.1 hInv.2⟩

theorem pnp_start_inv (b : Bool) (I S : Int) (ps : List Process) (hv : ValidInput ps)
    (hpid : (ps.map (fun p => p.pid)).Nodup) :
    StartInv (iterWhile (loopDone ps.length)
      (pnp_step b I S) (np_fuel ps) (initSt ps)) := by
  refine (@iterWhile_inv SimSt (loopDone ps.length) (pnp_step b I S)
    (fun x => NPInv (reset_processes ps) ((maxArrival ps : Int)) x ∧ StartInv x)
    ?_ (np_fuel ps) (initSt ps) ⟨initSt_NPInv hv, StartInv_initSt hpid⟩).2
  intro x _ hInv
  exact ⟨pnp_step_inv b I S hInv.1, StartInv_pnp_step b I S hInv.1 hInv.2⟩

/-- C7 (corrected): every process starts with `start_time = -1`.  In FCFS,
SJF and Priority non-preemptive (under distinct pids), a finalized process's
`start_time` is the start tick of its first (only) execution-log slice.  But
SRTF, Round Robin and Priority preemptive never write `start_time`: it stays
`-1` forever, even for dispatched and completed processes. -/
theorem C7_start_time (ps : List Process) (b : Bool) (I S q : Int)
    (hv : ValidInput ps) (hq : 1 ≤ q)
    (hpid : (ps.map (fun p => p.pid)).Nodup) :
    (∀ p ∈ reset_processes ps, p.start_time = -1) ∧
    (∀ p ∈ (run_fcfs ps).processes, p.is_completed = true →
        firstSlice (run_fcfs ps).execution_log p.pid
          = some (p.pid, p.start_time, p.start_time + p.burst_time)) ∧
    (∀ p ∈ (run_sjf b I S ps).processes, p.is_completed = true →
        firstSlice (run_sjf b I S ps).execution_log p.pid
          = some (p.pid, p.start_time, p.start_time + p.burst_time)) ∧
    (∀ p ∈ (run_priority_non_preemptive b I S ps).processes, p.is_completed = true →
        firstSlice (run_priority_non_preemptive b I S ps).execution_log p.pid
          = some (p.pid, p.start_time, p.start_time + p.burst_time)) ∧
    (∀ p ∈ (run_srtf b I S ps).processes, p.start_time = -1) ∧
    (∀ p ∈ (run_priority_preemptive ps).processes, p.start_time = -1) ∧
    (∀ p ∈ (run_round_robin q b I S ps).processes, p.start_time = -1) := by
  refine ⟨?_, ?_, ?_, ?_, ?_, ?_, ?_⟩
  · intro p hp
    obtain ⟨w, _, rfl⟩ := List.mem_map.mp hp
    rfl
  · have hcl : ∀ j, j < (run_fcfs ps).processes.length →
        (getP (run_fcfs ps).processes j).is_completed = true →
        firstSlice (run_fcfs ps).execution_log (getP (run_fcfs ps).processes j).pid
          = some ((getP (run_fcfs ps).processes j).pid,
                  (getP (run_fcfs ps).processes j).start_time,
                  (getP (run_fcfs ps).processes j).start_time
                    + (getP (run_fcfs ps).processes j).burst_time) :=
      (fcfs_start_inv ps hv hpid).2.2
    intro p hp hc
    obtain ⟨j, hj, hjp⟩ := exists_getP_of_mem hp
    have hres := hcl j hj (by rw [hjp]; exact hc)
    rw [hjp] at hres
    exact hres
  · have hcl : ∀ j, j < (run_sjf b I S ps).processes.length →
        (getP (run_sjf b I S ps).processes j).is_completed = true →
        firstSlice (run_sjf b I S ps).execution_log
            (getP (run_sjf b I S ps).processes j).pid
          = some ((getP (run_sjf b I S ps).processes j).pid,
                  (getP (run_sjf b I S ps).processes j).start_time,
                  (getP (run_sjf b I S ps).processes j).start_time
                    + (getP (run_sjf b I S ps).processes j).burst_time) :=
      (sjf_start_inv b I S ps hv hpid).2.2
    intro p hp hc
    obtain ⟨j, hj, hjp⟩ := exists_getP_of_mem hp
    have hres := hcl j hj (by rw [hjp]; exact hc)
    rw [hjp] at hres
    exact hres
  · have hcl : ∀ j, j < (run_priority_non_preemptive b I S ps).processes.length →
        (getP (run_priority_non_preemptive b I S ps).processes j).is_completed = true →
        firstSlice (run_priority_non_preemptive b I S ps).execution_log
            (getP (run_priority_non_preemptive b I S ps).processes j).pid
          = some ((getP (run_priority_non_preemptive b I S ps).processes j).pid,
                  (getP (run_priority_non_preemptive b I S ps).processes j).start_time,
                  (getP (run_priority_non_preemptive b I S ps).processes j).start_time
                    + (getP (run_priority_non_preemptive b I S ps).processes j).burst_time) :=
      (pnp_start_inv b I S ps hv hpid).2.2
    intro p hp hc
    obtain ⟨j, hj, hjp⟩ := exists_getP_of_mem hp
    have hres := hcl j hj (by rw [hjp]; exact hc)
    rw [hjp] at hres
    exact hres
  · obtain ⟨hInv, _, _⟩ := srtf_loop_facts b I S ps hv
    intro p hp
    exact hInv.start p hp
  · obtain ⟨hInv, _, _⟩ := pp_loop_facts ps hv
    intro p hp
    exact hInv.start p hp
  · obtain ⟨hInv, _, _⟩ := rr_loop_facts q b I S ps hv hq
    intro p hp
    exact hInv.base.start p hp

theorem C7_witness :
    ValidInput [Process.make "A" "0" 2 0 1] ∧ (1 : Int) ≤ 3 ∧
    ([Process.make "A" "0" 2 0 1].map (fun p => p.pid)).Nodup ∧
    (∀ p ∈ (run_fcfs [Process.make "A" "0" 2 0 1]).processes, p.is_completed = true →
        firstSlice (run_fcfs [Process.make "A" "0" 2 0 1]).execution_log p.pid
          = some (p.pid, p.start_time, p.start_time + p.burst_time)) :=
  ⟨by decide, by decide, by decide,
    (C7_start_time [Process.make "A" "0" 2 0 1] false 2 1 3
      (by decide) (by decide) (by decide)).2.1⟩

theorem C7_counterexample :
    (getP (run_srtf false 2 1 [Process.make "A" "0" 2 0 1]).processes 0).is_completed
      = true ∧
    (getP (run_srtf false 2 1 [Process.make "A" "0" 2 0 1]).processes 0).start_time
      = -1 ∧
    firstSlice (run_srtf false 2 1 [Process.make "A" "0" 2 0 1]).execution_log "A"
      = some ("A", 0, 1) := by
  decide

/-! ### C8: Round Robin with a large quantum degenerates to FCFS order -/

theorem FcfsLog_fcfs_step {ps0 : List Process} {A : Int} {order : List Nat} {st : SimSt}
    (horder : order.Perm (List.range ps0.length))
    (hinv : FcfsInv ps0 A order st) (hguard : st.completed < ps0.length)
    (h : FcfsLog ps0 order st) : FcfsLog ps0 order (fcfs_step order st) := by
  have hordlen : order.length = ps0.length := by simpa using horder.length_eq
  have hk : st.completed < order.length := by omega
  have himem : order.getD st.completed 0 ∈ order := natGetD_mem hk
  have hilen : order.getD st.completed 0 < st.processes.length := by
    rw [hinv.len]
    simpa using horder.mem_iff.mp himem
  have hgd : order.getD st.completed 0 = order[st.completed] := by
    simp [List.getD_eq_getElem?_getD, List.getElem?_eq_getElem hk]
  have hpeq : (getP st.processes (order.getD st.completed 0)).pid
      = (getP ps0 (order.getD st.completed 0)).pid :=
    getP_field_eq (fun p => p.pid) hinv.pidmap hilen
  unfold FcfsLog at h ⊢
  unfold fcfs_step
  dsimp only
  rw [List.map_append, h, List.take_succ, List.getElem?_eq_getElem hk, List.map_append]
  simp only [List.map_cons, List.map_nil, Option.toList_some]
  rw [← hgd, hpeq]

theorem fcfs_log_final (ps : List Process) (hv : ValidInput ps) :
    (run_fcfs ps).execution_log.map (fun sl => sl.1)
      = (sortedOrder (reset_processes ps)).map
          (fun j => (getP (reset_processes ps) j).pid) := by
  have hlr := length_reset ps
  have hperm : (sortedOrder (reset_processes ps)).Perm
      (List.range (reset_processes ps).length) := sortedOrder_perm_range _
  have hcomb := @iterWhile_inv SimSt (loopDone ps.length)
    (fcfs_step (sortedOrder (reset_processes ps)))
    (fun x => FcfsInv (reset_processes ps) ((maxArrival ps : Int))
        (sortedOrder (reset_processes ps)) x ∧
      FcfsLog (reset_processes ps) (sortedOrder (reset_processes ps)) x)
    ?_ ps.length (initSt ps) ⟨initSt_FcfsInv hv, rfl⟩
  case refine_1 =>
    intro x hx hInv
    have hguard : x.completed < (reset_processes ps).length := by
      simp only [loopDone, decide_eq_false_iff_not, not_le] at hx
      omega
    exact ⟨fcfs_step_inv hperm hInv.1 hguard, FcfsLog_fcfs_step hperm hInv.1 hguard hInv.2⟩
  obtain ⟨hInv, hdone, _⟩ := fcfs_loop_facts ps hv
  have hcount := hInv.count
  have hlen2 := hInv.len
  have hle : ps.length ≤ (iterWhile (loopDone ps.length)
      (fcfs_step (sortedOrder (reset_processes ps))) ps.length (initSt ps)).completed := by
    simpa [loopDone] using hdone
  have hcpl : (iterWhile (loopDone ps.length)
      (fcfs_step (sortedOrder (reset_processes ps))) ps.length (initSt ps)).completed
      = ps.length := by
    have hcl : (iterWhile (loopDone ps.length)
        (fcfs_step (sortedOrder (reset_processes ps))) ps.length
        (initSt ps)).processes.countP (fun p => p.is_completed)
        ≤ (iterWhile (loopDone ps.length)
        (fcfs_step (sortedOrder (reset_processes ps))) ps.length
        (initSt ps)).processes.length := List.countP_le_length _
    omega
  have hlog := hcomb.2
  unfold FcfsLog at hlog
  show (iterWhile (loopDone ps.length) (fcfs_step (sortedOrder (reset_processes ps)))
      ps.length (initSt ps)).execution_log.map (fun sl => sl.1) = _
  rw [hlog, hcpl]
  rw [List.take_of_length_le (le_of_eq (by rw [length_sortedOrder, hlr]))]

theorem RRFcfs_rr_step {ps0 : List Process} {A : Int} (q I S : Int) {order : List Nat}
    {st : SimSt}
    (h : RRInv ps0 A st) (hf : RRFcfs ps0 order st)
    (hball : ∀ p ∈ ps0, p.burst_time ≤ q) :
    RRFcfs ps0 order (rr_step q false I S st) := by
  obtain ⟨hlog, hdrop, hcle, hrem⟩ := hf
  unfold rr_step
  split
  case isTrue hempty =>
    rcases hpend : st.pending with _ | ⟨i, rest⟩
    · exact ⟨hlog, hdrop, hcle, hrem⟩
    · dsimp only
      rw [rr_admit_eq]
      dsimp only
      refine ⟨hlog, ?_, hcle, hrem⟩
      dsimp only
      rw [rr_finalize_concat]
      rw [hpend] at hdrop
      exact hdrop
  case isFalse hempty =>
    simp only [Bool.false_eq_true, if_false]
    rcases hq1 : st.ready_queue with _ | ⟨i, rest⟩
    · exact ⟨hlog, hdrop, hcle, hrem⟩
    · obtain ⟨hilen, hicomp, hiarr⟩ := h.qok i (by rw [hq1]; exact List.mem_cons_self _ _)
      have hremi := hrem i hilen hicomp
      have hple : (getP st.processes i).burst_time ≤ q := by
        have hpeq : (getP st.processes i).burst_time = (getP ps0 i).burst_time :=
          getP_field_eq (fun p => p.burst_time) h.base.bmap hilen
        rw [hpeq]
        refine hball _ (getP_mem ?_)
        rw [← h.base.len]
        exact hilen
      have hdrop2 : order.drop st.completed = i :: (rest ++ st.pending) := by
        rw [hdrop, hq1]
        rfl
      have hlt : st.completed < order.length := by
        rcases Nat.lt_or_ge st.completed order.length with hlt | hge
        · exact hlt
        · rw [List.drop_eq_nil_of_le hge] at hdrop2
          cases hdrop2
      obtain ⟨hhead, htail⟩ :=
        List.cons_eq_cons.mp (hdrop2.symm.trans (List.drop_eq_getElem_cons hlt))
      have hpeq2 : (getP st.processes i).pid = (getP ps0 i).pid :=
        getP_field_eq (fun p => p.pid) h.base.pidmap hilen
      dsimp only
      rw [rr_admit_eq]
      dsimp only
      split
      case isTrue hpos =>
        exfalso
        omega
      case isFalse hpos =>
        refine ⟨?_, ?_, ?_, ?_⟩
        case refine_3 =>
          show st.completed + 1 ≤ order.length
          omega
        · dsimp only
          rw [List.map_append, hlog, List.take_succ, List.getElem?_eq_getElem hlt,
            List.map_append]
          simp only [List.map_cons, List.map_nil, Option.toList_some]
          rw [← hhead, hpeq2]
        · dsimp only
          rw [rr_finalize_concat]
          exact htail.symm
        · intro j hj hjc
          dsimp only at hj hjc ⊢
          rw [setP_setP] at hj hjc ⊢
          rw [length_setP] at hj
          by_cases hji : j = i
          · subst hji
            rw [getP_setP_self _ hilen] at hjc
            cases hjc
          · rw [getP_setP_ne _ (fun he => hji he.symm)] at hjc ⊢
            exact hrem j hj hjc

theorem rrInit_RRFcfs (ps : List Process) :
    RRFcfs (reset_processes ps) (sortedOrder (reset_processes ps)) (rrInit ps) := by
  refine ⟨rfl, ?_, Nat.zero_le _, ?_⟩
  · unfold rrInit
    dsimp only
    rw [rr_admit_eq]
    dsimp only
    rw [rr_finalize_concat]
    rfl
  · intro j hj hjc
    have hm : getP (reset_processes ps) j ∈ reset_processes ps := getP_mem hj
    obtain ⟨w, _, he⟩ := List.mem_map.mp hm
    show (getP (reset_processes ps) j).remaining_time
      = (getP (reset_processes ps) j).burst_time
    rw [← he]
    exact rfl

theorem rr_log_final (ps : List Process) (q I S : Int) (hv : ValidInput ps)
    (hq : 1 ≤ q) (hball : ∀ p ∈ ps, p.burst_time ≤ q) :
    (run_round_robin q false I S ps).execution_log.map (fun sl => sl.1)
      = (sortedOrder (reset_processes ps)).map
          (fun j => (getP (reset_processes ps) j).pid) := by
  have hlr := length_reset ps
  have hball0 : ∀ p ∈ reset_processes ps, p.burst_time ≤ q := by
    intro p hp
    obtain ⟨w, hw, rfl⟩ := List.mem_map.mp hp
    exact hball w hw
  have hcomb := @iterWhile_inv SimSt (loopDone ps.length) (rr_step q false I S)
    (fun x => RRInv (reset_processes ps) ((maxArrival ps : Int)) x ∧
      RRFcfs (reset_processes ps) (sortedOrder (reset_processes ps)) x)
    ?_ (rr_fuel ps) (rrInit ps) ⟨rrInit_inv hv, rrInit_RRFcfs ps⟩
  case refine_1 =>
    intro x _ hInv
    exact ⟨rr_step_inv q false I S hInv.1 hq, RRFcfs_rr_step q I S hInv.1 hInv.2 hball0⟩
  obtain ⟨hInv, hdone, _⟩ := rr_loop_facts q false I S ps hv hq
  have hcount := hInv.base.count
  have hlen2 := hInv.base.len
  have hle : ps.length ≤ (iterWhile (loopDone ps.length) (rr_step q false I S)
      (rr_fuel ps) (rrInit ps)).completed := by
    simpa [loopDone] using hdone
  have hcpl : (iterWhile (loopDone ps.length) (rr_step q false I S)
      (rr_fuel ps) (rrInit ps)).completed = ps.length := by
    have hcl : (iterWhile (loopDone ps.length) (rr_step q false I S)
        (rr_fuel ps) (rrInit ps)).processes.countP (fun p => p.is_completed)
        ≤ (iterWhile (loopDone ps.length) (rr_step q false I S)
        (rr_fuel ps) (rrInit ps)).processes.length := List.countP_le_length _
    omega
  have hlog := hcomb.2.1
  show (iterWhile (loopDone ps.length) (rr_step q false I S) (rr_fuel ps)
      (rrInit ps)).execution_log.map (fun sl => sl.1) = _
  rw [hlog, hcpl]
  rw [List.take_of_length_le (le_of_eq (by rw [length_sortedOrder, hlr]))]

/-- C8: with aging disabled and `time_quantum` at least every `burst_time`,
Round Robin dispatches each process exactly once, in arrival order: its
execution log lists the same pids in the same order as FCFS's, one slice per
process. -/
theorem C8_rr_degenerates_to_fcfs (ps : List Process) (q I S : Int)
    (hv : ValidInput ps) (hq : 1 ≤ q) (hball : ∀ p ∈ ps, p.burst_time ≤ q) :
    (run_round_robin q false I S ps).execution_log.map (fun sl => sl.1)
      = (run_fcfs ps).execution_log.map (fun sl => sl.1) ∧
    (run_round_robin q false I S ps).execution_log.length = ps.length := by
  have h1 := rr_log_final ps q I S hv hq hball
  have h2 := fcfs_log_final ps hv
  refine ⟨h1.trans h2.symm, ?_⟩
  have h3 := congrArg List.length h1
  simpa [length_sortedOrder, length_reset] using h3

theorem C8_witness :
    ValidInput [Process.make "A" "0" 2 0 1, Process.make "B" "0" 1 1 2] ∧
    (1 : Int) ≤ 3 ∧
    (∀ p ∈ [Process.make "A" "0" 2 0 1, Process.make "B" "0" 1 1 2],
        p.burst_time ≤ 3) ∧
    ((run_round_robin 3 false 2 1
        [Process.make "A" "0" 2 0 1, Process.make "B" "0" 1 1 2]).execution_log.map
          (fun sl => sl.1)
      = (run_fcfs [Process.make "A" "0" 2 0 1,
          Process.make "B" "0" 1 1 2]).execution_log.map (fun sl => sl.1) ∧
    (run_round_robin 3 false 2 1
        [Process.make "A" "0" 2 0 1, Process.make "B" "0" 1 1 2]).execution_log.length
      = [Process.make "A" "0" 2 0 1, Process.make "B" "0" 1 1 2].length) :=
  ⟨by decide, by decide, by decide,
    C8_rr_degenerates_to_fcfs [Process.make "A" "0" 2 0 1, Process.make "B" "0" 1 1 2]
      3 2 1 (by decide) (by decide) (by decide)⟩

end Sched
